import Mathlib

/-!
# suxec: path splitting, path splicing and the trust decision

A shallow embedding of `split_path.c.h`, `splice_path.c.h` and of
`license_program` from `suxec.c`.

Conventions of the embedding.

* A C string argument is a `List Char`; the string a `const char *` denotes is
  the run of bytes before the first NUL (`cstr`), the end of the list standing
  for the terminator when the list holds no NUL.  An absent (null) pointer is
  `none`.
* A character buffer is a `List Char` indexed from 0.  A read or a write outside
  the buffer has no defined behaviour in C; `rd` and `wr` return `none` there,
  and so does every loop whose fuel runs out.
* `malloc` and `strdup` are taken to succeed.
-/

namespace Suxec

/-! ## C strings and buffers -/

/-- The byte that terminates a C string. -/
def NUL : Char := Char.ofNat 0

/-- The string denoted by a `const char *`: the bytes before the first NUL. -/
def cstr (s : List Char) : List Char :=
  s.takeWhile (fun c => c != NUL)

/-- The C library function `strlen`. -/
def strlen (s : List Char) : Nat :=
  (cstr s).length

/-- Read of `buf[i]`; `none` outside the buffer. -/
def rd (buf : List Char) (i : Nat) : Option Char :=
  buf[i]?

/-- Write `buf[i] = c`; `none` outside the buffer. -/
def wr (buf : List Char) (i : Nat) (c : Char) : Option (List Char) :=
  if i < buf.length then some (buf.set i c) else none

/-- The C string that starts at `buf + i`, as `strdup(buf + i)` copies it; `none`
when no terminator follows inside the buffer. -/
def strAt (buf : List Char) (i : Nat) : Option (List Char) :=
  if NUL ∈ buf.drop i then some (cstr (buf.drop i)) else none

/-- Error codes left in `errno`. -/
inductive Errno where
  | ENOENT
  | EINVAL
  | other
  deriving DecidableEq, Repr

/-- Outcome of a C function that reports through its return code: `ok` is
`rc = 0` with the outputs, `fail` is `rc = -1` with `errno`, `undefined` is an
execution without defined behaviour. -/
inductive Result (α : Type) where
  | ok (a : α)
  | fail (errno : Errno)
  | undefined
  deriving DecidableEq, Repr

/-- C's `a && b` on conditions that read memory: the right operand is evaluated
only when the left one holds. -/
def andThen (a b : Option Bool) : Option Bool :=
  match a with
  | none => none
  | some false => some false
  | some true => b

/-- The condition `c == buf[i]`. -/
def charAt (buf : List Char) (i : Nat) (c : Char) : Option Bool :=
  (rd buf i).map (fun x => x == c)

/-! ## split_path.c.h -/

/-- `while (pathBuf+1 < endp && '/' == endp[-1]) --endp;` -/
def trimEnd (buf : List Char) : Nat → Option Nat
  | 0 => some 0
  | e + 1 =>
    if 1 < e + 1 then
      match rd buf e with
      | none => none
      | some c => if c = '/' then trimEnd buf e else some (e + 1)
    else some (e + 1)

/-- `while (pathBuf != endp) { if ('/' == *--endp) { lastSlash = endp; break; } }`,
returning `lastSlash` (`none` for the null pointer). -/
def findLastSlash (buf : List Char) : Nat → Option (Option Nat)
  | 0 => some none
  | e + 1 =>
    match rd buf e with
    | none => none
    | some c => if c = '/' then some (some e) else findLastSlash buf e

/-- `while (pathBuf != lastSlash) { if ('/' != lastSlash[-1]) break; --lastSlash; }` -/
def parentEnd (buf : List Char) : Nat → Option Nat
  | 0 => some 0
  | l + 1 =>
    match rd buf l with
    | none => none
    | some c => if c ≠ '/' then some (l + 1) else parentEnd buf l

/-- The body of `split_path` after the argument check: `pathBuf` holds the copy
of the path and `endp` is what `stpcpy` returned.  The result is
`(dirName, baseName)`. -/
def splitBuf (pathBuf : List Char) (endp : Nat) : Option (List Char × List Char) := do
  let endp ← trimEnd pathBuf endp
  let pathBuf ← wr pathBuf endp NUL
  let lastSlash ← findLastSlash pathBuf endp
  match lastSlash with
  | none => do
    let baseName ← strAt pathBuf 0
    pure (['.'], baseName)
  | some ls => do
    let baseName ← strAt pathBuf (ls + 1)
    let ls ← parentEnd pathBuf ls
    let pathBuf ← if ls = 0 then wr pathBuf (ls + 1) NUL else wr pathBuf ls NUL
    let dirName ← strAt pathBuf 0
    pure (dirName, baseName)

/-- The function `split_path(aPath, &dirName, &baseName)`. -/
def split_path (aPath : Option (List Char)) : Result (List Char × List Char) :=
  match aPath with
  | none => .fail .ENOENT
  | some p =>
    if cstr p = [] then .fail .ENOENT
    else
      match splitBuf (cstr p ++ [NUL]) (strlen p) with
      | none => .undefined
      | some r => .ok r

/-! ## splice_path.c.h -/

/-- `size_t pathBufLen = lhsLen + sizeof("/") + rhsLen + sizeof("/");` -/
def pathBufLen (lhsLen rhsLen : Nat) : Nat :=
  lhsLen + 2 + rhsLen + 2

/-- Modelled from the spec: `stpcpyv` of `stpcpyv.c.h`, which is not among the
sources.  It writes its string arguments one after the other into a buffer of
`size` bytes, terminates the result, and fails when they do not fit. -/
def stpcpyv (size : Nat) (parts : List (List Char)) : Option (List Char) :=
  let s := (parts.map cstr).flatten
  if s.length + 1 ≤ size then some (s ++ [NUL]) else none

/-- The initialised part of `pathBuf` after lines 60-73 of `splice_path`. -/
def fillPathBuf (aDirName aBaseName : Option (List Char)) : Result (List Char) :=
  let lhsLen := match aDirName with
    | some d => strlen d
    | none => 0
  let rhsLen := match aBaseName with
    | some b => strlen b
    | none => 0
  if lhsLen = 0 then
    match aBaseName with
    | none => .undefined
    | some b => .ok (cstr b ++ ['/', NUL])
  else if rhsLen = 0 then
    match aDirName with
    | none => .undefined
    | some d => .ok (cstr d ++ ['/', NUL])
  else
    match aDirName, aBaseName with
    | some d, some b =>
      match stpcpyv (pathBufLen lhsLen rhsLen) [d, ['/'], b, ['/']] with
      | none => .fail .other
      | some buf => .ok buf
    | _, _ => .undefined

/-- The scanner state: the buffer, the write cursor and the read cursor. -/
structure Scan where
  buf : List Char
  lhsp : Nat
  rhsp : Nat
  deriving DecidableEq, Repr

/-- How one pass through the body of `while (1)` ends. -/
inductive Flow where
  | again (s : Scan)
  | stop (s : Scan)
  deriving DecidableEq, Repr

/-- `while ('/' != *rhsp) ++rhsp;` -/
def skipName : Nat → List Char → Nat → Option Nat
  | 0, _, _ => none
  | fuel + 1, buf, rhsp =>
    match rd buf rhsp with
    | none => none
    | some c => if c ≠ '/' then skipName fuel buf (rhsp + 1) else some rhsp

/-- `while ('/' == rhsp[1]) ++rhsp;` -/
def skipSlashes : Nat → List Char → Nat → Option Nat
  | 0, _, _ => none
  | fuel + 1, buf, rhsp =>
    match rd buf (rhsp + 1) with
    | none => none
    | some c => if c = '/' then skipSlashes fuel buf (rhsp + 1) else some rhsp

/-- `do *lhsp++ = *rhsp++; while ('/' != *rhsp);` -/
def copyName : Nat → Scan → Option Scan
  | 0, _ => none
  | fuel + 1, s =>
    match rd s.buf s.rhsp with
    | none => none
    | some c =>
      match wr s.buf s.lhsp c with
      | none => none
      | some buf =>
        match rd buf (s.rhsp + 1) with
        | none => none
        | some c' =>
          if c' ≠ '/' then copyName fuel ⟨buf, s.lhsp + 1, s.rhsp + 1⟩
          else some ⟨buf, s.lhsp + 1, s.rhsp + 1⟩

/-- The `do ... while (pathBuf != lhsp)` loop of lines 204-229, entered with the
write cursor at `lhsp`; it returns the buffer and the new write cursor. -/
def retract (buf : List Char) : Nat → Option (List Char × Nat)
  | 0 => none
  | l + 1 =>
    match rd buf l with
    | none => none
    | some c =>
      if c = '/' then some (buf, if l = 0 then l + 1 else l)
      else if l = 0 then
        match wr buf l '.' with
        | none => none
        | some buf => some (buf, l + 1)
      else retract buf l

/-- The condition of lines 184-190 without its two negations: the emitted path
is `..` or ends with `/..`. -/
def endsDotDot (buf : List Char) (lhsp : Nat) : Option Bool :=
  match andThen (some (decide (lhsp = 2)))
      (andThen (charAt buf (lhsp - 2) '.') (charAt buf (lhsp - 1) '.')) with
  | none => none
  | some true => some true
  | some false =>
    andThen (some (decide (3 ≤ lhsp)))
      (andThen (charAt buf (lhsp - 3) '/')
        (andThen (charAt buf (lhsp - 2) '.') (charAt buf (lhsp - 1) '.')))

/-- Lines 241-243 followed by the next pass of the main loop. -/
def appendName (s : Scan) : Option Flow :=
  (copyName s.buf.length s).map Flow.again

/-- Lines 102-243: the classification of the name that follows the slash at
`rhsp`, once the run of slashes has been skipped. -/
def scanName (buf : List Char) (lhsp rhsp : Nat) : Option Flow :=
  match rd buf (rhsp + 1) with
  | none => none
  | some c1 =>
    if c1 ≠ '.' then
      if c1 = NUL then
        if lhsp = 0 then
          match wr buf lhsp '/' with
          | none => none
          | some buf => some (.stop ⟨buf, lhsp + 1, rhsp⟩)
        else some (.stop ⟨buf, lhsp, rhsp⟩)
      else if lhsp = 1 then
        match rd buf (lhsp - 1) with
        | none => none
        | some p =>
          if p = '/' then appendName ⟨buf, lhsp - 1, rhsp⟩
          else if p = '.' then appendName ⟨buf, lhsp - 1, rhsp + 1⟩
          else appendName ⟨buf, lhsp, rhsp⟩
      else appendName ⟨buf, lhsp, rhsp⟩
    else
      match rd buf (rhsp + 2) with
      | none => none
      | some c2 =>
        if c2 = '/' then some (.again ⟨buf, lhsp, rhsp + 2⟩)
        else
          match andThen (some (decide (c2 = '.'))) (charAt buf (rhsp + 3) '/') with
          | none => none
          | some false => appendName ⟨buf, lhsp, rhsp⟩
          | some true =>
            if lhsp = 0 then some (.again ⟨buf, lhsp, rhsp + 3⟩)
            else
              match andThen (some (decide (lhsp = 1))) (charAt buf (lhsp - 1) '.') with
              | none => none
              | some true =>
                match wr buf lhsp '.' with
                | none => none
                | some buf => some (.again ⟨buf, lhsp + 1, rhsp + 3⟩)
              | some false =>
                match endsDotDot buf lhsp with
                | none => none
                | some true => appendName ⟨buf, lhsp, rhsp⟩
                | some false =>
                  match andThen (some (decide (lhsp ≠ 0)))
                      ((andThen (some (decide (lhsp = 1))) (charAt buf (lhsp - 1) '/')).map not) with
                  | none => none
                  | some false => some (.again ⟨buf, lhsp, rhsp + 3⟩)
                  | some true =>
                    match retract buf lhsp with
                    | none => none
                    | some (buf, lhsp) => some (.again ⟨buf, lhsp, rhsp + 3⟩)

/-- One pass through the body of `while (1)`, lines 89-244. -/
def scanStep (s : Scan) : Option Flow :=
  match skipSlashes s.buf.length s.buf s.rhsp with
  | none => none
  | some rhsp => scanName s.buf s.lhsp rhsp

/-- The loop `while (1)` of lines 89-244, returning the state at `break`. -/
def scanLoop : Nat → Scan → Option Scan
  | 0, _ => none
  | fuel + 1, s =>
    match scanStep s with
    | none => none
    | some (.stop s) => some s
    | some (.again s) => scanLoop fuel s

/-- Lines 77-250 of `splice_path`: the in-place scan of the filled buffer, the
terminating write and the string handed back through `*aPath`. -/
def scanPath (pathBuf : List Char) : Option (List Char) :=
  match skipName pathBuf.length pathBuf 0 with
  | none => none
  | some rhsp =>
    match scanLoop pathBuf.length ⟨pathBuf, rhsp, rhsp⟩ with
    | none => none
    | some s =>
      match wr s.buf s.lhsp NUL with
      | none => none
      | some buf => strAt buf 0

/-- The function `splice_path(&path, aDirName, aBaseName)`. -/
def splice_path (aDirName aBaseName : Option (List Char)) : Result (List Char) :=
  match fillPathBuf aDirName aBaseName with
  | .ok pathBuf =>
    match scanPath pathBuf with
    | none => .undefined
    | some path => .ok path
  | .fail e => .fail e
  | .undefined => .undefined

/-! ## A functional reading of the scan

The definitions below describe what the scan of `splice_path` computes, name by
name.  They are not part of the embedding; `scanPath` is proved to agree with
them. -/

/-- The first component of a path and the components after it, a component being
a maximal run without a slash. -/
def splitFirst : List Char → List Char × List (List Char)
  | [] => ([], [])
  | c :: cs =>
    if c = '/' then ([], (splitFirst cs).1 :: (splitFirst cs).2)
    else (c :: (splitFirst cs).1, (splitFirst cs).2)

/-- The components of a path: the runs between its slashes, the empty ones
included. -/
def components (s : List Char) : List (List Char) :=
  (splitFirst s).1 :: (splitFirst s).2

/-- The names a scan meets after the first component: the non-empty later
components. -/
def laterNames (s : List Char) : List (List Char) :=
  (splitFirst s).2.filter (fun c => c ≠ [])

/-- The emitted path is `..` or ends with `/..`, read off its reversal. -/
def endsWithDotDot (out : List Char) : Bool :=
  match out.reverse with
  | a :: b :: t => a == '.' && b == '.' && (t.head? == none || t.head? == some '/')
  | _ => false

/-- The effect of the retraction loop on the reversed emitted path. -/
def retractRev : List Char → List Char
  | [] => []
  | c :: t =>
    if c = '/' then (if t = [] then ['/'] else t)
    else if t = [] then ['.']
    else retractRev t

/-- The emitted path after the retraction loop of lines 204-229. -/
def retractOut (out : List Char) : List Char :=
  (retractRev out.reverse).reverse

/-- The emitted path after the scan has dealt with one name. -/
def stepName (out name : List Char) : List Char :=
  if name = ['.'] then out
  else if name = ['.', '.'] then
    if out = [] then []
    else if out = ['.'] then ['.', '.']
    else if endsWithDotDot out then out ++ '/' :: name
    else if out = ['/'] then out
    else retractOut out
  else if name.head? ≠ some '.' then
    if out = ['/'] then '/' :: name
    else if out = ['.'] then name
    else out ++ '/' :: name
  else out ++ '/' :: name

/-- The emitted path at the end of the scan: a lone slash when nothing was
emitted. -/
def finishOut (out : List Char) : List Char :=
  if out = [] then ['/'] else out

/-- The path the scan computes from the joined names `s` (the buffer without its
sentinel slash and terminator). -/
def normalPath (s : List Char) : List Char :=
  finishOut ((laterNames s).foldl stepName (splitFirst s).1)

/-- The string `splice_path` joins before scanning, without the sentinel slash. -/
def joined (d b : List Char) : List Char :=
  if cstr d = [] then cstr b
  else if cstr b = [] then cstr d
  else cstr d ++ '/' :: cstr b

/-- The later components written back with the slash that precedes each. -/
def slashed : List (List Char) → List Char
  | [] => []
  | c :: cs => '/' :: (c ++ slashed cs)

/-! ## The specification's reading of `split` -/

/-- The path `p` with its trailing slashes removed, a slash at position 0 never
being removed. -/
def trimmedPath : List Char → List Char
  | [] => []
  | c :: t => c :: t.rdropWhile (fun x => x == '/')

/-- The result of `split` in the words of the specification: with `t` the
trimmed path, `(".", t)` when `t` has no slash; otherwise the leaf is what follows
the last slash of `t`, and the parent is the prefix of `t` that ends just before the
run of slashes ending at that last slash, or `/` when that prefix is empty. -/
def splitSpec (p : List Char) : List Char × List Char :=
  let t := trimmedPath p
  if '/' ∈ t then
    let leaf := t.rtakeWhile (fun x => x != '/')
    let parent := (t.rdropWhile (fun x => x != '/')).rdropWhile (fun x => x == '/')
    (if parent = [] then ['/'] else parent, leaf)
  else (['.'], t)

/-! ## suxec.c: the platform -/

/-- The fields of `struct stat` that `suxec.c` reads. -/
structure Stat where
  st_uid : Nat
  st_mode : Nat
  deriving DecidableEq, Repr

/-- The fields of `struct passwd` that `suxec.c` reads. -/
structure Passwd where
  pw_name : List Char
  pw_uid : Nat
  pw_gid : Nat
  pw_dir : List Char
  deriving DecidableEq, Repr

/-- The two sets of flags `suxec.c` passes to `openat`:
`O_RDONLY | O_PATH | O_DIRECTORY | O_CLOEXEC` and
`O_RDONLY | O_PATH | O_NOFOLLOW | O_CLOEXEC`. -/
inductive OpenFlags where
  | directory
  | nofollow
  deriving DecidableEq, Repr

/-- The operating system as `license_program` sees it: each field is the answer of
one platform call, `none` standing for its failure (with `errno` set by the
platform).  File descriptors, uids and gids are numbers. -/
structure Platform where
  /-- The supplementary groups `getgroups(2)` reports, once the buffer is large enough. -/
  getgroups : Option (List Nat)
  /-- The real gid, `getgid(2)`. -/
  getgid : Nat
  /-- The groups `getgrouplist(3)` reports for a user name and primary gid. -/
  getgrouplist : List Char → Nat → Option (List Nat)
  /-- The password database, `getpwuid(3)`. -/
  getpwuid : Nat → Option Passwd
  /-- `openat(2)` relative to a descriptor (`none` is `AT_FDCWD`). -/
  openat : Option Nat → List Char → OpenFlags → Option Nat
  /-- `fstat(fd)`, and `fstatat(fd, "", AT_EMPTY_PATH | AT_SYMLINK_NOFOLLOW)`. -/
  fstat : Nat → Option Stat
  /-- `fstatat(fd, path, 0)`. -/
  fstatat : Nat → List Char → Option Stat
  /-- `stat(path)`. -/
  stat : List Char → Option Stat
  /-- The whole target that `readlinkat(fd, "")` yields. -/
  readlinkat : Nat → Option (List Char)
  /-- The working directory, `get_current_dir_name(3)`. -/
  get_current_dir_name : Option (List Char)

/-- Mode bits of `<sys/stat.h>` with their Linux values. -/
def S_IFMT : Nat := 0o170000

/-- Mode bits of `<sys/stat.h>` with their Linux values. -/
def S_IFREG : Nat := 0o100000

/-- Mode bits of `<sys/stat.h>` with their Linux values. -/
def S_IFLNK : Nat := 0o120000

/-- Mode bits of `<sys/stat.h>` with their Linux values. -/
def S_IXUSR : Nat := 0o100

/-- Mode bits of `<sys/stat.h>` with their Linux values. -/
def S_IRGRP : Nat := 0o40

/-- Mode bits of `<sys/stat.h>` with their Linux values. -/
def S_IWGRP : Nat := 0o20

/-- Mode bits of `<sys/stat.h>` with their Linux values. -/
def S_IROTH : Nat := 0o4

/-- Mode bits of `<sys/stat.h>` with their Linux values. -/
def S_IWOTH : Nat := 0o2

/-- The macro `S_ISREG`. -/
def S_ISREG (m : Nat) : Bool := m &&& S_IFMT == S_IFREG

/-- The macro `S_ISLNK`. -/
def S_ISLNK (m : Nat) : Bool := m &&& S_IFMT == S_IFLNK

/-- The value `(gid_t) -1`, which `create_user` reads as "no gid given". -/
def noGid : Nat := 2 ^ 32 - 1

/-- The C library function `strrchr`: the index of the last `c` in the string. -/
def strrchr (s : List Char) (c : Char) : Option Nat :=
  if c ∈ cstr s then some (((cstr s).rdropWhile (fun x => x != c)).length - 1) else none

/-- The C library function `strchr`: the index of the first `c` in the string. -/
def strchr (s : List Char) (c : Char) : Option Nat :=
  if c ∈ cstr s then some ((cstr s).takeWhile (fun x => x != c)).length else none

/-- The process environment: names with their values, at most one per name. -/
abbrev Env := List (List Char × List Char)

/-- The C library function `setenv(name, value, 1)`: it fails (`EINVAL`) on an empty
name or a name with `=`, and otherwise binds the name, replacing an earlier binding. -/
def setenv (env : Env) (name value : List Char) : Option Env :=
  if cstr name = [] ∨ '=' ∈ cstr name then none
  else some (env.filter (fun e => e.1 ≠ cstr name) ++ [(cstr name, cstr value)])

/-! ## suxec.c: handles and users -/

/-- The structure `struct dirfd`. -/
structure DirFd where
  mFd : Nat
  mPath : List Char
  deriving DecidableEq, Repr

/-- The structure `struct symlinkfd`. -/
structure SymlinkFd where
  mFd : Nat
  mName : List Char
  mDir : DirFd
  deriving DecidableEq, Repr

/-- The structure `struct user`; `mGroups` is `none` until the groups are fetched. -/
structure User where
  mUid : Nat
  mGid : Nat
  mName : List Char
  mHome : List Char
  mGroups : Option (List Nat)
  deriving DecidableEq, Repr

/-- The structure `struct app`, with `mEnv` as the `NAME=VALUE` arguments and `mCmd`
as the command argument. -/
structure App where
  mEnv : List (List Char)
  mCmd : List Char
  mPath : List Char
  mGroups : List Nat
  mRequestor : User
  mLicensor : User
  mLicensee : SymlinkFd
  deriving DecidableEq, Repr

/-- How a run of a function that may call `die` ends: it returns, it exits with a
status, it is still running when the fuel of a loop is spent, or it has left defined
behaviour. -/
inductive Run (α : Type) where
  | returned (a : α)
  | exited (status : Nat)
  | running
  | undefined
  deriving DecidableEq, Repr

/-- The function `die`: whatever it prints, it ends in `exit(127)`. -/
def die {α : Type} : Run α := .exited 127

/-- The function `usage`: it prints the usage line and calls `die(0)`. -/
def usage {α : Type} : Run α := die

/-- The function `create_grouplist`: the groups of the process, the real gid added
when it is missing, sorted by `qsort` with `create_grouplist_rank_gid_`. -/
def create_grouplist (P : Platform) : Option (List Nat) :=
  match P.getgroups with
  | none => none
  | some groupBuf =>
    let groupList := if P.getgid ∈ groupBuf then groupBuf else groupBuf ++ [P.getgid]
    some (groupList.insertionSort (fun a b => a ≤ b))

/-- The function `create_grouplist_user`: the groups of a user, sorted by `qsort`
with `create_grouplist_rank_gid_`. -/
def create_grouplist_user (P : Platform) (aName : List Char) (aGid : Nat) :
    Option (List Nat) :=
  match P.getgrouplist aName aGid with
  | none => none
  | some groupBuf => some (groupBuf.insertionSort (fun a b => a ≤ b))

/-- The function `create_user`. -/
def create_user (P : Platform) (aUid aGid : Nat) : Option User :=
  match P.getpwuid aUid with
  | none => none
  | some pw =>
    if aGid = noGid then some ⟨pw.pw_uid, pw.pw_gid, cstr pw.pw_name, cstr pw.pw_dir, none⟩
    else some ⟨aUid, aGid, cstr pw.pw_name, cstr pw.pw_dir, none⟩

/-- The function `fetch_user_groups`; `none` is the return code -1. -/
def fetch_user_groups (P : Platform) (self : User) : Option User :=
  match self.mGroups with
  | some _ => some self
  | none =>
    match create_grouplist_user P self.mName self.mGid with
    | none => none
    | some gs => some { self with mGroups := some gs }

/-- The function `create_dirfd`; `none` is the null return. -/
def create_dirfd (P : Platform) (aAt : Option DirFd) (aPath : Option (List Char)) :
    Option DirFd :=
  match aPath with
  | none => none
  | some p =>
    if cstr p = [] then none
    else
      match P.openat (aAt.map DirFd.mFd) (cstr p) .directory with
      | none => none
      | some dirFd =>
        if (cstr p).head? = some '.' ∧ aPath = none then
          match aAt with
          | some at_ => some ⟨dirFd, cstr at_.mPath⟩
          | none => (P.get_current_dir_name).map (fun cwd => ⟨dirFd, cstr cwd⟩)
        else if (cstr p).head? = some '/' then some ⟨dirFd, cstr p⟩
        else
          match splice_path (aAt.map DirFd.mPath) (some p) with
          | .ok dirPath => some ⟨dirFd, dirPath⟩
          | _ => none

/-- The function `create_symlinkfd`; `none` is the null return. -/
def create_symlinkfd (P : Platform) (aAt : Option DirFd) (aPath : List Char) :
    Option SymlinkFd :=
  match split_path (some aPath) with
  | .ok (dirName, baseName) =>
    match create_dirfd P aAt (some dirName) with
    | none => none
    | some dirFd =>
      match P.openat (some dirFd.mFd) baseName .nofollow with
      | none => none
      | some symlinkFd => some ⟨symlinkFd, baseName, dirFd⟩
  | _ => none

/-- The function `read_symlinkfd`: the target of the link as a C string. -/
def read_symlinkfd (P : Platform) (self : SymlinkFd) : Option (List Char) :=
  (P.readlinkat self.mFd).map cstr

/-- What `follow_symlinkfd` reports: 0 with the handle replaced, -1 with
`errno = 0` because the entry is not a symlink, or -1 with `errno` set. -/
inductive Followed where
  | next (s : SymlinkFd)
  | notSymlink
  | failed
  deriving DecidableEq, Repr

/-- The function `follow_symlinkfd`. -/
def follow_symlinkfd (P : Platform) (self : SymlinkFd) : Followed :=
  match P.fstat self.mFd with
  | none => .failed
  | some symlinkStat =>
    if !S_ISLNK symlinkStat.st_mode then .notSymlink
    else
      match read_symlinkfd P self with
      | none => .failed
      | some symlink =>
        match create_symlinkfd P (some self.mDir) symlink with
        | none => .failed
        | some followFd => .next followFd

/-! ## suxec.c: license_program -/

/-- Lines 835-839: the loop that skips the `NAME=VALUE` arguments, returning how
many it skipped; `none` is the call of `usage`. -/
def skipAssignments : List (List Char) → Option Nat
  | [] => some 0
  | a :: rest =>
    match strchr a '=' with
    | none => some 0
    | some _ =>
      if (cstr a).head? = some '=' then none
      else (skipAssignments rest).map (fun n => n + 1)

/-- Lines 976-984: the loop that follows the chain of symlinks. -/
def followLoop (P : Platform) : Nat → SymlinkFd → Run SymlinkFd
  | 0, _ => .running
  | fuel + 1, s =>
    match follow_symlinkfd P s with
    | .next s' => followLoop P fuel s'
    | .notSymlink => .returned s
    | .failed => die

/-- The four names of lines 1024-1027; `none` is the pointer `foundEnv`, which
points at an empty string. -/
structure EnvNames where
  logNameEnv : Option (List Char)
  pathEnv : Option (List Char)
  homeEnv : Option (List Char)
  shellEnv : Option (List Char)
  deriving DecidableEq, Repr

/-- The condition `!strcmp(s, name)` for one of the four names. -/
def nameIs (s : List Char) (name : Option (List Char)) : Bool :=
  cstr s == (name.getD [])

/-- Lines 1031-1051: the loop over the `NAME=VALUE` arguments.  `argv` holds the
arguments as the loop rewrites them, `envp` and `cmd` are the positions of the loop
pointer and of `mCmd`; the loop has no statement that advances `envp`. -/
def mergeEnv : Nat → List (List Char) → Nat → Nat → EnvNames → Env → Run (EnvNames × Env)
  | 0, _, _, _, _, _ => .running
  | fuel + 1, argv, envp, cmd, names, env =>
    if envp = cmd then .returned (names, env)
    else
      match argv[envp]? with
      | none => .undefined
      | some arg =>
        match strchr arg '=' with
        | none => die
        | some envSep =>
          let arg' := arg.set envSep NUL
          let value := arg.drop (envSep + 1)
          let names' :=
            if nameIs arg' names.logNameEnv then { names with logNameEnv := none }
            else if nameIs arg' names.pathEnv then { names with pathEnv := none }
            else if nameIs arg' names.homeEnv then { names with homeEnv := none }
            else if nameIs arg' names.shellEnv then { names with shellEnv := none }
            else names
          match setenv env arg' value with
          | none => die
          | some env' => mergeEnv fuel (argv.set envp arg') envp cmd names' env'

/-- Lines 1053-1080: the defaults for the names the caller did not supply. -/
def defaultEnv (names : EnvNames) (licensor : User) (env : Env) : Run Env :=
  let step (name : Option (List Char)) (value : List Char) (r : Run Env) : Run Env :=
    match r with
    | .returned e =>
      match name with
      | none => .returned e
      | some n =>
        match setenv e n value with
        | none => die
        | some e' => .returned e'
    | other => other
  step names.pathEnv "/usr/bin:/bin".toList
    (step names.shellEnv "/bin/sh".toList
      (step names.homeEnv licensor.mHome
        (step names.logNameEnv licensor.mName (.returned env))))

/-- Sequencing of two parts of a function: the second runs when the first returns. -/
def Run.bind {α β : Type} (r : Run α) (f : α → Run β) : Run β :=
  match r with
  | .returned a => f a
  | .exited status => .exited status
  | .running => .running
  | .undefined => .undefined

/-- Lines 808-848 of `license_program`: the arguments left after the options are
some `NAME=VALUE` arguments and one non-empty command; the result is the number of
`NAME=VALUE` arguments and the command. -/
def parseArgs (optOk : Bool) (args : List (List Char)) : Run (Nat × List Char) :=
  if !optOk then usage
  else if args = [] then usage
  else
    match skipAssignments args with
    | none => usage
    | some n =>
      match args.drop n with
      | [cmd] => if cstr cmd = [] then usage else .returned (n, cmd)
      | _ => usage

/-- What lines 850-896 of `license_program` establish. -/
structure Parties where
  groups : List Nat
  requestor : User
  licensee : SymlinkFd
  licensor : User
  deriving DecidableEq, Repr

/-- Lines 850-896 of `license_program`: the groups of the process, the requestor,
the licensee entry and the licensor. -/
def identify (P : Platform) (aUid aGid : Nat) (cmd : List Char) : Run Parties :=
  match create_grouplist P with
  | none => die
  | some groups =>
    match create_user P aUid aGid with
    | none => die
    | some requestor =>
      match create_symlinkfd P none cmd with
      | none => die
      | some licensee =>
        match P.fstat licensee.mDir.mFd with
        | none => die
        | some dirStat =>
          match create_user P dirStat.st_uid noGid with
          | none => die
          | some licensor =>
            match fetch_user_groups P licensor with
            | none => die
            | some licensor => .returned ⟨groups, requestor, licensee, licensor⟩

/-- Lines 914-924 of `license_program`: the name of the licensee directory. -/
def checkLicenseeDir (mPath : List Char) : Run Unit :=
  match strrchr mPath '/' with
  | none => die
  | some slash =>
    if slash = 0 then die
    else if (cstr (mPath.drop (slash + 1))).head? = some '.' then die
    else if (cstr (mPath.drop (slash + 1))).head? = some '@' then die
    else .returned ()

/-- Lines 933-951 of `license_program`: the parent of the licensee directory. -/
def checkParentDir (P : Platform) (licensee : SymlinkFd) (licensor : User) : Run Unit :=
  match P.fstatat licensee.mDir.mFd ['.', '.'] with
  | none => die
  | some parentDirStat =>
    if parentDirStat.st_mode &&& (S_IRGRP ||| S_IWGRP) ≠ 0 then die
    else if parentDirStat.st_mode &&& (S_IROTH ||| S_IWOTH) ≠ 0 then die
    else if parentDirStat.st_uid ≠ licensor.mUid then die
    else .returned ()

/-- Lines 957-968 of `license_program`: the owner of the registration entry. -/
def checkSymlinkOwner (P : Platform) (licensee : SymlinkFd) (requestor : User) : Run Unit :=
  match P.fstat licensee.mFd with
  | none => die
  | some symLinkStat =>
    if symLinkStat.st_uid ≠ requestor.mUid then die
    else .returned ()

/-- Lines 991-1016 of `license_program`: the path of the resolved entry and the
checks on the file it names. -/
def checkTarget (P : Platform) (resolved : SymlinkFd) (licensor : User) : Run (List Char) :=
  match splice_path (some resolved.mDir.mPath) (some resolved.mName) with
  | .fail _ => die
  | .undefined => .undefined
  | .ok path =>
    match P.stat path with
    | none => die
    | some linkStat =>
      if linkStat.st_uid ≠ licensor.mUid then die
      else if !S_ISREG linkStat.st_mode || linkStat.st_mode &&& S_IXUSR == 0 then die
      else .returned path

/-- Lines 1024-1080 of `license_program`: the environment for the program. -/
def buildEnv (fuel : Nat) (args : List (List Char)) (n : Nat) (licensor : User) (env : Env) :
    Run Env :=
  (mergeEnv fuel args 0 n
    ⟨some "LOGNAME".toList, some "PATH".toList, some "HOME".toList, some "SHELL".toList⟩
    env).bind fun r => defaultEnv r.1 licensor r.2

/-- The function `license_program`.  `optOk` says that `getopt_long` met no unknown
option, `args` is `argv` from `optind` on, `env` is the environment on entry, and
`fuel` bounds the passes of its loops.  It returns the filled `struct app` and the
environment it leaves. -/
def license_program (fuel : Nat) (P : Platform) (optOk : Bool) (args : List (List Char))
    (aUid aGid : Nat) (env : Env) : Run (App × Env) :=
  (parseArgs optOk args).bind fun parsed =>
  (identify P aUid aGid parsed.2).bind fun who =>
  (checkLicenseeDir who.licensee.mDir.mPath).bind fun _ =>
  (checkParentDir P who.licensee who.licensor).bind fun _ =>
  (checkSymlinkOwner P who.licensee who.requestor).bind fun _ =>
  (followLoop P fuel who.licensee).bind fun resolved =>
  (checkTarget P resolved who.licensor).bind fun path =>
  (buildEnv fuel args parsed.1 who.licensor env).bind fun env2 =>
  .returned (⟨args.take parsed.1, parsed.2, path, who.groups, who.requestor, who.licensor,
    resolved⟩, env2)

/-- A platform for the end-to-end scenario: the requestor (uid 200) owns the symlink
`/r/l/j`, whose target is `../../b/x`; the licensor (uid 100) owns `/r/l`, its parent
`/r` (mode 0700) and the regular file `/b/x` (mode 0755). -/
def scenario : Platform where
  getgroups := some [7]
  getgid := 20
  getgrouplist := fun _ _ => some [10, 5]
  getpwuid := fun u =>
    if u = 100 then some ⟨['l', 'i', 'c'], 100, 10, ['/', 'h']⟩
    else if u = 200 then some ⟨['r', 'e', 'q'], 200, 20, ['/', 'q']⟩
    else none
  openat := fun dir p flags =>
    if dir = none ∧ p = ['/', 'r', '/', 'l'] ∧ flags = .directory then some 3
    else if dir = some 3 ∧ p = ['j'] ∧ flags = .nofollow then some 4
    else if dir = some 3 ∧ p = ['.', '.', '/', '.', '.', '/', 'b'] ∧ flags = .directory then some 5
    else if dir = some 5 ∧ p = ['x'] ∧ flags = .nofollow then some 6
    else none
  fstat := fun fd =>
    if fd = 3 then some ⟨100, 0o40755⟩
    else if fd = 4 then some ⟨200, 0o120777⟩
    else if fd = 6 then some ⟨100, 0o100755⟩
    else none
  fstatat := fun fd p => if fd = 3 ∧ p = ['.', '.'] then some ⟨100, 0o40700⟩ else none
  stat := fun p => if p = ['/', 'b', '/', 'x'] then some ⟨100, 0o100755⟩ else none
  readlinkat := fun fd =>
    if fd = 4 then some ['.', '.', '/', '.', '.', '/', 'b', '/', 'x'] else none
  get_current_dir_name := some ['/']

/-- The `struct app` that `license_program` fills in the scenario. -/
def scenarioApp : App where
  mEnv := []
  mCmd := ['/', 'r', '/', 'l', '/', 'j']
  mPath := ['/', 'b', '/', 'x']
  mGroups := [7, 20]
  mRequestor := ⟨200, 20, ['r', 'e', 'q'], ['/', 'q'], none⟩
  mLicensor := ⟨100, 10, ['l', 'i', 'c'], ['/', 'h'], some [5, 10]⟩
  mLicensee := ⟨6, ['x'], ⟨5, ['/', 'b']⟩⟩

/-- The environment `license_program` leaves in the scenario. -/
def scenarioEnv : Env :=
  [("LOGNAME".toList, ['l', 'i', 'c']), ("HOME".toList, ['/', 'h']),
    ("SHELL".toList, "/bin/sh".toList), ("PATH".toList, "/usr/bin:/bin".toList)]

/-! ## suxec.c: identity calls, swap_reuid, impersonate_user and main -/

/-- The identity calls of the platform over a process state `σ`, with `execv`.
A call that can fail returns the state it leaves, or `none` for the return value -1,
in which case the process state is as before.  An argument `(uid_t) -1` or
`(gid_t) -1` is `none`. -/
structure Kernel (σ : Type) where
  /-- The real uid, `getuid(2)`. -/
  getuid : σ → Nat
  /-- The effective uid, `geteuid(2)`. -/
  geteuid : σ → Nat
  /-- The real gid, `getgid(2)`. -/
  getgid : σ → Nat
  /-- The effective gid, `getegid(2)`. -/
  getegid : σ → Nat
  /-- The filesystem uid, as `setfsuid(-1)` returns it without changing anything. -/
  fsuid : σ → Nat
  /-- The filesystem gid, as `setfsgid(-1)` returns it without changing anything. -/
  fsgid : σ → Nat
  /-- The supplementary groups of the process. -/
  groups : σ → List Nat
  /-- The call `setgroups(2)`. -/
  setgroups : σ → List Nat → Option σ
  /-- The call `setgid(2)`. -/
  setgid : σ → Nat → Option σ
  /-- The call `setuid(2)`. -/
  setuid : σ → Nat → Option σ
  /-- The call `setreuid(2)`. -/
  setreuid : σ → Option Nat → Option Nat → Option σ
  /-- The call `setregid(2)`. -/
  setregid : σ → Option Nat → Option Nat → Option σ
  /-- Whether `clearenv(3)` succeeds. -/
  clearenv : σ → Bool
  /-- Whether `execv(2)` of a path replaces the process image. -/
  execv : σ → List Char → Bool

/-- A call that changes the identity of the process. -/
inductive Call where
  | setgroups (list : List Nat)
  | setgid (gid : Nat)
  | setuid (uid : Nat)
  | setreuid (ruid euid : Option Nat)
  | setregid (rgid egid : Option Nat)
  deriving DecidableEq, Repr

/-- One identity call the process made: the line of `suxec.c` that made it, the call,
and whether it succeeded. -/
structure Event where
  line : Nat
  call : Call
  ok : Bool
  deriving DecidableEq, Repr

/-- The process: its state in the kernel and the identity calls it has made, oldest
first. -/
structure Proc (σ : Type) where
  state : σ
  log : List Event
  deriving DecidableEq

/-- An identity call made at a line: the call is logged, and the state is the one the
kernel returns, or the old one when the call fails. -/
def Proc.attempt {σ : Type} (p : Proc σ) (line : Nat) (call : Call) (r : Option σ) : Proc σ :=
  match r with
  | some s => ⟨s, p.log ++ [⟨line, call, true⟩]⟩
  | none => ⟨p.state, p.log ++ [⟨line, call, false⟩]⟩

/-- The function `swap_reuid`. -/
def swap_reuid {σ : Type} (K : Kernel σ) (p : Proc σ) : Proc σ × Run Unit :=
  let uid := K.getuid p.state
  let gid := K.getgid p.state
  let euid := K.geteuid p.state
  let egid := K.getegid p.state
  let r1 := K.setregid p.state (some egid) (some gid)
  let p1 := p.attempt 180 (.setregid (some egid) (some gid)) r1
  if r1.isNone then (p1, die)
  else
    let r2 := K.setreuid p1.state (some euid) (some uid)
    let p2 := p1.attempt 183 (.setreuid (some euid) (some uid)) r2
    if r2.isNone then (p2, die)
    else (p2, .returned ())

/-- The condition of lines 225-229: the sizes differ, or `memcmp` finds a
difference in the first `mSize` entries. -/
def groupsDiffer (userGroups aGroups : List Nat) : Bool :=
  decide (userGroups.length ≠ aGroups.length) || (userGroups != aGroups.take userGroups.length)

/-- Lines 225-233 of `impersonate_user`: the supplementary groups. -/
def installGroups {σ : Type} (K : Kernel σ) (aUser : User) (aGroups : List Nat) (p : Proc σ) :
    Proc σ × Run Unit :=
  match aUser.mGroups with
  | none => (p, .undefined)
  | some userGroups =>
    if groupsDiffer userGroups aGroups then
      let r := K.setgroups p.state userGroups
      let p1 := p.attempt 231 (.setgroups userGroups) r
      if r.isNone then (p1, die) else (p1, .returned ())
    else (p, .returned ())

/-- Sequencing of two parts of a function: the second part runs where the first
returns; an exit, or undefined behaviour, of the first part ends both. -/
def Proc.andThen {σ α β : Type} (r : Proc σ × Run α) (f : Proc σ → α → Proc σ × Run β) :
    Proc σ × Run β :=
  match r with
  | (p, .returned a) => f p a
  | (p, .exited status) => (p, .exited status)
  | (p, .running) => (p, .running)
  | (p, .undefined) => (p, .undefined)

/-- Lines 237-241 of `impersonate_user`: `setgid`, then `setuid`, to the ids of the
user; each call must succeed. -/
def setIdentity {σ : Type} (K : Kernel σ) (aUser : User) (p : Proc σ) : Proc σ × Run Unit :=
  let r1 := K.setgid p.state aUser.mGid
  let p1 := p.attempt 237 (.setgid aUser.mGid) r1
  if r1.isNone then (p1, die)
  else
    let r2 := K.setuid p1.state aUser.mUid
    let p2 := p1.attempt 240 (.setuid aUser.mUid) r2
    if r2.isNone then (p2, die)
    else (p2, .returned ())

/-- Lines 243-249 of `impersonate_user`: the effective gid and uid must now be those of
the user; the effective uid read at line 247 is returned. -/
def checkIdentity {σ : Type} (K : Kernel σ) (aUser : User) (p : Proc σ) : Proc σ × Run Nat :=
  let egid := K.getegid p.state
  if aUser.mGid ≠ egid then (p, die)
  else
    let euid := K.geteuid p.state
    if aUser.mUid ≠ euid then (p, die)
    else (p, .returned euid)

/-- Line 251 of `impersonate_user`: for a user other than root, `setreuid(-1, 0)` is
called and must fail. -/
def checkNoEscalation {σ : Type} (K : Kernel σ) (aUser : User) (p : Proc σ) :
    Proc σ × Run Unit :=
  if aUser.mUid ≠ 0 then
    let r := K.setreuid p.state none (some 0)
    let p1 := p.attempt 251 (.setreuid none (some 0)) r
    if r.isSome then (p1, die) else (p1, .returned ())
  else (p, .returned ())

/-- Line 254 of `impersonate_user`: when `ouid`, the effective uid read at line 235,
is not `euid`, the effective uid read at line 247, `setreuid(-1, ouid)` is called and
must fail. -/
def checkNoRecovery {σ : Type} (K : Kernel σ) (ouid euid : Nat) (p : Proc σ) :
    Proc σ × Run Unit :=
  if ouid ≠ euid then
    let r := K.setreuid p.state none (some ouid)
    let p1 := p.attempt 254 (.setreuid none (some ouid)) r
    if r.isSome then (p1, die) else (p1, .returned ())
  else (p, .returned ())

/-- Lines 257-263 of `impersonate_user`: the filesystem gid and uid must be those of
the user. -/
def checkFsIdentity {σ : Type} (K : Kernel σ) (aUser : User) (p : Proc σ) :
    Proc σ × Run Unit :=
  if K.fsgid p.state ≠ aUser.mGid then (p, die)
  else if K.fsuid p.state ≠ aUser.mUid then (p, die)
  else (p, .returned ())

/-- Lines 235-264 of `impersonate_user`: the gid and uid of the user are set and the
result is verified. -/
def assumeIdentity {σ : Type} (K : Kernel σ) (aUser : User) (p : Proc σ) :
    Proc σ × Run Unit :=
  let ouid := K.geteuid p.state
  Proc.andThen (setIdentity K aUser p) fun p2 _ =>
  Proc.andThen (checkIdentity K aUser p2) fun p2 euid =>
  Proc.andThen (checkNoEscalation K aUser p2) fun p3 _ =>
  Proc.andThen (checkNoRecovery K ouid euid p3) fun p4 _ =>
  checkFsIdentity K aUser p4

/-- The function `impersonate_user`. -/
def impersonate_user {σ : Type} (K : Kernel σ) (aUser : User) (aGroups : List Nat)
    (p : Proc σ) : Proc σ × Run Unit :=
  Proc.andThen (installGroups K aUser aGroups p) fun p1 _ => assumeIdentity K aUser p1

/-- The exit status of a process whose `main` returns `rc`. -/
def exitStatus (rc : Int) : Nat :=
  (rc % 256).toNat

/-- How the program ends: the process image is replaced by that of `path`, run with
`argv` and `env`; the process exits; it is still running when the fuel of a loop is
spent; or it has left defined behaviour. -/
inductive Final where
  | exec (path : List Char) (argv : List (List Char)) (env : Env)
  | exit (status : Nat)
  | running
  | undefined
  deriving DecidableEq, Repr

/-- The ending of the program when a part of `main` does not return. -/
def Run.final {α : Type} : Run α → Final
  | .returned _ => .undefined
  | .exited status => .exit status
  | .running => .running
  | .undefined => .undefined

/-- The function `chain_execv`, the leak instrumentation left out: the process image
is replaced, or `execv` returns -1. -/
def chain_execv {σ : Type} (K : Kernel σ) (p : Proc σ) (aPath : List Char) (env : Env) :
    Final :=
  if K.execv p.state aPath then .exec aPath [aPath] env
  else .exit (exitStatus (-1))

/-- The C library function `clearenv`: on success no variable is left. -/
def clearenv (_ : Env) : Env := []

/-- The function `main`.  `env0` is the environment of the invoking process, `p` the
process at entry; `optOk` and `args` are what `getopt_long` leaves to
`license_program`. -/
def main {σ : Type} (fuel : Nat) (K : Kernel σ) (P : Platform) (optOk : Bool)
    (args : List (List Char)) (env0 : Env) (p : Proc σ) : Proc σ × Final :=
  let privilegedGid := K.getegid p.state
  let privilegedUid := K.geteuid p.state
  if !K.clearenv p.state then (p, (die : Run Unit).final)
  else
    match swap_reuid K p with
    | (p1, .returned _) =>
      let swappedGid := K.getgid p1.state
      let swappedUid := K.getuid p1.state
      if swappedUid ≠ privilegedUid ∨ swappedGid ≠ privilegedGid then
        (p1, (die : Run Unit).final)
      else
        let unprivilegedGid := K.getegid p1.state
        let unprivilegedUid := K.geteuid p1.state
        match license_program fuel P optOk args unprivilegedUid unprivilegedGid
            (clearenv env0) with
        | .returned (app, env) =>
          match swap_reuid K p1 with
          | (p2, .returned _) =>
            match impersonate_user K app.mLicensor app.mGroups p2 with
            | (p3, .returned _) => (p3, chain_execv K p3 app.mPath env)
            | (p3, other) => (p3, other.final)
          | (p2, other) => (p2, other.final)
        | other => (p1, other.final)
    | (p1, other) => (p1, other.final)

/-- The calls made by the process since it was at `p`, oldest first. -/
def Proc.since {σ : Type} (q p : Proc σ) : List Event :=
  q.log.drop p.log.length

/-- The process `q` is reached from `p` by calls that all satisfy `Q`, and the state
of `q` has the property `I` if the state of `p` has it. -/
def Proc.reaches {σ : Type} (Q : Event → Prop) (I : σ → Prop) (p q : Proc σ) : Prop :=
  (∃ evs, q.log = p.log ++ evs ∧ ∀ e ∈ evs, Q e) ∧ (I p.state → I q.state)

/-- The identity of a process in a simplified Linux kernel. -/
structure Cred where
  ruid : Nat
  euid : Nat
  suid : Nat
  fsuid : Nat
  rgid : Nat
  egid : Nat
  sgid : Nat
  fsgid : Nat
  groups : List Nat
  deriving DecidableEq, Repr

/-- A simplified Linux kernel, in which a process is privileged when its effective
uid is 0: the identity calls follow their manual pages, `clearenv` succeeds, and
`execv` succeeds when `execOk` says so. -/
def linux (execOk : Bool) : Kernel Cred where
  getuid := fun c => c.ruid
  geteuid := fun c => c.euid
  getgid := fun c => c.rgid
  getegid := fun c => c.egid
  fsuid := fun c => c.fsuid
  fsgid := fun c => c.fsgid
  groups := fun c => c.groups
  setgroups := fun c gs => if c.euid = 0 then some { c with groups := gs } else none
  setgid := fun c g =>
    if c.euid = 0 then some { c with rgid := g, egid := g, sgid := g, fsgid := g }
    else if g = c.rgid ∨ g = c.sgid then some { c with egid := g, fsgid := g }
    else none
  setuid := fun c u =>
    if c.euid = 0 then some { c with ruid := u, euid := u, suid := u, fsuid := u }
    else if u = c.ruid ∨ u = c.suid then some { c with euid := u, fsuid := u }
    else none
  setreuid := fun c r e =>
    if (r = none ∨ c.euid = 0 ∨ r = some c.ruid ∨ r = some c.euid) ∧
        (e = none ∨ c.euid = 0 ∨ e = some c.ruid ∨ e = some c.euid ∨ e = some c.suid) then
      some { c with
        ruid := r.getD c.ruid
        euid := e.getD c.euid
        suid := if r ≠ none ∨ (e ≠ none ∧ e ≠ some c.ruid) then e.getD c.euid else c.suid
        fsuid := e.getD c.euid }
    else none
  setregid := fun c r e =>
    if (r = none ∨ c.euid = 0 ∨ r = some c.rgid ∨ r = some c.egid) ∧
        (e = none ∨ c.euid = 0 ∨ e = some c.rgid ∨ e = some c.egid ∨ e = some c.sgid) then
      some { c with
        rgid := r.getD c.rgid
        egid := e.getD c.egid
        sgid := if r ≠ none ∨ (e ≠ none ∧ e ≠ some c.rgid) then e.getD c.egid else c.sgid
        fsgid := e.getD c.egid }
    else none
  clearenv := fun _ => true
  execv := fun _ _ => execOk

/-- The process of the scenario at the entry of `main`: the requestor (uid 200,
gid 20) runs the program, which is set-uid and set-gid root. -/
def scenarioProc : Proc Cred :=
  ⟨⟨200, 0, 0, 0, 20, 0, 0, 0, [7]⟩, []⟩

/-- A platform with a working directory `/w`, in which `.` can be opened relative to
the working directory (descriptor 3) and relative to descriptor 3 (descriptor 4). -/
def dotPlatform : Platform where
  getgroups := some []
  getgid := 0
  getgrouplist := fun _ _ => some []
  getpwuid := fun _ => none
  openat := fun dir p flags =>
    if dir = none ∧ p = ['.'] ∧ flags = .directory then some 3
    else if dir = some 3 ∧ p = ['.'] ∧ flags = .directory then some 4
    else none
  fstat := fun _ => none
  fstatat := fun _ _ => none
  stat := fun _ => none
  readlinkat := fun _ => none
  get_current_dir_name := some ['/', 'w']

/-- A platform with a cycle of symlinks: in the directory `/r/l`, owned like its
parent by the licensor (uid 100), the requestor (uid 200) owns the entries `a` and
`b`, `a` pointing to `b` and `b` to `a`.  Every entry opens without being followed,
as `O_PATH | O_NOFOLLOW` has it. -/
def cyclePlatform : Platform where
  getgroups := some [7]
  getgid := 20
  getgrouplist := fun _ _ => some [10, 5]
  getpwuid := fun u =>
    if u = 100 then some ⟨['l', 'i', 'c'], 100, 10, ['/', 'h']⟩
    else if u = 200 then some ⟨['r', 'e', 'q'], 200, 20, ['/', 'q']⟩
    else none
  openat := fun dir p flags =>
    if dir = none ∧ p = ['/', 'r', '/', 'l'] ∧ flags = .directory then some 3
    else if (dir = some 3 ∨ dir = some 5) ∧ p = ['.'] ∧ flags = .directory then some 5
    else if dir = some 3 ∧ p = ['a'] ∧ flags = .nofollow then some 4
    else if dir = some 5 ∧ p = ['b'] ∧ flags = .nofollow then some 6
    else if dir = some 5 ∧ p = ['a'] ∧ flags = .nofollow then some 7
    else none
  fstat := fun fd =>
    if fd = 3 ∨ fd = 5 then some ⟨100, 0o40755⟩
    else if fd = 4 ∨ fd = 6 ∨ fd = 7 then some ⟨200, 0o120777⟩
    else none
  fstatat := fun fd p =>
    if (fd = 3 ∨ fd = 5) ∧ p = ['.', '.'] then some ⟨100, 0o40700⟩ else none
  stat := fun _ => none
  readlinkat := fun fd =>
    if fd = 4 ∨ fd = 7 then some ['b']
    else if fd = 6 then some ['a']
    else none
  get_current_dir_name := some ['/']

/-- The scenario platform with a `NAME=VALUE` argument before the registration. -/
def assignmentArgs : List (List Char) :=
  [['A', '=', '1'], ['/', 'r', '/', 'l', '/', 'j']]

/-- The scenario platform, except that the platform reports the group 5 twice for a
user and the group 7 twice for the process. -/
def repeatedGroups : Platform :=
  { scenario with getgroups := some [7, 7], getgrouplist := fun _ _ => some [5, 5] }

/-- A process run by root, with the supplementary groups of the licensor of the
scenario: its real and effective uid are both 0. -/
def rootProc : Proc Cred :=
  ⟨⟨0, 0, 0, 0, 0, 0, 0, 0, [5, 10]⟩, []⟩

/-- A process of the requestor (uid 200, gid 20) whose effective and saved ids are
already those of the licensor of the scenario (uid 100, gid 10), as are its
supplementary groups. -/
def licensedProc : Proc Cred :=
  ⟨⟨200, 100, 100, 100, 20, 10, 10, 10, [5, 10]⟩, []⟩

/-! ## splice_path.c.h: the passes of the main loop -/

/-- The scanner states at the start of each pass through the body of `while (1)`
(line 89), from the state `s` on, up to the pass that ends in `break` or that leaves
defined behaviour; `fuel` bounds the number of passes. -/
def scanTrace : Nat → Scan → List Scan
  | 0, _ => []
  | fuel + 1, s =>
    s :: (match scanStep s with
      | some (.again s') => scanTrace fuel s'
      | _ => [])

/-- The length `strlen` finds for an argument of `splice_path`, 0 for an absent one
(lines 60-61). -/
def argLen (a : Option (List Char)) : Nat :=
  match a with
  | some s => strlen s
  | none => 0

/-- The components equal to `..` form a leading run: none of them comes after a
component that is not `..`. -/
def dotDotsLead (cs : List (List Char)) : Bool :=
  !(cs.dropWhile (fun c => c == ['.', '.'])).contains ['.', '.']

/-- A platform with the registration `/reg/job`, and with the registration `job`
in the working directory: each is a symlink owned by the requestor (uid 200), in a
directory owned by the licensor (uid 100) whose parent is owned by the licensor and
has mode 0700. -/
def shallowPlatform : Platform where
  getgroups := some [7]
  getgid := 20
  getgrouplist := fun _ _ => some [10, 5]
  getpwuid := fun u =>
    if u = 100 then some ⟨['l', 'i', 'c'], 100, 10, ['/', 'h']⟩
    else if u = 200 then some ⟨['r', 'e', 'q'], 200, 20, ['/', 'q']⟩
    else none
  openat := fun dir p flags =>
    if dir = none ∧ p = ['/', 'r', 'e', 'g'] ∧ flags = .directory then some 3
    else if dir = some 3 ∧ p = ['j', 'o', 'b'] ∧ flags = .nofollow then some 4
    else if dir = none ∧ p = ['.'] ∧ flags = .directory then some 5
    else if dir = some 5 ∧ p = ['j', 'o', 'b'] ∧ flags = .nofollow then some 6
    else none
  fstat := fun fd =>
    if fd = 3 ∨ fd = 5 then some ⟨100, 0o40755⟩
    else if fd = 4 ∨ fd = 6 then some ⟨200, 0o120777⟩
    else none
  fstatat := fun fd p =>
    if (fd = 3 ∨ fd = 5) ∧ p = ['.', '.'] then some ⟨100, 0o40700⟩ else none
  stat := fun p => if p = ['/', 'b', '/', 'x'] then some ⟨100, 0o100755⟩ else none
  readlinkat := fun fd => if fd = 4 ∨ fd = 6 then some ['/', 'b', '/', 'x'] else none
  get_current_dir_name := some ['/', 'r', 'e', 'g']

/-! ## Buffer lemmas -/

theorem rd_of_drop {buf X : List Char} {r : Nat} (h : buf.drop r = X) (j : Nat) :
    rd buf (r + j) = X[j]? := by
  subst h
  simp [rd, List.getElem?_drop]

theorem rd_of_drop_zero {buf X : List Char} {r : Nat} (h : buf.drop r = X) :
    rd buf r = X[0]? := by
  have := rd_of_drop h 0
  simpa using this

theorem length_of_drop {buf X : List Char} {r : Nat} (h : buf.drop r = X) (hX : X ≠ []) :
    r + X.length = buf.length := by
  subst h
  have : r < buf.length := by
    by_contra hc
    exact hX (List.drop_eq_nil_of_le (Nat.le_of_not_lt hc))
  simp [List.length_drop]
  omega

theorem wr_eq {buf : List Char} {i : Nat} (c : Char) (h : i < buf.length) :
    wr buf i c = some (buf.set i c) := by
  simp [wr, h]

theorem take_set_self {buf : List Char} {i : Nat} (c : Char) (h : i < buf.length) :
    (buf.set i c).take i = buf.take i := by
  rw [List.set_eq_take_append_cons_drop, if_pos h]
  exact List.take_left' (by simp; omega)

theorem take_set_succ {buf : List Char} {i : Nat} (c : Char) (h : i < buf.length) :
    (buf.set i c).take (i + 1) = buf.take i ++ [c] := by
  rw [List.take_succ, List.getElem?_set_self h, take_set_self c h]
  rfl

theorem drop_set_lt {buf : List Char} {i j : Nat} (c : Char) (h : i < j) :
    (buf.set i c).drop j = buf.drop j :=
  List.drop_set_of_lt c buf h

theorem rd_take_last {buf : List Char} {l : Nat} (h : l < buf.length) :
    ∃ c, rd buf l = some c ∧ buf.take (l + 1) = buf.take l ++ [c] := by
  refine ⟨buf[l], ?_, ?_⟩
  · simp [rd, List.getElem?_eq_getElem h]
  · rw [List.take_succ, List.getElem?_eq_getElem h]
    rfl

/-! ## The inner loops -/

theorem skipSlashes_spec (buf t : List Char) :
    ∀ (k r fuel : Nat), buf.drop r = List.replicate (k + 1) '/' ++ t → t ≠ [] →
      t.head? ≠ some '/' → k < fuel → skipSlashes fuel buf r = some (r + k) := by
  intro k
  induction k with
  | zero =>
    intro r fuel hD ht hh hf
    obtain ⟨fuel, rfl⟩ : ∃ f, fuel = f + 1 := ⟨fuel - 1, by omega⟩
    have h1 := rd_of_drop hD 1
    obtain ⟨c, t', rfl⟩ : ∃ c t', t = c :: t' := List.exists_cons_of_ne_nil ht
    simp at h1 hh
    simp [skipSlashes, h1, hh]
  | succ k ih =>
    intro r fuel hD ht hh hf
    obtain ⟨fuel, rfl⟩ : ∃ f, fuel = f + 1 := ⟨fuel - 1, by omega⟩
    have h1 := rd_of_drop hD 1
    have hD' : buf.drop (r + 1) = List.replicate (k + 1) '/' ++ t := by
      have := congrArg (List.drop 1) hD
      rw [List.drop_drop] at this
      rw [this, List.replicate_succ]
      simp
    simp [List.replicate_succ] at h1
    simp only [skipSlashes, h1]
    rw [if_true, ih (r + 1) fuel hD' ht hh (by omega)]
    congr 1
    omega

theorem copyName_spec (t : List Char) :
    ∀ (name buf : List Char) (l r fuel : Nat) (c : Char), l ≤ r →
      buf.drop r = c :: (name ++ '/' :: t) → '/' ∉ name → name.length < fuel →
      ∃ buf', copyName fuel ⟨buf, l, r⟩ = some ⟨buf', l + 1 + name.length, r + 1 + name.length⟩ ∧
        buf'.take (l + 1 + name.length) = buf.take l ++ c :: name ∧
        buf'.drop (r + 1 + name.length) = '/' :: t ∧ buf'.length = buf.length := by
  intro name
  induction name with
  | nil =>
    intro buf l r fuel c hl hD _ hf
    obtain ⟨fuel, rfl⟩ : ∃ f, fuel = f + 1 := ⟨fuel - 1, by omega⟩
    have hlen := length_of_drop hD (by simp)
    have hr0 := rd_of_drop_zero hD
    have hD1 : (buf.set l c).drop (r + 1) = '/' :: t := by
      rw [drop_set_lt c (by omega)]
      have := congrArg (List.drop 1) hD
      rw [List.drop_drop] at this
      simpa using this
    have hr1 := rd_of_drop_zero hD1
    simp at hlen hr0 hr1
    refine ⟨buf.set l c, ?_, ?_, ?_, ?_⟩
    · simp [copyName, hr0, wr_eq c (show l < buf.length by omega), hr1]
    · simpa using take_set_succ c (show l < buf.length by omega)
    · simpa using hD1
    · simp
  | cons n ns ih =>
    intro buf l r fuel c hl hD hn hf
    obtain ⟨fuel, rfl⟩ : ∃ f, fuel = f + 1 := ⟨fuel - 1, by omega⟩
    have hlen := length_of_drop hD (by simp)
    have hr0 := rd_of_drop_zero hD
    have hD1 : (buf.set l c).drop (r + 1) = n :: (ns ++ '/' :: t) := by
      rw [drop_set_lt c (by omega)]
      have := congrArg (List.drop 1) hD
      rw [List.drop_drop] at this
      simpa using this
    have hr1 := rd_of_drop_zero hD1
    simp at hlen hr0 hr1 hn hf
    obtain ⟨buf', h1, h2, h3, h4⟩ := ih (buf.set l c) (l + 1) (r + 1) fuel n (by omega) hD1 hn.2 (by omega)
    refine ⟨buf', ?_, ?_, ?_, ?_⟩
    · simp only [copyName, hr0, wr_eq c (show l < buf.length by omega), hr1]
      rw [if_pos (fun h => hn.1 h.symm), h1]
      simp only [List.length_cons]
      congr 2 <;> omega
    · have e : l + 1 + (n :: ns).length = l + 1 + 1 + ns.length := by simp; omega
      rw [e, h2, take_set_succ c (show l < buf.length by omega)]
      simp
    · have e : r + 1 + (n :: ns).length = r + 1 + 1 + ns.length := by simp; omega
      rw [e, h3]
    · simpa using h4

theorem andThen_some (a b : Bool) : andThen (some a) (some b) = some (a && b) := by
  cases a <;> rfl

theorem andThen_false (b : Option Bool) : andThen (some false) b = some false := rfl

theorem andThen_true (b : Option Bool) : andThen (some true) b = b := rfl

theorem charAt_of_rd {buf : List Char} {i : Nat} {x : Char} (h : rd buf i = some x) (c : Char) :
    charAt buf i c = some (x == c) := by
  simp [charAt, h]

theorem retract_spec (buf : List Char) :
    ∀ l, l + 1 ≤ buf.length →
      ∃ buf' l', retract buf (l + 1) = some (buf', l') ∧
        buf'.take l' = retractOut (buf.take (l + 1)) ∧ 1 ≤ l' ∧ l' ≤ l + 1 ∧
        (∀ r, 0 < r → buf'.drop r = buf.drop r) ∧ buf'.length = buf.length := by
  intro l
  induction l with
  | zero =>
    intro hl
    obtain ⟨c, hc, htk⟩ := rd_take_last (show 0 < buf.length by omega)
    by_cases hs : c = '/'
    · refine ⟨buf, 1, ?_, ?_, le_refl _, le_refl _, fun _ _ => rfl, rfl⟩
      · simp [retract, hc, hs]
      · rw [htk]
        simp [retractOut, retractRev, hs]
    · refine ⟨buf.set 0 '.', 1, ?_, ?_, le_refl _, le_refl _, fun r hr => drop_set_lt _ hr, by simp⟩
      · simp [retract, hc, hs, wr_eq '.' (show 0 < buf.length by omega)]
      · rw [take_set_succ '.' (show 0 < buf.length by omega), htk]
        simp [retractOut, retractRev, hs]
  | succ l ih =>
    intro hl
    obtain ⟨c, hc, htk⟩ := rd_take_last (show l + 1 < buf.length by omega)
    have hne : (buf.take (l + 1)).reverse ≠ [] := by
      intro h
      have := congrArg List.length h
      rw [List.length_reverse, List.length_take, List.length_nil] at this
      omega
    by_cases hs : c = '/'
    · refine ⟨buf, l + 1, ?_, ?_, by omega, by omega, fun _ _ => rfl, rfl⟩
      · simp [retract, hc, hs]
      · rw [htk]
        simp only [retractOut, List.reverse_append, List.reverse_cons, List.reverse_nil,
          List.nil_append, List.singleton_append, retractRev, hs, if_true, if_neg hne,
          List.reverse_reverse]
    · obtain ⟨buf', l', h1, h2, h3, h4, h5, h6⟩ := ih (by omega)
      refine ⟨buf', l', ?_, ?_, h3, by omega, h5, h6⟩
      · rw [← h1]
        simp [retract, hc, hs]
      · rw [h2, htk]
        simp only [retractOut, List.reverse_append, List.reverse_cons, List.reverse_nil,
          List.nil_append, List.singleton_append, retractRev, hs, if_false, if_neg hne]

theorem endsDotDot_spec (buf : List Char) (l : Nat) (hl : l ≤ buf.length) :
    endsDotDot buf l = some (endsWithDotDot (buf.take l)) := by
  rcases l with _ | _ | _ | m
  · simp [endsDotDot, endsWithDotDot, andThen]
  · obtain ⟨a, ha, hta⟩ := rd_take_last (show 0 < buf.length by omega)
    simp [endsDotDot, endsWithDotDot, andThen, hta]
  · obtain ⟨a, ha, hta⟩ := rd_take_last (show 0 < buf.length by omega)
    obtain ⟨b, hb, htb⟩ := rd_take_last (show 1 < buf.length by omega)
    simp only [zero_add] at hta htb
    have e : (0 : Nat) + 1 + 1 = 2 := rfl
    simp only [e] at *
    rw [htb, hta]
    simp [endsDotDot, endsWithDotDot, charAt_of_rd ha, charAt_of_rd hb, andThen_some, andThen_true]
    cases (a == '.') <;> cases (b == '.') <;> simp
  · obtain ⟨a, ha, hta⟩ := rd_take_last (show m < buf.length by omega)
    obtain ⟨b, hb, htb⟩ := rd_take_last (show m + 1 < buf.length by omega)
    obtain ⟨c, hc, htc⟩ := rd_take_last (show m + 1 + 1 < buf.length by omega)
    rw [htc, htb, hta]
    have e1 : m + 1 + 1 + 1 - 1 = m + 1 + 1 := by omega
    have e2 : m + 1 + 1 + 1 - 2 = m + 1 := by omega
    have e3 : m + 1 + 1 + 1 - 3 = m := by omega
    have e4 : decide (m + 1 + 1 + 1 = 2) = false := by simp
    have e5 : decide (3 ≤ m + 1 + 1 + 1) = true := by simp
    simp only [endsDotDot, e1, e2, e3, e4, e5, charAt_of_rd ha, charAt_of_rd hb, charAt_of_rd hc,
      andThen_some, andThen_true, andThen_false]
    simp [endsWithDotDot]
    cases (a == '/') <;> cases (b == '.') <;> cases (c == '.') <;> simp

/-! ## One pass of the main loop -/

theorem appendName_spec {buf t name : List Char} {l r : Nat} {c : Char} (hl : l ≤ r)
    (hD : buf.drop r = c :: (name ++ '/' :: t)) (hn : '/' ∉ name) :
    ∃ buf', appendName ⟨buf, l, r⟩ = some (.again ⟨buf', l + 1 + name.length, r + 1 + name.length⟩) ∧
      buf'.take (l + 1 + name.length) = buf.take l ++ c :: name ∧
      buf'.drop (r + 1 + name.length) = '/' :: t ∧ buf'.length = buf.length := by
  have hlen := length_of_drop hD (by simp)
  simp at hlen
  obtain ⟨buf', h1, h2, h3, h4⟩ := copyName_spec t name buf l r buf.length c hl hD hn (by omega)
  exact ⟨buf', by simp [appendName, h1], h2, h3, h4⟩

theorem take_length_eq {buf out : List Char} {l r : Nat} {X : List Char} (hl : l ≤ r)
    (hT : buf.take l = out) (hD : buf.drop r = X) (hX : X ≠ []) : out.length = l := by
  have := length_of_drop hD hX
  subst hT
  simp
  omega

theorem scanName_end {buf out : List Char} {l r : Nat} (hl : l ≤ r) (hT : buf.take l = out)
    (hD : buf.drop r = ['/', NUL]) :
    ∃ buf' l', scanName buf l r = some (.stop ⟨buf', l', r⟩) ∧
      buf'.take l' = finishOut out ∧ l' < buf'.length := by
  have hlen := length_of_drop hD (by simp)
  have h1 : rd buf (r + 1) = some NUL := by simpa using rd_of_drop hD 1
  have hz : NUL ≠ '.' := by decide
  simp at hlen
  by_cases h0 : l = 0
  · subst h0
    have ho : out = [] := by simpa using hT.symm
    refine ⟨buf.set 0 '/', 1, ?_, ?_, by simp; omega⟩
    · simp [scanName, h1, hz, wr_eq '/' (show 0 < buf.length by omega)]
    · rw [take_set_succ '/' (show 0 < buf.length by omega), ho]
      simp [finishOut]
  · have ho : out ≠ [] := by
      intro h
      have := take_length_eq hl hT hD (by simp)
      rw [h] at this
      exact h0 this.symm
    refine ⟨buf, l, ?_, ?_, by omega⟩
    · simp [scanName, h1, hz, h0]
    · simp [finishOut, ho, hT]

theorem scanName_plain {buf t ns out : List Char} {l r : Nat} {n : Char}
    (hl : l ≤ r) (hT : buf.take l = out) (hD : buf.drop r = '/' :: n :: (ns ++ '/' :: t))
    (hn : n ≠ '/') (hns : '/' ∉ ns) (hz : n ≠ NUL) (hdot : n ≠ '.') :
    ∃ buf' l', scanName buf l r = some (.again ⟨buf', l', r + 2 + ns.length⟩) ∧
      buf'.take l' = stepName out (n :: ns) ∧ buf'.drop (r + 2 + ns.length) = '/' :: t ∧
      l' ≤ r + 2 + ns.length ∧ buf'.length = buf.length := by
  have hlen := length_of_drop hD (by simp)
  have h1 : rd buf (r + 1) = some n := by simpa using rd_of_drop hD 1
  have hname : '/' ∉ n :: ns := by
    simp only [List.mem_cons, not_or]
    exact ⟨fun h => hn h.symm, hns⟩
  have holen := take_length_eq hl hT hD (by simp)
  have hD1 : buf.drop (r + 1) = n :: (ns ++ '/' :: t) := by
    have := congrArg (List.drop 1) hD
    rw [List.drop_drop] at this
    simpa using this
  simp at hlen
  have e1 : r + 1 + (n :: ns).length = r + 2 + ns.length := by simp; omega
  have e2 : r + 1 + 1 + ns.length = r + 2 + ns.length := by omega
  have e3 : (n :: ns).length = ns.length + 1 := rfl
  by_cases h1l : l = 1
  · subst h1l
    obtain ⟨p, hp, htk⟩ := rd_take_last (show 0 < buf.length by omega)
    simp only [zero_add, List.take_zero, List.nil_append] at htk
    rw [hT] at htk
    by_cases hp1 : p = '/'
    · obtain ⟨buf', a1, a2, a3, a4⟩ := appendName_spec (Nat.zero_le r) hD hname
      rw [e1] at a1 a3
      refine ⟨buf', 0 + 1 + (n :: ns).length, ?_, ?_, a3, by omega, a4⟩
      · simp [scanName, h1, hdot, hz, hp, hp1, a1]
      · rw [a2, htk, hp1]
        simp [stepName, hdot]
    · by_cases hp2 : p = '.'
      · obtain ⟨buf', a1, a2, a3, a4⟩ := appendName_spec (Nat.zero_le (r + 1)) hD1 hns
        rw [e2] at a1 a3
        refine ⟨buf', 0 + 1 + ns.length, ?_, ?_, a3, by omega, a4⟩
        · simp [scanName, h1, hdot, hz, hp, hp2, a1]
        · rw [a2, htk, hp2]
          simp [stepName, hdot]
      · obtain ⟨buf', a1, a2, a3, a4⟩ := appendName_spec hl hD hname
        rw [e1] at a1 a3
        refine ⟨buf', 1 + 1 + (n :: ns).length, ?_, ?_, a3, by omega, a4⟩
        · simp [scanName, h1, hdot, hz, hp, hp1, hp2, a1]
        · rw [a2, hT, htk]
          simp [stepName, hdot, hp1, hp2]
  · obtain ⟨buf', a1, a2, a3, a4⟩ := appendName_spec hl hD hname
    rw [e1] at a1 a3
    have ho1 : out ≠ ['/'] := fun h => h1l (by rw [← holen, h]; rfl)
    have ho2 : out ≠ ['.'] := fun h => h1l (by rw [← holen, h]; rfl)
    refine ⟨buf', l + 1 + (n :: ns).length, ?_, ?_, a3, by omega, a4⟩
    · simp [scanName, h1, hdot, hz, h1l, a1]
    · rw [a2, hT]
      simp [stepName, hdot, ho1, ho2]

theorem scanName_dot {buf t out : List Char} {l r : Nat}
    (hl : l ≤ r) (hT : buf.take l = out) (hD : buf.drop r = '/' :: '.' :: ([] ++ '/' :: t)) :
    ∃ buf' l', scanName buf l r = some (.again ⟨buf', l', r + 2 + ([] : List Char).length⟩) ∧
      buf'.take l' = stepName out ['.'] ∧ buf'.drop (r + 2 + ([] : List Char).length) = '/' :: t ∧
      l' ≤ r + 2 + ([] : List Char).length ∧ buf'.length = buf.length := by
  have h1 : rd buf (r + 1) = some '.' := by simpa using rd_of_drop hD 1
  have h2 : rd buf (r + 2) = some '/' := by simpa using rd_of_drop hD 2
  have hD2 : buf.drop (r + 2) = '/' :: t := by
    have := congrArg (List.drop 2) hD
    rw [List.drop_drop] at this
    simpa using this
  refine ⟨buf, l, ?_, ?_, by simpa using hD2, by simp; omega, rfl⟩
  · simp [scanName, h1, h2]
  · simp [stepName, hT]

theorem scanName_dotted {buf t ms out : List Char} {l r : Nat} {m : Char}
    (hl : l ≤ r) (hT : buf.take l = out)
    (hD : buf.drop r = '/' :: '.' :: ((m :: ms) ++ '/' :: t))
    (hm : m ≠ '/') (hms : '/' ∉ ms) (hdd : ¬ (m = '.' ∧ ms = [])) :
    ∃ buf' l', scanName buf l r = some (.again ⟨buf', l', r + 2 + (m :: ms).length⟩) ∧
      buf'.take l' = stepName out ('.' :: m :: ms) ∧
      buf'.drop (r + 2 + (m :: ms).length) = '/' :: t ∧
      l' ≤ r + 2 + (m :: ms).length ∧ buf'.length = buf.length := by
  have h1 : rd buf (r + 1) = some '.' := by simpa using rd_of_drop hD 1
  have h2 : rd buf (r + 2) = some m := by simpa using rd_of_drop hD 2
  have hname : '/' ∉ '.' :: m :: ms := by
    simp only [List.mem_cons, not_or]
    exact ⟨by decide, fun h => hm h.symm, hms⟩
  obtain ⟨buf', a1, a2, a3, a4⟩ := appendName_spec hl hD hname
  have e1 : r + 1 + ('.' :: m :: ms).length = r + 2 + (m :: ms).length := by
    simp only [List.length_cons]; omega
  rw [e1] at a1 a3
  have hstep : stepName out ('.' :: m :: ms) = out ++ '/' :: '.' :: m :: ms := by
    by_cases hm1 : m = '.'
    · have : ms ≠ [] := fun h => hdd ⟨hm1, h⟩
      simp [stepName, this]
    · simp [stepName, hm1]
  refine ⟨buf', l + 1 + ('.' :: m :: ms).length, ?_, ?_, a3, ?_, a4⟩
  · by_cases hm1 : m = '.'
    · obtain ⟨q, qs, rfl⟩ : ∃ q qs, ms = q :: qs :=
        List.exists_cons_of_ne_nil (fun h => hdd ⟨hm1, h⟩)
      have h3 : rd buf (r + 3) = some q := by simpa using rd_of_drop hD 3
      have hq : (q == '/') = false := by
        simp only [beq_eq_false_iff_ne, ne_eq]
        exact fun h => hms (by simp [h])
      simp [scanName, h1, h2, hm, hm1, charAt_of_rd h3, andThen_true, hq, a1]
    · simp [scanName, h1, h2, hm, hm1, andThen_false, a1]
  · rw [a2, hT, hstep]
  · simp only [List.length_cons]; omega

theorem scanName_dotdot {buf t out : List Char} {l r : Nat}
    (hl : l ≤ r) (hT : buf.take l = out)
    (hD : buf.drop r = '/' :: '.' :: (['.'] ++ '/' :: t)) :
    ∃ buf' l', scanName buf l r = some (.again ⟨buf', l', r + 2 + ['.'].length⟩) ∧
      buf'.take l' = stepName out ['.', '.'] ∧ buf'.drop (r + 2 + ['.'].length) = '/' :: t ∧
      l' ≤ r + 2 + ['.'].length ∧ buf'.length = buf.length := by
  have hlen := length_of_drop hD (by simp)
  have h1 : rd buf (r + 1) = some '.' := by simpa using rd_of_drop hD 1
  have h2 : rd buf (r + 2) = some '.' := by simpa using rd_of_drop hD 2
  have h3 : rd buf (r + 3) = some '/' := by simpa using rd_of_drop hD 3
  have holen := take_length_eq hl hT hD (by simp)
  have hD3 : buf.drop (r + 3) = '/' :: t := by
    have := congrArg (List.drop 3) hD
    rw [List.drop_drop] at this
    simpa using this
  have hname : '/' ∉ ['.', '.'] := by decide
  have hc2 : ('.' : Char) ≠ '/' := by decide
  simp only [List.length_cons, List.length_nil, List.length_append, List.length_singleton] at hlen
  have e0 : r + 2 + ['.'].length = r + 3 := rfl
  rw [e0]
  have hpre : scanName buf l r =
      if l = 0 then some (.again ⟨buf, l, r + 3⟩)
      else
        match andThen (some (decide (l = 1))) (charAt buf (l - 1) '.') with
        | none => none
        | some true =>
          match wr buf l '.' with
          | none => none
          | some buf => some (.again ⟨buf, l + 1, r + 3⟩)
        | some false =>
          match endsDotDot buf l with
          | none => none
          | some true => appendName ⟨buf, l, r⟩
          | some false =>
            match andThen (some (decide (l ≠ 0)))
                ((andThen (some (decide (l = 1))) (charAt buf (l - 1) '/')).map not) with
            | none => none
            | some false => some (.again ⟨buf, l, r + 3⟩)
            | some true =>
              match retract buf l with
              | none => none
              | some (buf, lhsp) => some (.again ⟨buf, lhsp, r + 3⟩) := by
    simp [scanName, h1, h2, charAt_of_rd h3, andThen_true]
  rw [hpre, endsDotDot_spec buf l (by omega), hT]
  rcases l with _ | _ | l
  · have ho : out = [] := by simpa using hT.symm
    refine ⟨buf, 0, by simp, ?_, hD3, by omega, rfl⟩
    simp [stepName, ho]
  · obtain ⟨p, hp, htk⟩ := rd_take_last (show 0 < buf.length by omega)
    simp only [zero_add, List.take_zero, List.nil_append] at htk hT holen hl ⊢
    rw [hT] at htk
    subst htk
    by_cases hp1 : p = '.'
    · subst hp1
      refine ⟨buf.set 1 '.', 2, ?_, ?_, ?_, by omega, by simp⟩
      · simp [charAt_of_rd hp, andThen_true, wr_eq '.' (show 1 < buf.length by omega)]
      · rw [take_set_succ '.' (show 1 < buf.length by omega), hT]
        simp [stepName]
      · rw [drop_set_lt '.' (by omega), hD3]
    · have hp1' : (p == '.') = false := by simpa using hp1
      have hend : endsWithDotDot [p] = false := by simp [endsWithDotDot]
      by_cases hp2 : p = '/'
      · subst hp2
        refine ⟨buf, 1, ?_, ?_, hD3, by omega, rfl⟩
        · simp [charAt_of_rd hp, andThen_true, hend]
        · simp [stepName, hT, hend]
      · have hp2' : (p == '/') = false := by simpa using hp2
        obtain ⟨buf', l', b1, b2, b3, b4, b5, b6⟩ := retract_spec buf 0 (by omega)
        simp only [zero_add] at b1 b2 b4
        refine ⟨buf', l', ?_, ?_, ?_, by omega, b6⟩
        · simp [charAt_of_rd hp, andThen_true, hend, hp1', hp2', b1]
        · rw [b2, hT]
          simp [stepName, hp1, hp2, hend]
        · rw [b5 _ (by omega), hD3]
  · have e1 : decide (l + 1 + 1 = 1) = false := by simp
    have e2 : decide (l + 1 + 1 ≠ 0) = true := by simp
    have ho0 : out ≠ [] := fun h => by rw [h] at holen; simp at holen
    have ho1 : out ≠ ['.'] := fun h => by rw [h] at holen; simp at holen
    have ho2 : out ≠ ['/'] := fun h => by rw [h] at holen; simp at holen
    rw [if_neg (by omega)]
    simp only [e1, e2, andThen_false, andThen_true, Option.map_some', Bool.not_false]
    cases hend : endsWithDotDot out
    · obtain ⟨buf', l', b1, b2, b3, b4, b5, b6⟩ := retract_spec buf (l + 1) (by omega)
      refine ⟨buf', l', ?_, ?_, ?_, by omega, b6⟩
      · simp [b1]
      · rw [b2, hT]
        simp [stepName, ho0, ho1, ho2, hend]
      · rw [b5 _ (by omega), hD3]
    · obtain ⟨buf', a1, a2, a3, a4⟩ := appendName_spec hl hD hname
      refine ⟨buf', l + 1 + 1 + 1 + ['.', '.'].length, ?_, ?_, a3, ?_, a4⟩
      · simp only [a1]
        rfl
      · rw [a2, hT]
        simp [stepName, ho0, ho1, hend]
      · simp only [List.length_cons, List.length_nil]; omega

theorem scanName_name {buf t name out : List Char} {l r : Nat}
    (hl : l ≤ r) (hT : buf.take l = out) (hD : buf.drop r = '/' :: (name ++ '/' :: t))
    (hne : name ≠ []) (hs : '/' ∉ name) (hz : NUL ∉ name) :
    ∃ buf' l', scanName buf l r = some (.again ⟨buf', l', r + 1 + name.length⟩) ∧
      buf'.take l' = stepName out name ∧ buf'.drop (r + 1 + name.length) = '/' :: t ∧
      l' ≤ r + 1 + name.length ∧ buf'.length = buf.length := by
  obtain ⟨n, ns, rfl⟩ := List.exists_cons_of_ne_nil hne
  have e : r + 1 + (n :: ns).length = r + 2 + ns.length := by
    simp only [List.length_cons]; omega
  rw [e]
  simp only [List.mem_cons, not_or] at hs hz
  by_cases hdot : n = '.'
  · subst hdot
    rcases ns with _ | ⟨m, ms⟩
    · exact scanName_dot hl hT hD
    · simp only [List.mem_cons, not_or] at hs
      by_cases hdd : m = '.' ∧ ms = []
      · obtain ⟨rfl, rfl⟩ := hdd
        exact scanName_dotdot hl hT hD
      · exact scanName_dotted hl hT hD (fun h => hs.2.1 h.symm) hs.2.2 hdd
  · exact scanName_plain hl hT hD (fun h => hs.1 h.symm) hs.2 (fun h => hz.1 h.symm) hdot

theorem drop_add_replicate {buf X : List Char} {r k : Nat}
    (hD : buf.drop r = List.replicate k '/' ++ X) : buf.drop (r + k) = X := by
  have := congrArg (List.drop k) hD
  rw [List.drop_drop] at this
  rw [this]
  exact List.drop_left' (by simp)

theorem replicate_append_slash (k : Nat) (X : List Char) :
    List.replicate k '/' ++ '/' :: X = List.replicate (k + 1) '/' ++ X := by
  rw [List.replicate_succ']
  simp

theorem scanStep_end {buf out : List Char} {l r k : Nat} (hl : l ≤ r) (hT : buf.take l = out)
    (hD : buf.drop r = List.replicate k '/' ++ ['/', NUL]) :
    ∃ s', scanStep ⟨buf, l, r⟩ = some (.stop s') ∧
      s'.buf.take s'.lhsp = finishOut out ∧ s'.lhsp < s'.buf.length := by
  have hlen := length_of_drop hD (by simp)
  simp only [List.length_append, List.length_replicate, List.length_cons, List.length_nil] at hlen
  have hD' : buf.drop r = List.replicate (k + 1) '/' ++ [NUL] := by
    rw [hD, replicate_append_slash]
  have hsk := skipSlashes_spec buf [NUL] k r buf.length hD' (by simp) (by decide) (by omega)
  have hDk : buf.drop (r + k) = ['/', NUL] := drop_add_replicate hD
  obtain ⟨buf', l', a1, a2, a3⟩ := scanName_end (show l ≤ r + k by omega) hT hDk
  exact ⟨⟨buf', l', r + k⟩, by simp [scanStep, hsk, a1], a2, a3⟩

theorem scanStep_name {buf t name out : List Char} {l r k : Nat} (hl : l ≤ r)
    (hT : buf.take l = out)
    (hD : buf.drop r = List.replicate k '/' ++ '/' :: (name ++ '/' :: t))
    (hne : name ≠ []) (hs : '/' ∉ name) (hz : NUL ∉ name) :
    ∃ buf' l' r', scanStep ⟨buf, l, r⟩ = some (.again ⟨buf', l', r'⟩) ∧
      buf'.take l' = stepName out name ∧ buf'.drop r' = '/' :: t ∧ l' ≤ r' ∧
      buf'.length = buf.length := by
  have hlen := length_of_drop hD (by simp)
  simp only [List.length_append, List.length_replicate, List.length_cons] at hlen
  obtain ⟨n, ns, hnn⟩ := List.exists_cons_of_ne_nil hne
  have hD' : buf.drop r = List.replicate (k + 1) '/' ++ (name ++ '/' :: t) := by
    rw [hD, replicate_append_slash]
  have hhead : (name ++ '/' :: t).head? ≠ some '/' := by
    rw [hnn]
    simp only [List.cons_append, List.head?_cons, ne_eq, Option.some.injEq]
    intro h
    exact hs (by rw [hnn, h]; simp)
  have hsk := skipSlashes_spec buf (name ++ '/' :: t) k r buf.length hD' (by simp) hhead (by omega)
  have hDk : buf.drop (r + k) = '/' :: (name ++ '/' :: t) := drop_add_replicate hD
  obtain ⟨buf', l', a1, a2, a3, a4, a5⟩ :=
    scanName_name (show l ≤ r + k by omega) hT hDk hne hs hz
  exact ⟨buf', l', _, by simp [scanStep, hsk, a1], a2, a3, a4, a5⟩

/-! ## The main loop -/

theorem slashed_sentinel (cs : List (List Char)) :
    ∃ t, slashed cs ++ ['/', NUL] = '/' :: t := by
  cases cs with
  | nil => exact ⟨[NUL], rfl⟩
  | cons c cs => exact ⟨c ++ slashed cs ++ ['/', NUL], by simp [slashed]⟩

theorem scanLoop_spec :
    ∀ (cs : List (List Char)) (k fuel : Nat) (buf out : List Char) (l r : Nat), l ≤ r →
      buf.take l = out → buf.drop r = List.replicate k '/' ++ (slashed cs ++ ['/', NUL]) →
      (∀ c ∈ cs, '/' ∉ c ∧ NUL ∉ c) → cs.length < fuel →
      ∃ s', scanLoop fuel ⟨buf, l, r⟩ = some s' ∧
        s'.buf.take s'.lhsp = finishOut ((cs.filter (fun c => c ≠ [])).foldl stepName out) ∧
        s'.lhsp < s'.buf.length := by
  intro cs
  induction cs with
  | nil =>
    intro k fuel buf out l r hl hT hD _ hf
    obtain ⟨fuel, rfl⟩ : ∃ f, fuel = f + 1 := ⟨fuel - 1, by simp at hf; omega⟩
    obtain ⟨s', a1, a2, a3⟩ := scanStep_end hl hT (by simpa [slashed] using hD)
    exact ⟨s', by simp [scanLoop, a1], by simpa using a2, a3⟩
  | cons c cs ih =>
    intro k fuel buf out l r hl hT hD hcs hf
    obtain ⟨fuel, rfl⟩ : ∃ f, fuel = f + 1 := ⟨fuel - 1, by simp at hf; omega⟩
    have hcs' : ∀ c ∈ cs, '/' ∉ c ∧ NUL ∉ c := fun x hx => hcs x (List.mem_cons_of_mem _ hx)
    simp only [List.length_cons] at hf
    by_cases hc : c = []
    · subst hc
      have hD' : buf.drop r = List.replicate (k + 1) '/' ++ (slashed cs ++ ['/', NUL]) := by
        rw [hD, ← replicate_append_slash]
        simp [slashed]
      obtain ⟨s', a1, a2, a3⟩ := ih (k + 1) (fuel + 1) buf out l r hl hT hD' hcs' (by omega)
      exact ⟨s', a1, by simpa using a2, a3⟩
    · obtain ⟨t, ht⟩ := slashed_sentinel cs
      have hD' : buf.drop r = List.replicate k '/' ++ '/' :: (c ++ '/' :: t) := by
        rw [hD, ← ht]
        simp [slashed]
      obtain ⟨buf', l', r', a1, a2, a3, a4, a5⟩ :=
        scanStep_name hl hT hD' hc (hcs c (List.mem_cons_self _ _)).1 (hcs c (List.mem_cons_self _ _)).2
      have hD2 : buf'.drop r' = List.replicate 0 '/' ++ (slashed cs ++ ['/', NUL]) := by
        rw [a3, ht]
        rfl
      obtain ⟨s', b1, b2, b3⟩ := ih 0 fuel buf' (stepName out c) l' r' a4 a2 hD2 hcs' (by omega)
      refine ⟨s', by simp [scanLoop, a1, b1], ?_, b3⟩
      rw [b2]
      simp [List.filter_cons, hc]

/-! ## Components -/

theorem splitFirst_join (s : List Char) :
    (splitFirst s).1 ++ slashed (splitFirst s).2 = s := by
  induction s with
  | nil => rfl
  | cons c cs ih =>
    by_cases hc : c = '/'
    · simp [splitFirst, hc, slashed, ih]
    · simp [splitFirst, hc, ih]

theorem splitFirst_fst_noslash (s : List Char) : '/' ∉ (splitFirst s).1 := by
  induction s with
  | nil => simp [splitFirst]
  | cons c cs ih =>
    by_cases hc : c = '/'
    · simp [splitFirst, hc]
    · simp only [splitFirst, hc, if_false, List.mem_cons, not_or]
      exact ⟨fun h => hc h.symm, ih⟩

theorem splitFirst_snd_noslash (s : List Char) : ∀ c ∈ (splitFirst s).2, '/' ∉ c := by
  induction s with
  | nil => simp [splitFirst]
  | cons c cs ih =>
    by_cases hc : c = '/'
    · simp only [splitFirst, hc, if_true, List.mem_cons]
      rintro x (rfl | hx)
      · exact splitFirst_fst_noslash cs
      · exact ih x hx
    · simpa [splitFirst, hc] using ih

theorem mem_slashed {x : Char} {c : List Char} {cs : List (List Char)} (hc : c ∈ cs)
    (hx : x ∈ c) : x ∈ slashed cs := by
  induction cs with
  | nil => cases hc
  | cons d ds ih =>
    rcases List.mem_cons.1 hc with rfl | h
    · simp [slashed, hx]
    · simp [slashed, ih h]

theorem splitFirst_fst_sub (s : List Char) {x : Char} (hx : x ∈ (splitFirst s).1) : x ∈ s := by
  rw [← splitFirst_join s]
  exact List.mem_append_left _ hx

theorem splitFirst_snd_sub (s : List Char) {x : Char} {c : List Char}
    (hc : c ∈ (splitFirst s).2) (hx : x ∈ c) : x ∈ s := by
  rw [← splitFirst_join s]
  exact List.mem_append_right _ (mem_slashed hc hx)

theorem splitFirst_snd_length (s : List Char) : (splitFirst s).2.length ≤ s.length := by
  induction s with
  | nil => simp [splitFirst]
  | cons c cs ih =>
    by_cases hc : c = '/'
    · simp [splitFirst, hc, ih]
    · simp only [splitFirst, hc, if_false, List.length_cons]
      omega

/-! ## NUL never enters the emitted path -/

theorem mem_retractRev {x : Char} :
    ∀ (t : List Char), x ∈ retractRev t → x ∈ t ∨ x = '/' ∨ x = '.' := by
  intro t
  induction t with
  | nil => simp [retractRev]
  | cons c t ih =>
    intro h
    simp only [retractRev] at h
    split_ifs at h with h1 h2 h3
    · simp at h; exact Or.inr (Or.inl h)
    · exact Or.inl (List.mem_cons_of_mem _ h)
    · simp at h; exact Or.inr (Or.inr h)
    · rcases ih h with h | h
      · exact Or.inl (List.mem_cons_of_mem _ h)
      · exact Or.inr h

theorem mem_retractOut {x : Char} {out : List Char} (h : x ∈ retractOut out) :
    x ∈ out ∨ x = '/' ∨ x = '.' := by
  unfold retractOut at h
  rw [List.mem_reverse] at h
  rcases mem_retractRev _ h with h | h
  · exact Or.inl (List.mem_reverse.1 h)
  · exact Or.inr h

theorem mem_stepName {x : Char} {out name : List Char} (h : x ∈ stepName out name) :
    x ∈ out ∨ x ∈ name ∨ x = '/' ∨ x = '.' := by
  unfold stepName at h
  split_ifs at h
  · exact Or.inl h
  · cases h
  · simp at h
    exact Or.inr (Or.inr (Or.inr h))
  · simp only [List.mem_append, List.mem_cons] at h
    rcases h with h | h | h
    · exact Or.inl h
    · exact Or.inr (Or.inr (Or.inl h))
    · exact Or.inr (Or.inl h)
  · exact Or.inl h
  · rcases mem_retractOut h with h | h
    · exact Or.inl h
    · exact Or.inr (Or.inr h)
  · simp only [List.mem_cons] at h
    rcases h with h | h
    · exact Or.inr (Or.inr (Or.inl h))
    · exact Or.inr (Or.inl h)
  · exact Or.inr (Or.inl h)
  · simp only [List.mem_append, List.mem_cons] at h
    rcases h with h | h | h
    · exact Or.inl h
    · exact Or.inr (Or.inr (Or.inl h))
    · exact Or.inr (Or.inl h)
  · simp only [List.mem_append, List.mem_cons] at h
    rcases h with h | h | h
    · exact Or.inl h
    · exact Or.inr (Or.inr (Or.inl h))
    · exact Or.inr (Or.inl h)

theorem foldl_stepName_nul (ns : List (List Char)) :
    ∀ out, NUL ∉ out → (∀ c ∈ ns, NUL ∉ c) → NUL ∉ ns.foldl stepName out := by
  induction ns with
  | nil => intro out h _; simpa using h
  | cons n ns ih =>
    intro out h hn
    simp only [List.foldl_cons]
    apply ih
    · intro hx
      rcases mem_stepName hx with h1 | h1 | h1 | h1
      · exact h h1
      · exact hn n (List.mem_cons_self _ _) h1
      · exact absurd h1 (by decide)
      · exact absurd h1 (by decide)
    · exact fun c hc => hn c (List.mem_cons_of_mem _ hc)

theorem normalPath_nul {s : List Char} (hs : NUL ∉ s) : NUL ∉ normalPath s := by
  unfold normalPath finishOut
  split_ifs with h
  · decide
  · apply foldl_stepName_nul
    · exact fun hx => hs (splitFirst_fst_sub s hx)
    · intro c hc hx
      unfold laterNames at hc
      exact hs (splitFirst_snd_sub s (List.mem_of_mem_filter hc) hx)

/-! ## The whole scan -/

theorem skipName_spec (buf t : List Char) :
    ∀ (name : List Char) (r fuel : Nat), buf.drop r = name ++ '/' :: t → '/' ∉ name →
      name.length < fuel → skipName fuel buf r = some (r + name.length) := by
  intro name
  induction name with
  | nil =>
    intro r fuel hD _ hf
    obtain ⟨fuel, rfl⟩ : ∃ f, fuel = f + 1 := ⟨fuel - 1, by omega⟩
    have h0 := rd_of_drop_zero hD
    simp at h0
    simp [skipName, h0]
  | cons n ns ih =>
    intro r fuel hD hn hf
    obtain ⟨fuel, rfl⟩ : ∃ f, fuel = f + 1 := ⟨fuel - 1, by omega⟩
    have h0 := rd_of_drop_zero hD
    simp at h0 hn hf
    have hD1 : buf.drop (r + 1) = ns ++ '/' :: t := by
      have := congrArg (List.drop 1) hD
      rw [List.drop_drop] at this
      simpa using this
    have hn1 : n ≠ '/' := fun h => hn.1 h.symm
    simp only [skipName, h0]
    rw [if_pos hn1, ih (r + 1) fuel hD1 hn.2 (by omega)]
    simp only [List.length_cons]
    congr 1
    omega

theorem cstr_of_nul_free {s : List Char} (hs : NUL ∉ s) (t : List Char) :
    cstr (s ++ NUL :: t) = s := by
  unfold cstr
  rw [List.takeWhile_append_of_pos]
  · simp
  · intro a ha
    simp only [bne_iff_ne, ne_eq]
    exact fun h => hs (h ▸ ha)

theorem cstr_self {s : List Char} (hs : NUL ∉ s) : cstr s = s := by
  unfold cstr
  rw [List.takeWhile_eq_self_iff]
  intro a ha
  simp only [bne_iff_ne, ne_eq]
  exact fun h => hs (h ▸ ha)

theorem cstr_nul_free (s : List Char) : NUL ∉ cstr s := by
  intro h
  have := List.mem_takeWhile_imp h
  simp at this

theorem strAt_set_nul {buf : List Char} {l : Nat} (hl : l < buf.length) (hz : NUL ∉ buf.take l) :
    strAt (buf.set l NUL) 0 = some (buf.take l) := by
  have e : buf.set l NUL = buf.take l ++ NUL :: buf.drop (l + 1) := by
    rw [List.set_eq_take_append_cons_drop, if_pos hl]
  unfold strAt
  rw [List.drop_zero, e, cstr_of_nul_free hz, if_pos (by simp)]

theorem length_le_slashed (cs : List (List Char)) : cs.length ≤ (slashed cs).length := by
  induction cs with
  | nil => simp
  | cons c cs ih =>
    simp only [slashed, List.length_cons, List.length_append]
    omega

theorem scanPath_parts (f : List Char) (cs : List (List Char)) (hf : '/' ∉ f) (hfz : NUL ∉ f)
    (hcs : ∀ c ∈ cs, '/' ∉ c ∧ NUL ∉ c) :
    scanPath (f ++ slashed cs ++ ['/', NUL]) =
      some (finishOut ((cs.filter (fun c => c ≠ [])).foldl stepName f)) := by
  have hlen : (f ++ slashed cs ++ ['/', NUL]).length = f.length + (slashed cs).length + 2 := by
    simp only [List.length_append, List.length_cons, List.length_nil]
  have hcl := length_le_slashed cs
  obtain ⟨t, ht⟩ := slashed_sentinel cs
  have hD0 : (f ++ slashed cs ++ ['/', NUL]).drop 0 = f ++ '/' :: t := by
    rw [List.drop_zero, List.append_assoc, ht]
  have hsk := skipName_spec _ _ _ 0 (f ++ slashed cs ++ ['/', NUL]).length hD0 hf
    (by rw [hlen]; omega)
  rw [zero_add] at hsk
  have hT : (f ++ slashed cs ++ ['/', NUL]).take f.length = f := by
    rw [List.append_assoc]
    exact List.take_left' rfl
  have hD : (f ++ slashed cs ++ ['/', NUL]).drop f.length =
      List.replicate 0 '/' ++ (slashed cs ++ ['/', NUL]) := by
    rw [List.append_assoc]
    exact List.drop_left' rfl
  obtain ⟨s', a1, a2, a3⟩ := scanLoop_spec cs 0 (f ++ slashed cs ++ ['/', NUL]).length
    (f ++ slashed cs ++ ['/', NUL]) f _ _ (le_refl _) hT hD hcs (by rw [hlen]; omega)
  have hz : NUL ∉ s'.buf.take s'.lhsp := by
    rw [a2]
    unfold finishOut
    split_ifs
    · decide
    · exact foldl_stepName_nul _ _ hfz (fun c hc => (hcs c (List.mem_of_mem_filter hc)).2)
  simp only [scanPath, hsk, a1, wr_eq NUL a3, strAt_set_nul a3 hz, a2]

theorem scanPath_eq {s : List Char} (hs : NUL ∉ s) :
    scanPath (s ++ ['/', NUL]) = some (normalPath s) := by
  have h := scanPath_parts (splitFirst s).1 (splitFirst s).2 (splitFirst_fst_noslash s)
    (fun hx => hs (splitFirst_fst_sub s hx))
    (fun c hc => ⟨splitFirst_snd_noslash s c hc, fun hx => hs (splitFirst_snd_sub s hc hx)⟩)
  rw [splitFirst_join s] at h
  exact h

theorem joined_nul_free (d b : List Char) : NUL ∉ joined d b := by
  unfold joined
  split_ifs
  · exact cstr_nul_free b
  · exact cstr_nul_free d
  · simp only [List.mem_append, List.mem_cons, not_or]
    exact ⟨cstr_nul_free d, by decide, cstr_nul_free b⟩

theorem fillPathBuf_eq (d b : List Char) :
    fillPathBuf (some d) (some b) = .ok (joined d b ++ ['/', NUL]) := by
  unfold fillPathBuf joined strlen
  by_cases hd : cstr d = []
  · simp [hd]
  · by_cases hb : cstr b = []
    · simp [hd, hb]
    · have e1 : cstr ['/'] = ['/'] := by decide
      simp [hd, hb, stpcpyv, pathBufLen, e1]
      rw [if_pos (by omega)]

theorem splice_path_eq (d b : List Char) :
    splice_path (some d) (some b) = .ok (normalPath (joined d b)) := by
  simp only [splice_path, fillPathBuf_eq, scanPath_eq (joined_nul_free d b)]

/-! ## Components and the functional reading -/

theorem splitFirst_noslash {a : List Char} (ha : '/' ∉ a) : splitFirst a = (a, []) := by
  induction a with
  | nil => rfl
  | cons c cs ih =>
    simp only [List.mem_cons, not_or] at ha
    have hc : c ≠ '/' := fun h => ha.1 h.symm
    simp [splitFirst, hc, ih ha.2]

theorem splitFirst_append {a : List Char} (rest : List Char) (ha : '/' ∉ a) :
    splitFirst (a ++ '/' :: rest) = (a, (splitFirst rest).1 :: (splitFirst rest).2) := by
  induction a with
  | nil => simp [splitFirst]
  | cons c cs ih =>
    simp only [List.mem_cons, not_or] at ha
    have hc : c ≠ '/' := fun h => ha.1 h.symm
    simp [splitFirst, hc, ih ha.2]

theorem components_ne_nil (s : List Char) : components s ≠ [] := by
  simp [components]

theorem components_noslash {a : List Char} (ha : '/' ∉ a) : components a = [a] := by
  simp [components, splitFirst_noslash ha]

theorem components_append (a b : List Char) :
    components (a ++ '/' :: b) = components a ++ components b := by
  induction a with
  | nil => simp [components, splitFirst]
  | cons c cs ih =>
    simp only [components, List.cons_append, List.cons.injEq] at ih ⊢
    by_cases hc : c = '/'
    · simp [splitFirst, hc, ih.1, ih.2]
    · simp [splitFirst, hc, ih.1, ih.2]

theorem components_snoc_name (out : List Char) {name : List Char} (hn : '/' ∉ name) :
    components (out ++ '/' :: name) = components out ++ [name] := by
  rw [components_append, components_noslash hn]

theorem exists_last_slash :
    ∀ (out : List Char), '/' ∈ out → ∃ pre name, out = pre ++ '/' :: name ∧ '/' ∉ name := by
  intro out
  induction out with
  | nil => intro h; cases h
  | cons c t ih =>
    intro h
    by_cases ht : '/' ∈ t
    · obtain ⟨pre, name, e, hn⟩ := ih ht
      exact ⟨c :: pre, name, by rw [e]; rfl, hn⟩
    · rcases List.mem_cons.1 h with h | h
      · exact ⟨[], t, by rw [← h]; rfl, ht⟩
      · exact absurd h ht

theorem retractRev_append (y : List Char) :
    ∀ (x : List Char), '/' ∉ x →
      retractRev (x ++ '/' :: y) = if y = [] then ['/'] else y := by
  intro x
  induction x with
  | nil => intro _; simp [retractRev]
  | cons c x ih =>
    intro hx
    simp only [List.mem_cons, not_or] at hx
    have hc : c ≠ '/' := fun h => hx.1 h.symm
    simp only [List.cons_append, retractRev, hc, if_false, List.append_eq]
    rw [if_neg (by simp), ih hx.2]

theorem retractOut_append (pre : List Char) {name : List Char} (hn : '/' ∉ name) :
    retractOut (pre ++ '/' :: name) = if pre = [] then ['/'] else pre := by
  unfold retractOut
  have e : (pre ++ '/' :: name).reverse = name.reverse ++ '/' :: pre.reverse := by simp
  rw [e, retractRev_append _ _ (by simpa using hn)]
  by_cases hp : pre = []
  · simp [hp]
  · simp [hp]

theorem retractOut_noslash {out : List Char} (hne : out ≠ []) (hn : '/' ∉ out) :
    retractOut out = ['.'] := by
  unfold retractOut
  have h : ∀ x : List Char, x ≠ [] → '/' ∉ x → retractRev x = ['.'] := by
    intro x
    induction x with
    | nil => intro h; exact absurd rfl h
    | cons c x ih =>
      intro _ hx
      simp only [List.mem_cons, not_or] at hx
      have hc : c ≠ '/' := fun h => hx.1 h.symm
      simp only [retractRev, hc, if_false]
      by_cases hx0 : x = []
      · simp [hx0]
      · rw [if_neg hx0, ih hx0 hx.2]
  rw [h out.reverse (by simpa using hne) (by simpa using hn)]
  rfl

theorem endsWithDotDot_cases {out : List Char} (h : endsWithDotDot out = true) :
    out = ['.', '.'] ∨ ∃ pre, out = pre ++ ['/', '.', '.'] := by
  unfold endsWithDotDot at h
  have e : out = out.reverse.reverse := by simp
  rcases hr : out.reverse with _ | ⟨a, _ | ⟨b, t⟩⟩
  · rw [hr] at h; simp at h
  · rw [hr] at h; simp at h
  · rw [hr] at h
    simp only [Bool.and_eq_true, beq_iff_eq, Bool.or_eq_true] at h
    obtain ⟨⟨ha, hb⟩, ht⟩ := h
    subst ha hb
    rw [e, hr]
    rcases t with _ | ⟨c, t⟩
    · left; rfl
    · right
      rcases ht with ht | ht
      · simp at ht
      · simp only [List.head?_cons, Option.some.injEq] at ht
        subst ht
        exact ⟨t.reverse, by simp⟩

theorem endsWithDotDot_component {out : List Char} (h : endsWithDotDot out = true) :
    ['.', '.'] ∈ components out := by
  rcases endsWithDotDot_cases h with rfl | ⟨pre, rfl⟩
  · decide
  · have e : pre ++ ['/', '.', '.'] = pre ++ '/' :: ['.', '.'] := rfl
    rw [e, components_snoc_name pre (by decide)]
    simp

theorem laterNames_ne_nil (s : List Char) : ∀ c ∈ laterNames s, c ≠ [] := by
  intro c hc
  have := List.of_mem_filter hc
  simpa using this

theorem laterNames_noslash (s : List Char) : ∀ c ∈ laterNames s, '/' ∉ c :=
  fun c hc => splitFirst_snd_noslash s c (List.mem_of_mem_filter hc)

theorem laterNames_mem_components {s : List Char} {c : List Char} (hc : c ∈ laterNames s) :
    c ∈ components s :=
  List.mem_cons_of_mem _ (List.mem_of_mem_filter hc)

/-! ## Absent arguments -/

theorem splice_path_none_right {d : List Char} (hd : cstr d ≠ []) :
    splice_path (some d) none = splice_path (some d) (some []) := by
  have h1 : (cstr d).length ≠ 0 := fun h => hd (List.length_eq_zero.1 h)
  have h2 : cstr [] = [] := rfl
  simp [splice_path, fillPathBuf, strlen, h1, h2]

theorem splice_path_none_left (b : List Char) :
    splice_path none (some b) = splice_path (some []) (some b) := by
  have h2 : cstr [] = [] := rfl
  simp [splice_path, fillPathBuf, strlen, h2]

theorem cstr_cons {c : Char} (hc : c ≠ NUL) (s : List Char) : cstr (c :: s) = c :: cstr s := by
  simp [cstr, hc]

/-! ## Absolute paths stay under the root -/

theorem stepName_rooted {out name : List Char} (hs : '/' ∉ name)
    (h : out = [] ∨ (out.head? = some '/' ∧ ['.', '.'] ∉ components out)) :
    stepName out name = [] ∨
      ((stepName out name).head? = some '/' ∧ ['.', '.'] ∉ components (stepName out name)) := by
  unfold stepName
  by_cases h1 : name = ['.']
  · simpa [h1] using h
  · rw [if_neg h1]
    by_cases h2 : name = ['.', '.']
    · rw [if_pos h2]
      by_cases h3 : out = []
      · simp [h3]
      · rw [if_neg h3]
        have ho := h.resolve_left h3
        by_cases h4 : out = ['.']
        · rw [h4] at ho
          simp at ho
        · rw [if_neg h4]
          cases h5 : endsWithDotDot out
          · simp only [Bool.false_eq_true, if_false]
            by_cases h6 : out = ['/']
            · rw [if_pos h6]
              exact Or.inr ho
            · rw [if_neg h6]
              have hmem : '/' ∈ out := by
                obtain ⟨c, t, rfl⟩ := List.exists_cons_of_ne_nil h3
                simp only [List.head?_cons, Option.some.injEq] at ho
                simp [ho.1]
              obtain ⟨pre, nm, e, hnm⟩ := exists_last_slash out hmem
              rw [e, retractOut_append pre hnm]
              by_cases hp : pre = []
              · rw [if_pos hp]
                exact Or.inr ⟨rfl, by decide⟩
              · rw [if_neg hp]
                right
                rw [e, components_snoc_name pre hnm] at ho
                refine ⟨?_, fun hx => ho.2 (List.mem_append_left _ hx)⟩
                obtain ⟨c, t, rfl⟩ := List.exists_cons_of_ne_nil hp
                simpa using ho.1
          · exact absurd (endsWithDotDot_component h5) ho.2
    · rw [if_neg h2]
      have hcomp : ∀ o : List Char, o = [] ∨ (o.head? = some '/' ∧ ['.', '.'] ∉ components o) →
          (o ++ '/' :: name).head? = some '/' ∧ ['.', '.'] ∉ components (o ++ '/' :: name) := by
        intro o ho
        rw [components_snoc_name o hs]
        rcases ho with rfl | ⟨ho1, ho2⟩
        · refine ⟨rfl, ?_⟩
          have e : components [] = [[]] := rfl
          rw [e]
          intro hx
          simp only [List.cons_append, List.nil_append, List.mem_cons, List.mem_singleton,
            List.not_mem_nil, or_false] at hx
          rcases hx with hx | hx
          · exact absurd hx (by decide)
          · exact h2 hx.symm
        · refine ⟨?_, ?_⟩
          · obtain ⟨c, t, rfl⟩ : ∃ c t, o = c :: t := by
              cases o with
              | nil => simp at ho1
              | cons c t => exact ⟨c, t, rfl⟩
            simpa using ho1
          · simp only [List.mem_append, List.mem_singleton, not_or]
            exact ⟨ho2, fun hx => h2 hx.symm⟩
      have hroot : ('/' :: name).head? = some '/' ∧ ['.', '.'] ∉ components ('/' :: name) := by
        simpa using hcomp [] (Or.inl rfl)
      split_ifs with h3 h4 h5
      · exact Or.inr hroot
      · rw [h5] at h
        simp at h
      · exact Or.inr (hcomp out h)
      · exact Or.inr (hcomp out h)

theorem foldl_stepName_rooted (ns : List (List Char)) :
    ∀ out, (out = [] ∨ (out.head? = some '/' ∧ ['.', '.'] ∉ components out)) →
      (∀ c ∈ ns, c ≠ [] ∧ '/' ∉ c) →
      (ns.foldl stepName out = [] ∨ ((ns.foldl stepName out).head? = some '/' ∧
        ['.', '.'] ∉ components (ns.foldl stepName out))) := by
  induction ns with
  | nil => intro out h _; simpa using h
  | cons n ns ih =>
    intro out h hn
    simp only [List.foldl_cons]
    exact ih _ (stepName_rooted (hn n (List.mem_cons_self _ _)).2 h)
      (fun c hc => hn c (List.mem_cons_of_mem _ hc))

theorem normalPath_rooted {s : List Char} (hs : s.head? = some '/') :
    (normalPath s).head? = some '/' ∧ ['.', '.'] ∉ components (normalPath s) := by
  obtain ⟨t, rfl⟩ : ∃ t, s = '/' :: t := by
    cases s with
    | nil => simp at hs
    | cons c t => simp at hs; exact ⟨t, by rw [hs]⟩
  have hf : (splitFirst ('/' :: t)).1 = [] := by simp [splitFirst]
  have := foldl_stepName_rooted (laterNames ('/' :: t)) (splitFirst ('/' :: t)).1 (Or.inl hf)
    (fun c hc => ⟨laterNames_ne_nil _ c hc, laterNames_noslash _ c hc⟩)
  unfold normalPath finishOut
  split_ifs with h0
  · exact ⟨rfl, by decide⟩
  · exact this.resolve_left h0

theorem joined_head {d : List Char} (b : List Char) (hd : d.head? = some '/') :
    (joined d b).head? = some '/' := by
  obtain ⟨t, rfl⟩ : ∃ t, d = '/' :: t := by
    cases d with
    | nil => simp at hd
    | cons c t => simp at hd; exact ⟨t, by rw [hd]⟩
  have e := cstr_cons (show '/' ≠ NUL by decide) t
  unfold joined
  rw [e]
  split_ifs <;> simp_all

/-! ## Names that are never a lone dot -/

theorem mem_slashed_within {c : List Char} {cs : List (List Char)} (hc : c ∈ cs) :
    c <:+: slashed cs := by
  induction cs with
  | nil => cases hc
  | cons d ds ih =>
    rcases List.mem_cons.1 hc with rfl | h
    · exact ⟨['/'], slashed ds, by simp [slashed]⟩
    · obtain ⟨u, v, e⟩ := ih h
      exact ⟨'/' :: (d ++ u), v, by simp [slashed, ← e]⟩

theorem component_within {c s : List Char} (hc : c ∈ components s) : c <:+: s := by
  have hj := splitFirst_join s
  rcases List.mem_cons.1 hc with rfl | h
  · exact ⟨[], slashed (splitFirst s).2, by simpa using hj⟩
  · obtain ⟨u, v, e⟩ := mem_slashed_within h
    refine ⟨(splitFirst s).1 ++ u, v, ?_⟩
    have e' : (splitFirst s).1 ++ u ++ c ++ v = (splitFirst s).1 ++ (u ++ c ++ v) := by simp
    rw [e', e, hj]

theorem cstr_initial (s : List Char) : cstr s <+: s :=
  List.takeWhile_prefix _

theorem components_joined (d b : List Char) :
    ∀ c ∈ components (joined d b), c ∈ components (cstr d) ∨ c ∈ components (cstr b) := by
  intro c hc
  unfold joined at hc
  split_ifs at hc
  · exact Or.inr hc
  · exact Or.inl hc
  · rw [components_append] at hc
    exact List.mem_append.1 hc

theorem dotdot_not_component {d b : List Char} (hd : ¬ ['.', '.'] <:+: d)
    (hb : ¬ ['.', '.'] <:+: b) : ['.', '.'] ∉ components (joined d b) := by
  intro h
  rcases components_joined d b _ h with h | h
  · exact hd ((component_within h).trans (cstr_initial d).isInfix)
  · exact hb ((component_within h).trans (cstr_initial b).isInfix)

theorem tail_components_snoc (out : List Char) {name : List Char} (hn : '/' ∉ name) :
    (components (out ++ '/' :: name)).tail = (components out).tail ++ [name] := by
  rw [components_snoc_name out hn]
  simp [components]

theorem stepName_nodot {out name : List Char} (hs : '/' ∉ name) (hdd : name ≠ ['.', '.'])
    (h : ['.'] ∉ (components out).tail) : ['.'] ∉ (components (stepName out name)).tail := by
  unfold stepName
  by_cases h1 : name = ['.']
  · simpa [h1] using h
  · rw [if_neg h1, if_neg hdd]
    have hcomp : ['.'] ∉ (components (out ++ '/' :: name)).tail := by
      rw [tail_components_snoc out hs]
      simp only [List.mem_append, List.mem_singleton, not_or]
      exact ⟨h, fun hx => h1 hx.symm⟩
    have hroot : ['.'] ∉ (components ('/' :: name)).tail := by
      have := tail_components_snoc [] hs
      simp only [List.nil_append] at this
      rw [this]
      simp only [components, splitFirst, List.tail_cons, List.nil_append, List.mem_singleton]
      exact fun hx => h1 hx.symm
    split_ifs
    · exact hroot
    · rw [components_noslash hs]
      simp
    · exact hcomp
    · exact hcomp

theorem foldl_stepName_nodot (ns : List (List Char)) :
    ∀ out, ['.'] ∉ (components out).tail → (∀ c ∈ ns, '/' ∉ c ∧ c ≠ ['.', '.']) →
      ['.'] ∉ (components (ns.foldl stepName out)).tail := by
  induction ns with
  | nil => intro out h _; simpa using h
  | cons n ns ih =>
    intro out h hn
    simp only [List.foldl_cons]
    exact ih _ (stepName_nodot (hn n (List.mem_cons_self _ _)).1 (hn n (List.mem_cons_self _ _)).2 h)
      (fun c hc => hn c (List.mem_cons_of_mem _ hc))

theorem normalPath_nodot {s : List Char} (hs : ['.', '.'] ∉ components s) :
    ['.'] ∉ (components (normalPath s)).tail := by
  unfold normalPath finishOut
  split_ifs
  · decide
  · apply foldl_stepName_nodot
    · rw [components_noslash (splitFirst_fst_noslash s)]
      simp
    · intro c hc
      exact ⟨laterNames_noslash s c hc, fun h => hs (h ▸ laterNames_mem_components hc)⟩

theorem no_dot_inside {r : List Char} (h : ['.'] ∉ (components r).tail) :
    ¬ ['/', '.', '/'] <:+: r := by
  rintro ⟨u, v, rfl⟩
  apply h
  have e : u ++ ['/', '.', '/'] ++ v = u ++ '/' :: (['.'] ++ '/' :: v) := by simp
  rw [e, components_append, components_append]
  obtain ⟨x, xs, hx⟩ := List.exists_cons_of_ne_nil (components_ne_nil u)
  rw [hx]
  simp [components, splitFirst]

theorem no_dot_at_end {r : List Char} (h : ['.'] ∉ (components r).tail) :
    ¬ ['/', '.'] <:+ r := by
  rintro ⟨u, rfl⟩
  apply h
  have e : u ++ ['/', '.'] = u ++ '/' :: ['.'] := rfl
  rw [e, components_append]
  obtain ⟨x, xs, hx⟩ := List.exists_cons_of_ne_nil (components_ne_nil u)
  rw [hx]
  simp [components, splitFirst]

/-! ## Paths that are already normal -/

theorem splitFirst_fst_eq_nil {t : List Char} (h : (splitFirst t).1 = []) :
    t = [] ∨ ∃ t', t = '/' :: t' := by
  cases t with
  | nil => exact Or.inl rfl
  | cons c t' =>
    right
    by_cases hc : c = '/'
    · exact ⟨t', by rw [hc]⟩
    · simp [splitFirst, hc] at h

theorem empty_component :
    ∀ (p : List Char), [] ∈ (splitFirst p).2 → ['/', '/'] <:+: p ∨ ['/'] <:+ p := by
  intro p
  induction p with
  | nil => intro h; simp [splitFirst] at h
  | cons c t ih =>
    intro h
    have hstep : [] ∈ (splitFirst t).2 → ['/', '/'] <:+: c :: t ∨ ['/'] <:+ c :: t := by
      intro h'
      rcases ih h' with h1 | h1
      · exact Or.inl (h1.trans (List.suffix_cons c t).isInfix)
      · exact Or.inr (h1.trans (List.suffix_cons c t))
    by_cases hc : c = '/'
    · subst hc
      simp only [splitFirst, if_true, List.mem_cons] at h
      rcases h with h | h
      · rcases splitFirst_fst_eq_nil h.symm with rfl | ⟨t', rfl⟩
        · exact Or.inr (List.suffix_refl _)
        · exact Or.inl ⟨[], t', rfl⟩
      · exact hstep h
    · simp only [splitFirst, hc, if_false] at h
      exact hstep h

theorem stepName_plain {out name : List Char} (h1 : name ≠ ['.']) (h2 : name ≠ ['.', '.'])
    (ho1 : out ≠ ['/']) (ho2 : out ≠ ['.']) : stepName out name = out ++ '/' :: name := by
  unfold stepName
  rw [if_neg h1, if_neg h2, if_neg ho1, if_neg ho2]
  simp

theorem foldl_stepName_plain (cs : List (List Char)) :
    ∀ out, (∀ c ∈ cs, c ≠ [] ∧ c ≠ ['.'] ∧ c ≠ ['.', '.']) → out ≠ ['/'] → out ≠ ['.'] →
      cs.foldl stepName out = out ++ slashed cs := by
  induction cs with
  | nil => intro out _ _ _; simp [slashed]
  | cons c cs ih =>
    intro out hc ho1 ho2
    obtain ⟨c1, c2, c3⟩ := hc c (List.mem_cons_self _ _)
    obtain ⟨x, xs, rfl⟩ := List.exists_cons_of_ne_nil c1
    simp only [List.foldl_cons]
    rw [stepName_plain c2 c3 ho1 ho2, ih _ (fun d hd => hc d (List.mem_cons_of_mem _ hd))]
    · simp [slashed]
    · intro h
      have := congrArg List.length h
      simp at this
      omega
    · intro h
      have := congrArg List.length h
      simp at this
      omega

theorem normalPath_fixed {p : List Char} (hne : p ≠ []) (h1 : ['.'] ∉ components p)
    (h2 : ['.', '.'] ∉ components p) (h3 : ¬ ['/', '/'] <:+: p)
    (h4 : p = ['/'] ∨ ¬ ['/'] <:+ p) : normalPath p = p := by
  by_cases hroot : p = ['/']
  · rw [hroot]
    decide
  · have h4' := h4.resolve_left hroot
    have hcs : ∀ c ∈ (splitFirst p).2, c ≠ [] := by
      intro c hc h0
      rw [h0] at hc
      rcases empty_component p hc with h | h
      · exact h3 h
      · exact h4' h
    have hfil : laterNames p = (splitFirst p).2 := by
      unfold laterNames
      rw [List.filter_eq_self]
      intro c hc
      simpa using hcs c hc
    have hfold := foldl_stepName_plain (splitFirst p).2 (splitFirst p).1
      (fun c hc => ⟨hcs c hc, fun h => h1 (h ▸ List.mem_cons_of_mem _ hc),
        fun h => h2 (h ▸ List.mem_cons_of_mem _ hc)⟩)
      (fun h => splitFirst_fst_noslash p (by rw [h]; simp))
      (fun h => h1 (by rw [← h]; exact List.mem_cons_self _ _))
    unfold normalPath finishOut
    rw [hfil, hfold, splitFirst_join, if_neg hne]

theorem joined_nil_right {p : List Char} (hz : NUL ∉ p) : joined p [] = p := by
  have e : cstr [] = [] := rfl
  unfold joined
  rw [cstr_self hz, e]
  split_ifs with h h'
  · exact h.symm
  · rfl
  · exact absurd rfl h'

/-! ## split_path: the three backward loops -/

theorem trimEnd_spec (buf : List Char) :
    ∀ e, e ≤ buf.length →
      ∃ e', trimEnd buf e = some e' ∧ buf.take e' = trimmedPath (buf.take e) ∧ e' ≤ e := by
  intro e
  induction e with
  | zero => intro _; exact ⟨0, rfl, by simp [trimmedPath], le_refl _⟩
  | succ e ih =>
    intro he
    obtain ⟨c, hc, htk⟩ := rd_take_last (show e < buf.length by omega)
    by_cases h1 : 1 < e + 1
    · obtain ⟨x, xs, hx⟩ : ∃ x xs, buf.take e = x :: xs := by
        cases h : buf.take e with
        | nil =>
          have := congrArg List.length h
          rw [List.length_take, List.length_nil] at this
          omega
        | cons x xs => exact ⟨x, xs, rfl⟩
      by_cases hs : c = '/'
      · obtain ⟨e', a1, a2, a3⟩ := ih (by omega)
        refine ⟨e', ?_, ?_, by omega⟩
        · simp [trimEnd, h1, hc, hs, a1]
        · rw [a2, htk, hx, hs]
          simp only [trimmedPath, List.cons_append]
          rw [List.rdropWhile_concat_pos _ _ _ (by simp)]
      · refine ⟨e + 1, ?_, ?_, le_refl _⟩
        · simp [trimEnd, h1, hc, hs]
        · rw [htk, hx]
          simp only [trimmedPath, List.cons_append]
          rw [List.rdropWhile_concat_neg _ _ _ (by simpa using hs)]
    · have e0 : e = 0 := by omega
      subst e0
      refine ⟨1, by simp [trimEnd], ?_, le_refl _⟩
      rw [htk]
      simp [trimmedPath]

theorem findLastSlash_spec (buf : List Char) :
    ∀ e, e ≤ buf.length →
      findLastSlash buf e = some (if '/' ∈ buf.take e then
        some (((buf.take e).rdropWhile (fun x => x != '/')).length - 1) else none) := by
  intro e
  induction e with
  | zero => intro _; simp [findLastSlash]
  | succ e ih =>
    intro he
    obtain ⟨c, hc, htk⟩ := rd_take_last (show e < buf.length by omega)
    have hlen : (buf.take e).length = e := by simp; omega
    by_cases hs : c = '/'
    · rw [htk, hs, List.rdropWhile_concat_neg _ _ _ (by simp)]
      simp [findLastSlash, hc, hs, hlen]
    · rw [htk, List.rdropWhile_concat_pos _ _ _ (by simpa using hs)]
      have hmem : '/' ∈ buf.take e ++ [c] ↔ '/' ∈ buf.take e := by
        simp only [List.mem_append, List.mem_singleton]
        exact ⟨fun h => h.resolve_right (fun h' => hs h'.symm), Or.inl⟩
      simp only [findLastSlash, hc, hs, if_false, ih (by omega), hmem]

theorem parentEnd_spec (buf : List Char) :
    ∀ l, l ≤ buf.length →
      parentEnd buf l = some ((buf.take l).rdropWhile (fun x => x == '/')).length := by
  intro l
  induction l with
  | zero => intro _; simp [parentEnd]
  | succ l ih =>
    intro hl
    obtain ⟨c, hc, htk⟩ := rd_take_last (show l < buf.length by omega)
    have hlen : (buf.take l).length = l := by simp; omega
    by_cases hs : c = '/'
    · rw [htk, hs, List.rdropWhile_concat_pos _ _ _ (by simp)]
      simp [parentEnd, hc, hs, ih (by omega)]
    · rw [htk, List.rdropWhile_concat_neg _ _ _ (by simpa using hs)]
      simp [parentEnd, hc, hs, hlen]

theorem rdropWhile_append_rtakeWhile (p : Char → Bool) (t : List Char) :
    t.rdropWhile p ++ t.rtakeWhile p = t := by
  unfold List.rdropWhile List.rtakeWhile
  rw [← List.reverse_append, List.takeWhile_append_dropWhile, List.reverse_reverse]

theorem trimmedPath_initial (p : List Char) : trimmedPath p <+: p := by
  cases p with
  | nil => exact List.prefix_refl _
  | cons c t =>
    obtain ⟨u, hu⟩ := List.rdropWhile_prefix (fun x => x == '/') (l := t)
    exact ⟨u, by simp only [trimmedPath, List.cons_append, hu]⟩

theorem trimmedPath_ne_nil {p : List Char} (h : p ≠ []) : trimmedPath p ≠ [] := by
  cases p with
  | nil => exact absurd rfl h
  | cons c t => simp [trimmedPath]

theorem strAt_of_drop {buf s rest : List Char} {i : Nat} (h : buf.drop i = s ++ NUL :: rest)
    (hz : NUL ∉ s) : strAt buf i = some s := by
  unfold strAt
  rw [h, cstr_of_nul_free hz, if_pos (by simp)]

theorem splitBuf_spec {p : List Char} (hne : p ≠ []) (hz : NUL ∉ p) :
    splitBuf (p ++ [NUL]) p.length = some (splitSpec p) := by
  have hlen0 : (p ++ [NUL]).length = p.length + 1 := by simp
  have htk0 : (p ++ [NUL]).take p.length = p := List.take_left' rfl
  obtain ⟨e, a1, a2, a3⟩ := trimEnd_spec (p ++ [NUL]) p.length (by omega)
  rw [htk0] at a2
  obtain ⟨u, hu⟩ := trimmedPath_initial p
  have htz : NUL ∉ trimmedPath p := fun h => hz (by rw [← hu]; exact List.mem_append_left _ h)
  have hte : (trimmedPath p).length = e := by
    rw [← a2, List.length_take]
    omega
  have he : e < (p ++ [NUL]).length := by omega
  have hb1 : (p ++ [NUL]).set e NUL = trimmedPath p ++ NUL :: (p ++ [NUL]).drop (e + 1) := by
    rw [List.set_eq_take_append_cons_drop, if_pos he, a2]
  have hlen1 : ((p ++ [NUL]).set e NUL).length = p.length + 1 := by simp
  have htk1 : ((p ++ [NUL]).set e NUL).take e = trimmedPath p := by
    rw [take_set_self NUL he, a2]
  have hfl := findLastSlash_spec ((p ++ [NUL]).set e NUL) e (by omega)
  rw [htk1] at hfl
  have hpos : 0 < (trimmedPath p).length :=
    List.length_pos.2 (trimmedPath_ne_nil hne)
  by_cases hs : '/' ∈ trimmedPath p
  · rw [if_pos hs] at hfl
    have hDL := rdropWhile_append_rtakeWhile (fun x => x != '/') (trimmedPath p)
    have hDne : (trimmedPath p).rdropWhile (fun x => x != '/') ≠ [] := by
      intro h
      rw [List.rdropWhile_eq_nil_iff] at h
      have := h _ hs
      simp at this
    have hDlast := List.rdropWhile_last_not (fun x => x != '/') (trimmedPath p) hDne
    obtain ⟨pre, hpre⟩ : ∃ pre, (trimmedPath p).rdropWhile (fun x => x != '/') = pre ++ ['/'] := by
      refine ⟨((trimmedPath p).rdropWhile (fun x => x != '/')).dropLast, ?_⟩
      have h := List.dropLast_append_getLast hDne
      have hl : ((trimmedPath p).rdropWhile (fun x => x != '/')).getLast hDne = '/' := by
        simpa using hDlast
      rw [hl] at h
      exact h.symm
    have hzL : NUL ∉ (trimmedPath p).rtakeWhile (fun x => x != '/') := fun h =>
      htz (by rw [← hDL]; exact List.mem_append_right _ h)
    have hzpre : NUL ∉ pre := fun h =>
      htz (by rw [← hDL, hpre]; simp [h])
    have hDlen : ((trimmedPath p).rdropWhile (fun x => x != '/')).length - 1 = pre.length := by
      rw [hpre]; simp
    rw [hDlen] at hfl
    have hb1' : (p ++ [NUL]).set e NUL =
        pre ++ '/' :: ((trimmedPath p).rtakeWhile (fun x => x != '/') ++
          NUL :: (p ++ [NUL]).drop (e + 1)) := by
      rw [hb1]
      conv_lhs => rw [← hDL, hpre]
      simp
    have hbase : strAt ((p ++ [NUL]).set e NUL) (pre.length + 1) =
        some ((trimmedPath p).rtakeWhile (fun x => x != '/')) := by
      apply strAt_of_drop _ hzL
      · exact (p ++ [NUL]).drop (e + 1)
      · rw [hb1']
        have : pre ++ '/' :: ((trimmedPath p).rtakeWhile (fun x => x != '/') ++
            NUL :: (p ++ [NUL]).drop (e + 1)) = (pre ++ ['/']) ++
            ((trimmedPath p).rtakeWhile (fun x => x != '/') ++
            NUL :: (p ++ [NUL]).drop (e + 1)) := by simp
        rw [this]
        exact List.drop_left' (by simp)
    have hplen : pre.length + 1 ≤ e := by
      rw [← hte, ← hDL, hpre]
      simp
    have htkp : ((p ++ [NUL]).set e NUL).take pre.length = pre := by
      rw [hb1']
      exact List.take_left' rfl
    have hpe := parentEnd_spec ((p ++ [NUL]).set e NUL) pre.length (by omega)
    rw [htkp] at hpe
    have hspec : splitSpec p = (if pre.rdropWhile (fun x => x == '/') = [] then ['/']
        else pre.rdropWhile (fun x => x == '/'),
        (trimmedPath p).rtakeWhile (fun x => x != '/')) := by
      unfold splitSpec
      simp only [hs, if_true, hpre]
      rw [List.rdropWhile_concat_pos _ _ _ (by simp)]
    obtain ⟨v, hv⟩ := List.rdropWhile_prefix (fun x => x == '/') (l := pre)
    have hzP : NUL ∉ pre.rdropWhile (fun x => x == '/') := fun h =>
      hzpre (by rw [← hv]; exact List.mem_append_left _ h)
    have hPlen : (pre.rdropWhile (fun x => x == '/')).length ≤ pre.length := by
      have := congrArg List.length hv
      simp at this
      omega
    rw [hspec]
    by_cases hP : pre.rdropWhile (fun x => x == '/') = []
    · have hP0 : (pre.rdropWhile (fun x => x == '/')).length = 0 := by rw [hP]; rfl
      have hhead : ∃ w, (p ++ [NUL]).set e NUL = '/' :: w := by
        rw [hb1']
        cases hpc : pre with
        | nil => exact ⟨_, rfl⟩
        | cons x xs =>
          have hall := List.rdropWhile_eq_nil_iff.1 hP
          have hx : x = '/' := by simpa using hall x (by rw [hpc]; simp)
          exact ⟨_, by rw [hx]; rfl⟩
      obtain ⟨w, hw⟩ := hhead
      have hwl : 1 < ((p ++ [NUL]).set e NUL).length := by omega
      have hdir : strAt (((p ++ [NUL]).set e NUL).set 1 NUL) 0 = some ['/'] := by
        have hz1 : NUL ∉ ((p ++ [NUL]).set e NUL).take 1 := by
          rw [hw]
          simp only [List.take_succ_cons, List.take_zero, List.mem_singleton]
          decide
        rw [strAt_set_nul hwl hz1, hw]
        rfl
      rw [if_pos hP]
      simp only [splitBuf, a1, wr_eq NUL he, hfl, hbase, hpe, hP0, Option.bind_eq_bind,
        Option.some_bind, zero_add, if_true, wr_eq NUL hwl, hdir, Option.pure_def]
    · have hP0 : (pre.rdropWhile (fun x => x == '/')).length ≠ 0 := fun h =>
        hP (List.length_eq_zero.1 h)
      have hPl : (pre.rdropWhile (fun x => x == '/')).length < ((p ++ [NUL]).set e NUL).length := by
        omega
      have htkP : ((p ++ [NUL]).set e NUL).take (pre.rdropWhile (fun x => x == '/')).length =
          pre.rdropWhile (fun x => x == '/') := by
        rw [hb1']
        have e1 : ∀ X : List Char, pre ++ X = pre.rdropWhile (fun x => x == '/') ++ (v ++ X) := by
          intro X
          rw [← List.append_assoc, hv]
        rw [e1]
        exact List.take_left' rfl
      have hdir : strAt (((p ++ [NUL]).set e NUL).set
          (pre.rdropWhile (fun x => x == '/')).length NUL) 0 =
          some (pre.rdropWhile (fun x => x == '/')) := by
        rw [strAt_set_nul hPl (by rw [htkP]; exact hzP), htkP]
      rw [if_neg hP]
      simp only [splitBuf, a1, wr_eq NUL he, hfl, hbase, hpe, hP0, Option.bind_eq_bind,
        Option.some_bind, if_false, wr_eq NUL hPl, hdir, Option.pure_def]
  · rw [if_neg hs] at hfl
    have hbase : strAt ((p ++ [NUL]).set e NUL) 0 = some (trimmedPath p) := by
      rw [strAt_set_nul he (by rw [a2]; exact htz), a2]
    have hspec : splitSpec p = (['.'], trimmedPath p) := by
      unfold splitSpec
      simp only [hs, if_false]
    simp only [splitBuf, a1, wr_eq NUL he, hfl, hbase, hspec, Option.bind_eq_bind,
      Option.some_bind, Option.pure_def]

theorem split_path_eq {p : List Char} (hne : p ≠ []) (hz : NUL ∉ p) :
    split_path (some p) = .ok (splitSpec p) := by
  simp only [split_path, strlen, cstr_self hz, if_neg hne, splitBuf_spec hne hz]

theorem splitSpec_all_slashes {p : List Char} (hne : p ≠ []) (hall : ∀ c ∈ p, c = '/') :
    splitSpec p = (['/'], []) := by
  obtain ⟨c, t, rfl⟩ := List.exists_cons_of_ne_nil hne
  have hc : c = '/' := hall c (List.mem_cons_self _ _)
  have ht : t.rdropWhile (fun x => x == '/') = [] := by
    rw [List.rdropWhile_eq_nil_iff]
    intro x hx
    simpa using hall x (List.mem_cons_of_mem _ hx)
  have e : trimmedPath (c :: t) = ['/'] := by
    simp only [trimmedPath, ht, hc]
  unfold splitSpec
  rw [e]
  decide

theorem trimmedPath_concat_slash {p : List Char} (hne : p ≠ []) :
    trimmedPath (p ++ ['/']) = trimmedPath p := by
  obtain ⟨c, t, rfl⟩ := List.exists_cons_of_ne_nil hne
  simp only [List.cons_append, trimmedPath]
  rw [List.rdropWhile_concat_pos _ _ _ (by simp)]

theorem splitSpec_concat_slash {p : List Char} (hne : p ≠ []) :
    splitSpec (p ++ ['/']) = splitSpec p := by
  unfold splitSpec
  rw [trimmedPath_concat_slash hne]

theorem cstr_idem (p : List Char) : cstr (cstr p) = cstr p :=
  cstr_self (cstr_nul_free p)

theorem split_path_cstr (p : List Char) : split_path (some p) = split_path (some (cstr p)) := by
  simp only [split_path, strlen, cstr_idem]

/-! ## license_program: what a return implies -/

theorem land_of_land_mask {m a b : Nat} (h : m &&& a = 0) (hb : a &&& b = b) : m &&& b = 0 := by
  rw [← hb, ← Nat.land_assoc, h, Nat.zero_and]

theorem cstr_drop {s : List Char} {k : Nat} (hk : k ≤ (cstr s).length) :
    cstr (s.drop k) = (cstr s).drop k := by
  induction s generalizing k with
  | nil => simp [cstr]
  | cons c t ih =>
    cases k with
    | zero => rfl
    | succ k =>
      by_cases hc : c = NUL
      · simp [cstr, hc] at hk
      · rw [cstr_cons hc] at hk ⊢
        simp only [List.length_cons, Nat.add_le_add_iff_right] at hk
        simpa using ih hk

theorem drop_length_append (a b : List Char) : (a ++ b).drop a.length = b :=
  List.drop_left' rfl

theorem strrchr_tail {s : List Char} {i : Nat} (h : strrchr s '/' = some i) :
    cstr (s.drop (i + 1)) = (cstr s).rtakeWhile (fun x => x != '/') := by
  unfold strrchr at h
  split_ifs at h with hs
  simp only [Option.some.injEq] at h
  have hDL := rdropWhile_append_rtakeWhile (fun x => x != '/') (cstr s)
  have hDne : (cstr s).rdropWhile (fun x => x != '/') ≠ [] := by
    intro h0
    rw [List.rdropWhile_eq_nil_iff] at h0
    have := h0 _ hs
    simp at this
  have hpos := List.length_pos.2 hDne
  have hi : i + 1 = ((cstr s).rdropWhile (fun x => x != '/')).length := by omega
  have hle : i + 1 ≤ (cstr s).length := by
    rw [hi]
    have := congrArg List.length hDL
    rw [List.length_append] at this
    omega
  rw [cstr_drop hle, hi]
  have := drop_length_append ((cstr s).rdropWhile (fun x => x != '/'))
    ((cstr s).rtakeWhile (fun x => x != '/'))
  rw [hDL] at this
  exact this

theorem Run.bind_eq_returned {α β : Type} {r : Run α} {f : α → Run β} {b : β} :
    r.bind f = .returned b ↔ ∃ a, r = .returned a ∧ f a = .returned b := by
  cases r with
  | returned a => simp [Run.bind]
  | exited s => simp [Run.bind]
  | running => simp [Run.bind]
  | undefined => simp [Run.bind]

theorem identify_licensee {P : Platform} {aUid aGid : Nat} {cmd : List Char} {who : Parties}
    (h : identify P aUid aGid cmd = .returned who) :
    create_symlinkfd P none cmd = some who.licensee := by
  unfold identify die at h
  split at h
  · cases h
  split at h
  · cases h
  split at h
  · cases h
  rename_i licensee hlic
  split at h
  · cases h
  split at h
  · cases h
  split at h
  · cases h
  simp only [Run.returned.injEq] at h
  subst h
  exact hlic

theorem checkLicenseeDir_returned {mPath : List Char}
    (h : checkLicenseeDir mPath = .returned ()) :
    ((cstr mPath).rtakeWhile (fun x => x != '/')).head? ≠ some '.' ∧
      ((cstr mPath).rtakeWhile (fun x => x != '/')).head? ≠ some '@' := by
  unfold checkLicenseeDir die at h
  split at h
  · cases h
  rename_i slash hslash
  by_cases h1 : slash = 0
  · rw [if_pos h1] at h
    cases h
  rw [if_neg h1] at h
  by_cases h2 : (cstr (mPath.drop (slash + 1))).head? = some '.'
  · rw [if_pos h2] at h
    cases h
  rw [if_neg h2] at h
  by_cases h3 : (cstr (mPath.drop (slash + 1))).head? = some '@'
  · rw [if_pos h3] at h
    cases h
  rw [strrchr_tail hslash] at h2 h3
  exact ⟨h2, h3⟩

theorem checkParentDir_returned {P : Platform} {licensee : SymlinkFd} {licensor : User}
    (h : checkParentDir P licensee licensor = .returned ()) :
    ∃ parentDirStat, P.fstatat licensee.mDir.mFd ['.', '.'] = some parentDirStat ∧
      parentDirStat.st_mode &&& S_IRGRP = 0 ∧ parentDirStat.st_mode &&& S_IWGRP = 0 ∧
      parentDirStat.st_mode &&& S_IROTH = 0 ∧ parentDirStat.st_mode &&& S_IWOTH = 0 ∧
      parentDirStat.st_uid = licensor.mUid := by
  unfold checkParentDir die at h
  split at h
  · cases h
  rename_i parentDirStat hparent
  by_cases h1 : parentDirStat.st_mode &&& (S_IRGRP ||| S_IWGRP) ≠ 0
  · rw [if_pos h1] at h
    cases h
  rw [if_neg h1] at h
  by_cases h2 : parentDirStat.st_mode &&& (S_IROTH ||| S_IWOTH) ≠ 0
  · rw [if_pos h2] at h
    cases h
  rw [if_neg h2] at h
  by_cases h3 : parentDirStat.st_uid ≠ licensor.mUid
  · rw [if_pos h3] at h
    cases h
  simp only [ne_eq, Decidable.not_not] at h1 h2 h3
  exact ⟨parentDirStat, hparent, land_of_land_mask h1 (by decide),
    land_of_land_mask h1 (by decide), land_of_land_mask h2 (by decide),
    land_of_land_mask h2 (by decide), h3⟩

theorem checkSymlinkOwner_returned {P : Platform} {licensee : SymlinkFd} {requestor : User}
    (h : checkSymlinkOwner P licensee requestor = .returned ()) :
    ∃ symLinkStat, P.fstat licensee.mFd = some symLinkStat ∧
      symLinkStat.st_uid = requestor.mUid := by
  unfold checkSymlinkOwner die at h
  split at h
  · cases h
  rename_i symLinkStat hsym
  by_cases h1 : symLinkStat.st_uid ≠ requestor.mUid
  · rw [if_pos h1] at h
    cases h
  simp only [ne_eq, Decidable.not_not] at h1
  exact ⟨symLinkStat, hsym, h1⟩

theorem checkTarget_returned {P : Platform} {resolved : SymlinkFd} {licensor : User}
    {path : List Char} (h : checkTarget P resolved licensor = .returned path) :
    ∃ linkStat, splice_path (some resolved.mDir.mPath) (some resolved.mName) = .ok path ∧
      P.stat path = some linkStat ∧ linkStat.st_uid = licensor.mUid ∧
      linkStat.st_mode &&& S_IFMT = S_IFREG ∧ linkStat.st_mode &&& S_IXUSR ≠ 0 := by
  unfold checkTarget die at h
  split at h
  · cases h
  · cases h
  rename_i path' hpath
  split at h
  · cases h
  rename_i linkStat hstat
  by_cases h1 : linkStat.st_uid ≠ licensor.mUid
  · rw [if_pos h1] at h
    cases h
  rw [if_neg h1] at h
  by_cases h2 : (!S_ISREG linkStat.st_mode || linkStat.st_mode &&& S_IXUSR == 0) = true
  · rw [if_pos h2] at h
    cases h
  rw [if_neg h2] at h
  simp only [Run.returned.injEq] at h
  subst h
  simp only [ne_eq, Decidable.not_not] at h1
  simp only [S_ISREG, Bool.or_eq_true, Bool.not_eq_true', beq_eq_false_iff_ne, ne_eq,
    beq_iff_eq, not_or, Decidable.not_not] at h2
  exact ⟨linkStat, hpath, hstat, h1, h2.1, h2.2⟩

/-- Claim C1, which the code does not meet.  At `p = ".x"`, a path with no `.` or `..`
component and no doubled slash, `split_path` gives (`.`, `.x`) and `splice_path` of
the two gives `./.x`, not `.x`: the overwrite of a bare `.` (lines 133-140) is
skipped when the name starts with a dot. -/
theorem split_splice_dot_name :
    split_path (some ['.', 'x']) = .ok (['.'], ['.', 'x']) ∧
      splice_path (some ['.']) (some ['.', 'x']) = .ok ['.', '/', '.', 'x'] := by
  decide

/-- Claim C2, which the code does not meet.  `splice_path("/a", "../.x")` returns
`//.x`, which has two adjacent slashes: after the retraction to `/`, the overwrite of
a bare `/` (lines 133-135) is skipped when the name starts with a dot. -/
theorem splice_double_slash :
    splice_path (some ['/', 'a']) (some ['.', '.', '/', '.', 'x']) =
      .ok ['/', '/', '.', 'x'] := by
  decide

/-- Claim C3.  For every dirName that begins with a slash and every baseName (absent or
present), `splice_path` returns a path that begins with a slash and has no component
equal to `..`: a `..` that would climb above the root is dropped. -/
theorem splice_absolute_stays_rooted (d : List Char) (b : Option (List Char))
    (hd : d.head? = some '/') :
    ∃ r, splice_path (some d) b = .ok r ∧ r.head? = some '/' ∧ ['.', '.'] ∉ components r := by
  have hc : cstr d ≠ [] := by
    obtain ⟨t, rfl⟩ : ∃ t, d = '/' :: t := by
      cases d with
      | nil => simp at hd
      | cons c t => simp at hd; exact ⟨t, by rw [hd]⟩
    rw [cstr_cons (by decide)]
    simp
  cases b with
  | none =>
    rw [splice_path_none_right hc, splice_path_eq]
    exact ⟨_, rfl, normalPath_rooted (joined_head [] hd)⟩
  | some b =>
    rw [splice_path_eq]
    exact ⟨_, rfl, normalPath_rooted (joined_head b hd)⟩

/-- Witness for C3: `splice("/", "../x")` is `/x`, an instance of the theorem. -/
theorem splice_absolute_stays_rooted_witness :
    splice_path (some ['/']) (some ['.', '.', '/', 'x']) = .ok ['/', 'x'] ∧
      ∃ r, splice_path (some ['/']) (some ['.', '.', '/', 'x']) = .ok r ∧
        r.head? = some '/' ∧ ['.', '.'] ∉ components r :=
  ⟨by decide, splice_absolute_stays_rooted ['/'] (some ['.', '.', '/', 'x']) rfl⟩

/-- Claim C4.  For every dirName and baseName neither of which contains `..`, the path
returned by `splice_path` contains no `/./` and does not end with `/.`. -/
theorem splice_eliminates_dot (d b : List Char) (hd : ¬ ['.', '.'] <:+: d)
    (hb : ¬ ['.', '.'] <:+: b) :
    ∃ r, splice_path (some d) (some b) = .ok r ∧ ¬ ['/', '.', '/'] <:+: r ∧
      ¬ ['/', '.'] <:+ r := by
  have h := normalPath_nodot (dotdot_not_component hd hb)
  exact ⟨_, splice_path_eq d b, no_dot_inside h, no_dot_at_end h⟩

/-- Witness for C4 at dirName `./a/.` and baseName `./b/.`, where the result is `a/b`. -/
theorem splice_eliminates_dot_witness :
    splice_path (some ['.', '/', 'a', '/', '.']) (some ['.', '/', 'b', '/', '.']) =
        .ok ['a', '/', 'b'] ∧
      ∃ r, splice_path (some ['.', '/', 'a', '/', '.']) (some ['.', '/', 'b', '/', '.']) = .ok r ∧
        ¬ ['/', '.', '/'] <:+: r ∧ ¬ ['/', '.'] <:+ r :=
  ⟨by decide, splice_eliminates_dot _ _ (by decide) (by decide)⟩

/-- Claim C5.  For every already-normalized path `p` (a non-empty C string with no
component equal to `.` or `..`, no doubled slash, and no trailing slash unless `p` is
`/`), `splice_path(p, "")` returns `p` unchanged. -/
theorem splice_normalized_unchanged (p : List Char) (hne : p ≠ []) (hz : NUL ∉ p)
    (h1 : ['.'] ∉ components p) (h2 : ['.', '.'] ∉ components p)
    (h3 : ¬ ['/', '/'] <:+: p) (h4 : p = ['/'] ∨ ¬ ['/'] <:+ p) :
    splice_path (some p) (some []) = .ok p := by
  rw [splice_path_eq, joined_nil_right hz, normalPath_fixed hne h1 h2 h3 h4]

/-- Witness for C5 at the normalized path `/a/.b`. -/
theorem splice_normalized_unchanged_witness :
    splice_path (some ['/', 'a', '/', '.', 'b']) (some []) = .ok ['/', 'a', '/', '.', 'b'] :=
  splice_normalized_unchanged ['/', 'a', '/', '.', 'b'] (by decide) (by decide) (by decide)
    (by decide) (by decide) (Or.inr (by decide))

/-- Claim C6.  A `..` that cannot be cancelled against a preceding name is kept: for
every non-empty name `x` without a slash that is neither `.` nor `..`,
`splice_path("..", "../" ++ x)` returns `"../../" ++ x`. -/
theorem splice_keeps_unresolved_dotdot (x : List Char) (hne : x ≠ []) (hs : '/' ∉ x)
    (hz : NUL ∉ x) (h1 : x ≠ ['.']) (h2 : x ≠ ['.', '.']) :
    splice_path (some ['.', '.']) (some ('.' :: '.' :: '/' :: x)) =
      .ok ('.' :: '.' :: '/' :: '.' :: '.' :: '/' :: x) := by
  have hz' : NUL ∉ '.' :: '.' :: '/' :: x := by
    simp only [List.mem_cons, not_or]
    exact ⟨by decide, by decide, by decide, hz⟩
  have hj : joined ['.', '.'] ('.' :: '.' :: '/' :: x) =
      ['.', '.'] ++ '/' :: (['.', '.'] ++ '/' :: x) := by
    unfold joined
    rw [cstr_self hz', cstr_self (show NUL ∉ ['.', '.'] by decide)]
    simp
  have hsf : splitFirst (['.', '.'] ++ '/' :: (['.', '.'] ++ '/' :: x)) =
      (['.', '.'], [['.', '.'], x]) := by
    rw [splitFirst_append _ (by decide), splitFirst_append _ (by decide), splitFirst_noslash hs]
  have hln : laterNames (['.', '.'] ++ '/' :: (['.', '.'] ++ '/' :: x)) = [['.', '.'], x] := by
    unfold laterNames
    rw [hsf]
    simp [hne]
  have hstep1 : stepName ['.', '.'] ['.', '.'] = ['.', '.', '/', '.', '.'] := by decide
  rw [splice_path_eq, hj]
  unfold normalPath finishOut
  rw [hln, hsf]
  simp only [List.foldl_cons, List.foldl_nil, hstep1]
  rw [stepName_plain h1 h2 (by decide) (by decide)]
  simp

/-- Witness for C6: `splice("..", "../x")` is `../../x`. -/
theorem splice_keeps_unresolved_dotdot_witness :
    splice_path (some ['.', '.']) (some ['.', '.', '/', 'x']) =
      .ok ['.', '.', '/', '.', '.', '/', 'x'] :=
  splice_keeps_unresolved_dotdot ['x'] (by decide) (by decide) (by decide) (by decide) (by decide)

/-- Claim C7.  For every non-empty path `p`, `split_path` returns what the specification
describes (`splitSpec`): with `t` the path without its trailing slashes (a slash at
position 0 kept), `(".", t)` when `t` has no slash, otherwise the part after the last
slash as leaf and, as parent, the prefix before the run of slashes ending there, or `/`
when that prefix is empty.  A path made only of slashes gives parent `/` and an empty
leaf. -/
theorem split_path_as_specified (p : List Char) (hne : p ≠ []) (hz : NUL ∉ p) :
    split_path (some p) = .ok (splitSpec p) ∧
      ((∀ c ∈ p, c = '/') → split_path (some p) = .ok (['/'], [])) := by
  refine ⟨split_path_eq hne hz, fun hall => ?_⟩
  rw [split_path_eq hne hz, splitSpec_all_slashes hne hall]

/-- Witness for C7: the instances `z`, `/z/`, `a//b//` and `.//.//x` of the claim. -/
theorem split_path_as_specified_witness :
    split_path (some ['z']) = .ok (['.'], ['z']) ∧
      split_path (some ['/', 'z', '/']) = .ok (['/'], ['z']) ∧
      split_path (some ['a', '/', '/', 'b', '/', '/']) = .ok (['a'], ['b']) ∧
      split_path (some ['.', '/', '/', '.', '/', '/', 'x']) = .ok (['.', '/', '/', '.'], ['x']) ∧
      split_path (some ['/', '/', '/']) = .ok (['/'], []) :=
  ⟨(split_path_as_specified ['z'] (by decide) (by decide)).1.trans (by decide),
    (split_path_as_specified ['/', 'z', '/'] (by decide) (by decide)).1.trans (by decide),
    (split_path_as_specified ['a', '/', '/', 'b', '/', '/'] (by decide) (by decide)).1.trans
      (by decide),
    (split_path_as_specified ['.', '/', '/', '.', '/', '/', 'x'] (by decide)
      (by decide)).1.trans (by decide),
    (split_path_as_specified ['/', '/', '/'] (by decide) (by decide)).2 (by decide)⟩

/-- Claim C8.  `split_path` fails exactly when its path argument is absent or the empty
string, the failure being `rc = -1` with `errno = ENOENT` and no parent or leaf; for
every non-empty path it returns a parent and a leaf. -/
theorem split_path_fails_iff_empty (a : Option (List Char)) :
    (split_path a = .fail .ENOENT ↔ (a = none ∨ ∃ p, a = some p ∧ cstr p = [])) ∧
      (∀ p, a = some p → cstr p ≠ [] → ∃ r, split_path a = .ok r) := by
  cases a with
  | none => exact ⟨⟨fun _ => Or.inl rfl, fun _ => rfl⟩, fun p h => by cases h⟩
  | some p =>
    by_cases hp : cstr p = []
    · refine ⟨⟨fun _ => Or.inr ⟨p, rfl, hp⟩, fun _ => by simp [split_path, hp]⟩, ?_⟩
      intro q hq hne
      cases hq
      exact absurd hp hne
    · have hok : split_path (some p) = .ok (splitSpec (cstr p)) := by
        rw [split_path_cstr, split_path_eq hp (cstr_nul_free p)]
      refine ⟨⟨fun h => ?_, fun h => ?_⟩, fun q _ _ => ⟨_, hok⟩⟩
      · rw [hok] at h
        cases h
      · rcases h with h | ⟨q, hq, hq0⟩
        · cases h
        · cases hq
          exact absurd hq0 hp

/-- Witness for C8 at the path `z`, which is split into `.` and `z`. -/
theorem split_path_fails_iff_empty_witness :
    split_path (some []) = .fail .ENOENT ∧ ∃ r, split_path (some ['z']) = .ok r :=
  ⟨(split_path_fails_iff_empty (some [])).1.2 (Or.inr ⟨[], rfl, rfl⟩),
    (split_path_fails_iff_empty (some ['z'])).2 ['z'] rfl (by decide)⟩

/-- Claim C9.  `split_path` ignores trailing slashes: for every non-empty path `p`,
`split_path(p ++ "/")` returns the same parent and leaf as `split_path(p)`. -/
theorem split_path_ignores_trailing_slash (p : List Char) (hne : p ≠ []) (hz : NUL ∉ p) :
    split_path (some (p ++ ['/'])) = split_path (some p) := by
  have hz' : NUL ∉ p ++ ['/'] := by
    simp only [List.mem_append, List.mem_singleton, not_or]
    exact ⟨hz, by decide⟩
  rw [split_path_eq (by simp) hz', split_path_eq hne hz, splitSpec_concat_slash hne]

/-- Witness for C9 on the test table: `/z`, `/z/` and `/z//` all give (`/`, `z`), and
`/` and `//` both give (`/`, empty). -/
theorem split_path_ignores_trailing_slash_witness :
    split_path (some ['/', 'z']) = .ok (['/'], ['z']) ∧
      split_path (some (['/', 'z'] ++ ['/'])) = .ok (['/'], ['z']) ∧
      split_path (some (['/', 'z', '/'] ++ ['/'])) = .ok (['/'], ['z']) ∧
      split_path (some ['/']) = .ok (['/'], []) ∧
      split_path (some (['/'] ++ ['/'])) = .ok (['/'], []) :=
  ⟨by decide,
    (split_path_ignores_trailing_slash ['/', 'z'] (by decide) (by decide)).trans (by decide),
    (split_path_ignores_trailing_slash ['/', 'z', '/'] (by decide) (by decide)).trans (by decide),
    by decide,
    (split_path_ignores_trailing_slash ['/'] (by decide) (by decide)).trans (by decide)⟩

/-- Claim C10.  Soundness of the trust decision: whenever `license_program` returns, the
registration named by `mCmd` was opened as the licensee entry and, on the answers the
platform gave, the last component of the licensee directory path starts with neither
`.` nor `@`; the parent of the licensee directory has none of the group-read,
group-write, other-read and other-write bits and is owned by the licensor's uid; the
registration entry is owned by the requestor's uid; and the path spliced from the
resolved entry is owned by the licensor's uid, is a regular file and has the
owner-execute bit. -/
theorem license_program_sound (fuel : Nat) (P : Platform) (optOk : Bool)
    (args : List (List Char)) (aUid aGid : Nat) (env env' : Env) (app : App)
    (h : license_program fuel P optOk args aUid aGid env = .returned (app, env')) :
    ∃ licensee parentDirStat symLinkStat linkStat,
      create_symlinkfd P none app.mCmd = some licensee ∧
      ((cstr licensee.mDir.mPath).rtakeWhile (fun x => x != '/')).head? ≠ some '.' ∧
      ((cstr licensee.mDir.mPath).rtakeWhile (fun x => x != '/')).head? ≠ some '@' ∧
      P.fstatat licensee.mDir.mFd ['.', '.'] = some parentDirStat ∧
      parentDirStat.st_mode &&& S_IRGRP = 0 ∧ parentDirStat.st_mode &&& S_IWGRP = 0 ∧
      parentDirStat.st_mode &&& S_IROTH = 0 ∧ parentDirStat.st_mode &&& S_IWOTH = 0 ∧
      parentDirStat.st_uid = app.mLicensor.mUid ∧
      P.fstat licensee.mFd = some symLinkStat ∧ symLinkStat.st_uid = app.mRequestor.mUid ∧
      followLoop P fuel licensee = .returned app.mLicensee ∧
      splice_path (some app.mLicensee.mDir.mPath) (some app.mLicensee.mName) = .ok app.mPath ∧
      P.stat app.mPath = some linkStat ∧ linkStat.st_uid = app.mLicensor.mUid ∧
      linkStat.st_mode &&& S_IFMT = S_IFREG ∧ linkStat.st_mode &&& S_IXUSR ≠ 0 := by
  unfold license_program at h
  obtain ⟨parsed, -, h⟩ := Run.bind_eq_returned.1 h
  obtain ⟨who, hwho, h⟩ := Run.bind_eq_returned.1 h
  obtain ⟨_, hdir, h⟩ := Run.bind_eq_returned.1 h
  obtain ⟨_, hparent, h⟩ := Run.bind_eq_returned.1 h
  obtain ⟨_, hsym, h⟩ := Run.bind_eq_returned.1 h
  obtain ⟨resolved, hres, h⟩ := Run.bind_eq_returned.1 h
  obtain ⟨path, htarget, h⟩ := Run.bind_eq_returned.1 h
  obtain ⟨env2, -, h⟩ := Run.bind_eq_returned.1 h
  simp only [Run.returned.injEq, Prod.mk.injEq] at h
  obtain ⟨happ, -⟩ := h
  subst happ
  have hlic := identify_licensee hwho
  obtain ⟨hd1, hd2⟩ := checkLicenseeDir_returned hdir
  obtain ⟨parentDirStat, hp0, hp1, hp2, hp3, hp4, hp5⟩ := checkParentDir_returned hparent
  obtain ⟨symLinkStat, hs0, hs1⟩ := checkSymlinkOwner_returned hsym
  obtain ⟨linkStat, ht0, ht1, ht2, ht3, ht4⟩ := checkTarget_returned htarget
  exact ⟨who.licensee, parentDirStat, symLinkStat, linkStat, hlic, hd1, hd2, hp0, hp1, hp2, hp3,
    hp4, hp5, hs0, hs1, hres, ht0, ht1, ht2, ht3, ht4⟩

/-- Witness for C10: in the scenario `license_program` returns, and the theorem
applies to that return. -/
theorem license_program_sound_witness :
    license_program 3 scenario true [['/', 'r', '/', 'l', '/', 'j']] 200 20 [] =
        .returned (scenarioApp, scenarioEnv) ∧
      ∃ licensee parentDirStat symLinkStat linkStat,
        create_symlinkfd scenario none scenarioApp.mCmd = some licensee ∧
        ((cstr licensee.mDir.mPath).rtakeWhile (fun x => x != '/')).head? ≠ some '.' ∧
        ((cstr licensee.mDir.mPath).rtakeWhile (fun x => x != '/')).head? ≠ some '@' ∧
        scenario.fstatat licensee.mDir.mFd ['.', '.'] = some parentDirStat ∧
        parentDirStat.st_mode &&& S_IRGRP = 0 ∧ parentDirStat.st_mode &&& S_IWGRP = 0 ∧
        parentDirStat.st_mode &&& S_IROTH = 0 ∧ parentDirStat.st_mode &&& S_IWOTH = 0 ∧
        parentDirStat.st_uid = scenarioApp.mLicensor.mUid ∧
        scenario.fstat licensee.mFd = some symLinkStat ∧
        symLinkStat.st_uid = scenarioApp.mRequestor.mUid ∧
        followLoop scenario 3 licensee = .returned scenarioApp.mLicensee ∧
        splice_path (some scenarioApp.mLicensee.mDir.mPath) (some scenarioApp.mLicensee.mName) =
          .ok scenarioApp.mPath ∧
        scenario.stat scenarioApp.mPath = some linkStat ∧
        linkStat.st_uid = scenarioApp.mLicensor.mUid ∧
        linkStat.st_mode &&& S_IFMT = S_IFREG ∧ linkStat.st_mode &&& S_IXUSR ≠ 0 :=
  ⟨by decide,
    license_program_sound 3 scenario true [['/', 'r', '/', 'l', '/', 'j']] 200 20 []
      scenarioEnv scenarioApp (by decide)⟩

/-! ## The arguments of license_program -/

theorem strchr_none_iff (a : List Char) : strchr a '=' = none ↔ '=' ∉ cstr a := by
  unfold strchr
  split_ifs with h
  · simp [h]
  · simp [h]

theorem skipAssignments_append {assigns : List (List Char)} (rest : List (List Char))
    (h : ∀ a ∈ assigns, '=' ∈ cstr a ∧ (cstr a).head? ≠ some '=') :
    skipAssignments (assigns ++ rest) = (skipAssignments rest).map (fun n => n + assigns.length) := by
  induction assigns with
  | nil => simp
  | cons a t ih =>
    have ha := h a (List.mem_cons_self _ _)
    have hs : strchr a '=' ≠ none := fun hn => (strchr_none_iff a).1 hn ha.1
    obtain ⟨i, hi⟩ := Option.ne_none_iff_exists'.1 hs
    have e : skipAssignments (a :: (t ++ rest)) =
        (skipAssignments (t ++ rest)).map (fun n => n + 1) := by
      simp only [skipAssignments, hi, if_neg ha.2]
    rw [List.cons_append, e, ih (fun x hx => h x (List.mem_cons_of_mem _ hx)), Option.map_map]
    congr 1

theorem skipAssignments_some :
    ∀ (args : List (List Char)) (n : Nat), skipAssignments args = some n →
      n ≤ args.length ∧ (∀ a ∈ args.take n, '=' ∈ cstr a ∧ (cstr a).head? ≠ some '=') ∧
        (∀ c rest, args.drop n = c :: rest → '=' ∉ cstr c) := by
  intro args
  induction args with
  | nil =>
    intro n h
    simp only [skipAssignments, Option.some.injEq] at h
    subst h
    simp
  | cons a t ih =>
    intro n h
    simp only [skipAssignments] at h
    split at h
    · rename_i hs
      simp only [Option.some.injEq] at h
      subst h
      refine ⟨Nat.zero_le _, by simp, ?_⟩
      intro c rest hc
      simp only [List.drop_zero, List.cons.injEq] at hc
      rw [← hc.1]
      exact (strchr_none_iff a).1 hs
    · rename_i i hs
      have hmem : '=' ∈ cstr a := by
        by_contra hc
        rw [(strchr_none_iff a).2 hc] at hs
        cases hs
      split_ifs at h with hh
      obtain ⟨m, hm, rfl⟩ := Option.map_eq_some'.1 h
      obtain ⟨h1, h2, h3⟩ := ih m hm
      refine ⟨by simp; omega, ?_, ?_⟩
      · intro x hx
        simp only [List.take_succ_cons, List.mem_cons] at hx
        rcases hx with rfl | hx
        · exact ⟨hmem, hh⟩
        · exact h2 x hx
      · intro c rest hc
        exact h3 c rest (by simpa using hc)

theorem parseArgs_accepts {assigns : List (List Char)} {cmd : List Char}
    (h : ∀ a ∈ assigns, '=' ∈ cstr a ∧ (cstr a).head? ≠ some '=') (hne : cstr cmd ≠ [])
    (hcmd : '=' ∉ cstr cmd) :
    parseArgs true (assigns ++ [cmd]) = .returned (assigns.length, cmd) := by
  have hskip : skipAssignments (assigns ++ [cmd]) = some assigns.length := by
    rw [skipAssignments_append [cmd] h]
    simp [skipAssignments, (strchr_none_iff cmd).2 hcmd]
  have hdrop : (assigns ++ [cmd]).drop assigns.length = [cmd] := List.drop_left' rfl
  simp [parseArgs, hskip, hdrop, hne]

theorem parseArgs_returned {optOk : Bool} {args : List (List Char)} {n : Nat} {cmd : List Char}
    (h : parseArgs optOk args = .returned (n, cmd)) :
    optOk = true ∧ args = args.take n ++ [cmd] ∧ (args.take n).length = n ∧
      skipAssignments args = some n ∧
      (∀ a ∈ args.take n, '=' ∈ cstr a ∧ (cstr a).head? ≠ some '=') ∧
      cstr cmd ≠ [] ∧ '=' ∉ cstr cmd := by
  unfold parseArgs usage die at h
  by_cases h1 : (!optOk) = true
  · rw [if_pos h1] at h
    cases h
  rw [if_neg h1] at h
  by_cases h2 : args = []
  · rw [if_pos h2] at h
    cases h
  rw [if_neg h2] at h
  split at h
  · cases h
  rename_i m hm
  obtain ⟨a1, a2, a3⟩ := skipAssignments_some args m hm
  split at h
  swap
  · cases h
  rename_i c hc
  by_cases h3 : cstr c = []
  · rw [if_pos h3] at h
    cases h
  rw [if_neg h3] at h
  simp only [Run.returned.injEq, Prod.mk.injEq] at h
  obtain ⟨rfl, rfl⟩ := h
  refine ⟨by simpa using h1, ?_, by simp; omega, hm, a2, h3, a3 c [] hc⟩
  conv_lhs => rw [← List.take_append_drop m args, hc]

theorem parseArgs_cases (optOk : Bool) (args : List (List Char)) :
    (∃ r, parseArgs optOk args = .returned r) ∨ parseArgs optOk args = .exited 127 := by
  unfold parseArgs usage die
  split_ifs
  · exact Or.inr rfl
  · exact Or.inr rfl
  · split
    · exact Or.inr rfl
    · split
      · split_ifs
        · exact Or.inr rfl
        · exact Or.inl ⟨_, rfl⟩
      · exact Or.inr rfl

/-! ## The environment loop of license_program -/

theorem mergeEnv_not_returned :
    ∀ (fuel : Nat) (argv : List (List Char)) (envp cmd : Nat) (names : EnvNames) (env : Env),
      envp ≠ cmd → ∀ r, mergeEnv fuel argv envp cmd names env ≠ .returned r := by
  intro fuel
  induction fuel with
  | zero => intro argv envp cmd names env _ r h; cases h
  | succ fuel ih =>
    intro argv envp cmd names env hne r h
    unfold mergeEnv die at h
    rw [if_neg hne] at h
    split at h
    · cases h
    split at h
    · cases h
    simp only at h
    split at h
    · cases h
    exact ih _ _ _ _ _ hne r h

theorem mergeEnv_returned {fuel : Nat} {argv : List (List Char)} {envp cmd : Nat}
    {names names' : EnvNames} {env env' : Env}
    (h : mergeEnv fuel argv envp cmd names env = .returned (names', env')) :
    envp = cmd ∧ names' = names ∧ env' = env := by
  by_cases hne : envp = cmd
  · cases fuel with
    | zero => cases h
    | succ fuel =>
      unfold mergeEnv at h
      rw [if_pos hne] at h
      simp only [Run.returned.injEq, Prod.mk.injEq] at h
      exact ⟨hne, h.1.symm, h.2.symm⟩
  · exact absurd h (mergeEnv_not_returned fuel argv envp cmd names env hne _)

/-- An invocation with a `NAME=VALUE` argument never returns from `license_program`:
the loop of lines 1031-1051 does not advance `envp`. -/
theorem license_program_returned_no_assignment {fuel : Nat} {P : Platform} {optOk : Bool}
    {args : List (List Char)} {aUid aGid : Nat} {env env' : Env} {app : App}
    (h : license_program fuel P optOk args aUid aGid env = .returned (app, env')) :
    args = [app.mCmd] ∧ app.mEnv = [] ∧ '=' ∉ cstr app.mCmd := by
  unfold license_program at h
  obtain ⟨parsed, hparse, h⟩ := Run.bind_eq_returned.1 h
  obtain ⟨who, -, h⟩ := Run.bind_eq_returned.1 h
  obtain ⟨_, -, h⟩ := Run.bind_eq_returned.1 h
  obtain ⟨_, -, h⟩ := Run.bind_eq_returned.1 h
  obtain ⟨_, -, h⟩ := Run.bind_eq_returned.1 h
  obtain ⟨resolved, -, h⟩ := Run.bind_eq_returned.1 h
  obtain ⟨path, -, h⟩ := Run.bind_eq_returned.1 h
  obtain ⟨env2, henv, h⟩ := Run.bind_eq_returned.1 h
  simp only [Run.returned.injEq, Prod.mk.injEq] at h
  obtain ⟨happ, -⟩ := h
  subst happ
  unfold buildEnv at henv
  obtain ⟨⟨names, env1⟩, hmerge, -⟩ := Run.bind_eq_returned.1 henv
  obtain ⟨h0, -, -⟩ := mergeEnv_returned hmerge
  obtain ⟨n, cmd⟩ := parsed
  simp only at h0
  subst h0
  obtain ⟨-, b1, -, -, -, -, b4⟩ := parseArgs_returned hparse
  simp only [List.take_zero, List.nil_append] at b1
  exact ⟨b1, rfl, b4⟩

/-! ## A cycle of symlinks -/

theorem followLoop_cycle (fuel : Nat) :
    followLoop cyclePlatform fuel ⟨6, ['b'], ⟨5, ['/', 'r', '/', 'l']⟩⟩ = .running ∧
      followLoop cyclePlatform fuel ⟨7, ['a'], ⟨5, ['/', 'r', '/', 'l']⟩⟩ = .running := by
  induction fuel with
  | zero => exact ⟨rfl, rfl⟩
  | succ fuel ih =>
    have h1 : follow_symlinkfd cyclePlatform ⟨6, ['b'], ⟨5, ['/', 'r', '/', 'l']⟩⟩ =
        .next ⟨7, ['a'], ⟨5, ['/', 'r', '/', 'l']⟩⟩ := by decide
    have h2 : follow_symlinkfd cyclePlatform ⟨7, ['a'], ⟨5, ['/', 'r', '/', 'l']⟩⟩ =
        .next ⟨6, ['b'], ⟨5, ['/', 'r', '/', 'l']⟩⟩ := by decide
    exact ⟨by simp only [followLoop, h1, ih.2], by simp only [followLoop, h2, ih.1]⟩

theorem followLoop_cycle_entry (fuel : Nat) :
    followLoop cyclePlatform fuel ⟨4, ['a'], ⟨3, ['/', 'r', '/', 'l']⟩⟩ = .running := by
  cases fuel with
  | zero => rfl
  | succ fuel =>
    have h1 : follow_symlinkfd cyclePlatform ⟨4, ['a'], ⟨3, ['/', 'r', '/', 'l']⟩⟩ =
        .next ⟨6, ['b'], ⟨5, ['/', 'r', '/', 'l']⟩⟩ := by decide
    simp only [followLoop, h1, (followLoop_cycle fuel).1]

/-! ## Group lists -/

theorem create_grouplist_user_spec {P : Platform} {aName : List Char} {aGid : Nat}
    {gl : List Nat} (h : create_grouplist_user P aName aGid = some gl) :
    gl.Sorted (fun a b => a ≤ b) ∧
      ∃ groupBuf, P.getgrouplist aName aGid = some groupBuf ∧ gl.Perm groupBuf := by
  unfold create_grouplist_user at h
  split at h
  · cases h
  rename_i groupBuf hbuf
  simp only [Option.some.injEq] at h
  subst h
  exact ⟨List.sorted_insertionSort _ _, groupBuf, hbuf, List.perm_insertionSort _ _⟩

theorem create_grouplist_spec {P : Platform} {gl : List Nat}
    (h : create_grouplist P = some gl) :
    gl.Sorted (fun a b => a ≤ b) ∧
      ∃ groupBuf, P.getgroups = some groupBuf ∧
        gl.Perm (if P.getgid ∈ groupBuf then groupBuf else groupBuf ++ [P.getgid]) := by
  unfold create_grouplist at h
  split at h
  · cases h
  rename_i groupBuf hbuf
  simp only [Option.some.injEq] at h
  subst h
  exact ⟨List.sorted_insertionSort _ _, groupBuf, hbuf, List.perm_insertionSort _ _⟩

/-! ## impersonate_user -/

theorem Proc.attempt_log {σ : Type} (p : Proc σ) (line : Nat) (call : Call) (r : Option σ) :
    (p.attempt line call r).log = p.log ++ [⟨line, call, r.isSome⟩] := by
  cases r <;> rfl

theorem Proc.attempt_state {σ : Type} (p : Proc σ) (line : Nat) (call : Call) (r : Option σ) :
    (p.attempt line call r).state = r.getD p.state := by
  cases r <;> rfl

theorem Proc.since_append {σ : Type} {q p : Proc σ} {evs : List Event}
    (h : q.log = p.log ++ evs) : q.since p = evs := by
  unfold Proc.since
  rw [h, List.drop_left]

theorem Proc.andThen_returned {σ α β : Type} {r : Proc σ × Run α}
    {f : Proc σ → α → Proc σ × Run β} {q : Proc σ} {b : β} :
    Proc.andThen r f = (q, .returned b) ↔
      ∃ p a, r = (p, .returned a) ∧ f p a = (q, .returned b) := by
  obtain ⟨p, x⟩ := r
  cases x with
  | returned a =>
    constructor
    · intro h
      exact ⟨p, a, rfl, h⟩
    · rintro ⟨p', a', e, h⟩
      cases e
      exact h
  | exited s =>
    constructor
    · intro h
      cases h
    · rintro ⟨p', a', e, -⟩
      cases e
  | running =>
    constructor
    · intro h
      cases h
    · rintro ⟨p', a', e, -⟩
      cases e
  | undefined =>
    constructor
    · intro h
      cases h
    · rintro ⟨p', a', e, -⟩
      cases e

theorem Proc.reaches_refl {σ : Type} (Q : Event → Prop) (I : σ → Prop) (p : Proc σ) :
    Proc.reaches Q I p p :=
  ⟨⟨[], (List.append_nil _).symm, fun _ h => absurd h (List.not_mem_nil _)⟩, id⟩

theorem Proc.reaches_trans {σ : Type} {Q : Event → Prop} {I : σ → Prop} {p q r : Proc σ}
    (h1 : Proc.reaches Q I p q) (h2 : Proc.reaches Q I q r) : Proc.reaches Q I p r := by
  obtain ⟨⟨e1, h11, h12⟩, h13⟩ := h1
  obtain ⟨⟨e2, h21, h22⟩, h23⟩ := h2
  refine ⟨⟨e1 ++ e2, ?_, ?_⟩, fun h => h23 (h13 h)⟩
  · rw [h21, h11, List.append_assoc]
  · intro e he
    rcases List.mem_append.1 he with h | h
    · exact h12 e h
    · exact h22 e h

theorem Proc.attempt_reaches {σ : Type} {Q : Event → Prop} {I : σ → Prop} (p : Proc σ)
    (line : Nat) (call : Call) (r : Option σ) (hQ : ∀ ok, Q ⟨line, call, ok⟩)
    (hI : ∀ s, r = some s → I p.state → I s) :
    Proc.reaches Q I p (p.attempt line call r) := by
  refine ⟨⟨[⟨line, call, r.isSome⟩], Proc.attempt_log p line call r, ?_⟩, ?_⟩
  · intro e he
    rw [List.mem_singleton] at he
    rw [he]
    exact hQ _
  · cases r with
    | none => exact id
    | some s => exact hI s rfl

theorem Proc.andThen_reaches {σ α β : Type} {Q : Event → Prop} {I : σ → Prop} {p : Proc σ}
    (r : Proc σ × Run α) (f : Proc σ → α → Proc σ × Run β)
    (h1 : Proc.reaches Q I p r.1)
    (h2 : ∀ p1 a, r = (p1, .returned a) → Proc.reaches Q I p1 (f p1 a).1) :
    Proc.reaches Q I p (Proc.andThen r f).1 := by
  obtain ⟨p1, x⟩ := r
  cases x with
  | returned a => exact Proc.reaches_trans h1 (h2 p1 a rfl)
  | exited s => exact h1
  | running => exact h1
  | undefined => exact h1

theorem Proc.andThen_exited {σ α β : Type} {r : Proc σ × Run α}
    {f : Proc σ → α → Proc σ × Run β} {s : Nat}
    (h1 : r.2 = .exited s → s = 127)
    (h2 : ∀ p a, (f p a).2 = .exited s → s = 127)
    (h : (Proc.andThen r f).2 = .exited s) : s = 127 := by
  obtain ⟨p, x⟩ := r
  cases x with
  | returned a => exact h2 p a h
  | exited s1 => exact h1 (by simpa [Proc.andThen] using h)
  | running => cases h
  | undefined => cases h

theorem groupsDiffer_iff (userGroups aGroups : List Nat) :
    groupsDiffer userGroups aGroups = true ↔ userGroups ≠ aGroups := by
  unfold groupsDiffer
  by_cases hl : userGroups.length = aGroups.length
  · simp [hl]
  · have : userGroups ≠ aGroups := fun e => hl (by rw [e])
    simp [hl, this]

/-! ### The parts of impersonate_user that return -/

theorem setIdentity_returned {σ : Type} {K : Kernel σ} {aUser : User} {p q : Proc σ}
    (h : setIdentity K aUser p = (q, .returned ())) :
    q.log = p.log ++ [⟨237, .setgid aUser.mGid, true⟩, ⟨240, .setuid aUser.mUid, true⟩] := by
  unfold setIdentity die at h
  simp only at h
  cases h1 : K.setgid p.state aUser.mGid with
  | none =>
    rw [h1] at h
    simp only [Option.isNone_none, if_true, Prod.mk.injEq] at h
    cases h.2
  | some s1 =>
    rw [h1] at h
    simp only [Option.isNone_some, Bool.false_eq_true, if_false] at h
    cases h2 : K.setuid (p.attempt 237 (.setgid aUser.mGid) (some s1)).state aUser.mUid with
    | none =>
      rw [h2] at h
      simp only [Option.isNone_none, if_true, Prod.mk.injEq] at h
      cases h.2
    | some s2 =>
      rw [h2] at h
      simp only [Option.isNone_some, Bool.false_eq_true, if_false, Prod.mk.injEq,
        and_true] at h
      rw [← h]
      simp [Proc.attempt]

theorem checkIdentity_returned {σ : Type} {K : Kernel σ} {aUser : User} {p q : Proc σ}
    {euid : Nat} (h : checkIdentity K aUser p = (q, .returned euid)) :
    q = p ∧ euid = aUser.mUid ∧ K.geteuid p.state = aUser.mUid ∧
      K.getegid p.state = aUser.mGid := by
  unfold checkIdentity die at h
  simp only at h
  split at h
  · cases h
  rename_i hg
  split at h
  · cases h
  rename_i hu
  simp only [Prod.mk.injEq, Run.returned.injEq] at h
  simp only [ne_eq, not_not] at hg hu
  exact ⟨h.1.symm, by rw [← h.2, ← hu], hu.symm, hg.symm⟩

theorem checkNoEscalation_returned {σ : Type} {K : Kernel σ} {aUser : User} {p q : Proc σ}
    (h : checkNoEscalation K aUser p = (q, .returned ())) :
    q.state = p.state ∧
      q.log = p.log ++
        (if aUser.mUid ≠ 0 then [⟨251, .setreuid none (some 0), false⟩] else []) := by
  unfold checkNoEscalation die at h
  split at h
  · rename_i hu
    simp only at h
    cases h1 : K.setreuid p.state none (some 0) with
    | none =>
      rw [h1] at h
      simp only [Option.isSome_none, Bool.false_eq_true, if_false, Prod.mk.injEq,
        and_true] at h
      rw [← h, if_pos hu]
      exact ⟨rfl, rfl⟩
    | some s1 =>
      rw [h1] at h
      simp only [Option.isSome_some, if_true, Prod.mk.injEq] at h
      cases h.2
  · rename_i hu
    simp only [Prod.mk.injEq, and_true] at h
    rw [← h, if_neg hu, List.append_nil]
    exact ⟨rfl, rfl⟩

theorem checkNoRecovery_returned {σ : Type} {K : Kernel σ} {ouid euid : Nat} {p q : Proc σ}
    (h : checkNoRecovery K ouid euid p = (q, .returned ())) :
    q.state = p.state ∧
      q.log = p.log ++
        (if ouid ≠ euid then [⟨254, .setreuid none (some ouid), false⟩] else []) := by
  unfold checkNoRecovery die at h
  split at h
  · rename_i hu
    simp only at h
    cases h1 : K.setreuid p.state none (some ouid) with
    | none =>
      rw [h1] at h
      simp only [Option.isSome_none, Bool.false_eq_true, if_false, Prod.mk.injEq,
        and_true] at h
      rw [← h, if_pos hu]
      exact ⟨rfl, rfl⟩
    | some s1 =>
      rw [h1] at h
      simp only [Option.isSome_some, if_true, Prod.mk.injEq] at h
      cases h.2
  · rename_i hu
    simp only [Prod.mk.injEq, and_true] at h
    rw [← h, if_neg hu, List.append_nil]
    exact ⟨rfl, rfl⟩

theorem checkFsIdentity_returned {σ : Type} {K : Kernel σ} {aUser : User} {p q : Proc σ}
    (h : checkFsIdentity K aUser p = (q, .returned ())) :
    q = p ∧ K.fsgid p.state = aUser.mGid ∧ K.fsuid p.state = aUser.mUid := by
  unfold checkFsIdentity die at h
  split at h
  · cases h
  rename_i hg
  split at h
  · cases h
  rename_i hu
  simp only [Prod.mk.injEq, and_true] at h
  simp only [ne_eq, not_not] at hg hu
  exact ⟨h.symm, hg, hu⟩

theorem assumeIdentity_returned {σ : Type} {K : Kernel σ} {aUser : User} {p q : Proc σ}
    (h : assumeIdentity K aUser p = (q, .returned ())) :
    K.geteuid q.state = aUser.mUid ∧ K.getegid q.state = aUser.mGid ∧
      K.fsuid q.state = aUser.mUid ∧ K.fsgid q.state = aUser.mGid ∧
      q.log = p.log ++
        ([⟨237, .setgid aUser.mGid, true⟩, ⟨240, .setuid aUser.mUid, true⟩] ++
          (if aUser.mUid ≠ 0 then [⟨251, .setreuid none (some 0), false⟩] else []) ++
          (if K.geteuid p.state ≠ aUser.mUid then
            [⟨254, .setreuid none (some (K.geteuid p.state)), false⟩] else [])) := by
  unfold assumeIdentity at h
  simp only at h
  obtain ⟨p2, _, h1, h⟩ := Proc.andThen_returned.1 h
  obtain ⟨p2b, euid, h2, h⟩ := Proc.andThen_returned.1 h
  obtain ⟨p3, _, h3, h⟩ := Proc.andThen_returned.1 h
  obtain ⟨p4, _, h4, h⟩ := Proc.andThen_returned.1 h
  have a1 := setIdentity_returned h1
  obtain ⟨b1, b2, b3, b4⟩ := checkIdentity_returned h2
  obtain ⟨c1, c2⟩ := checkNoEscalation_returned h3
  obtain ⟨d1, d2⟩ := checkNoRecovery_returned h4
  obtain ⟨e1, e2, e3⟩ := checkFsIdentity_returned h
  subst b1 e1 b2
  refine ⟨?_, ?_, e3, e2, ?_⟩
  · rw [d1, c1, b3]
  · rw [d1, c1, b4]
  · rw [d2, c2, a1]
    simp only [List.append_assoc]

/-! ### The calls of impersonate_user, whatever its outcome -/

theorem setIdentity_reaches {σ : Type} {Q : Event → Prop} {I : σ → Prop} (K : Kernel σ)
    (aUser : User) (p : Proc σ)
    (h237 : ∀ ok, Q ⟨237, .setgid aUser.mGid, ok⟩)
    (h240 : ∀ ok, Q ⟨240, .setuid aUser.mUid, ok⟩)
    (hgid : ∀ s g s1, K.setgid s g = some s1 → I s → I s1)
    (huid : ∀ s u s1, K.setuid s u = some s1 → I s → I s1) :
    Proc.reaches Q I p (setIdentity K aUser p).1 := by
  have a1 : Proc.reaches Q I p
      (p.attempt 237 (.setgid aUser.mGid) (K.setgid p.state aUser.mGid)) :=
    Proc.attempt_reaches p _ _ _ h237 (fun s hs => hgid _ _ _ hs)
  have a2 := Proc.reaches_trans a1
    (Proc.attempt_reaches (p.attempt 237 (.setgid aUser.mGid) (K.setgid p.state aUser.mGid))
      240 (.setuid aUser.mUid) (K.setuid (p.attempt 237 (.setgid aUser.mGid)
        (K.setgid p.state aUser.mGid)).state aUser.mUid) h240 (fun s hs => huid _ _ _ hs))
  unfold setIdentity
  simp only
  split
  · exact a1
  split
  · exact a2
  · exact a2

theorem checkIdentity_reaches {σ : Type} (Q : Event → Prop) (I : σ → Prop) (K : Kernel σ)
    (aUser : User) (p : Proc σ) : Proc.reaches Q I p (checkIdentity K aUser p).1 := by
  unfold checkIdentity
  simp only
  split
  · exact Proc.reaches_refl Q I p
  split
  · exact Proc.reaches_refl Q I p
  · exact Proc.reaches_refl Q I p

theorem checkNoEscalation_reaches {σ : Type} {Q : Event → Prop} {I : σ → Prop}
    (K : Kernel σ) (aUser : User) (p : Proc σ)
    (h251 : aUser.mUid ≠ 0 → ∀ ok, Q ⟨251, .setreuid none (some 0), ok⟩)
    (hreuid : ∀ s r e s1, K.setreuid s r e = some s1 → I s → I s1) :
    Proc.reaches Q I p (checkNoEscalation K aUser p).1 := by
  unfold checkNoEscalation
  split
  · rename_i hu
    have a1 : Proc.reaches Q I p
        (p.attempt 251 (.setreuid none (some 0)) (K.setreuid p.state none (some 0))) :=
      Proc.attempt_reaches p _ _ _ (h251 hu) (fun s hs => hreuid _ _ _ _ hs)
    simp only
    split
    · exact a1
    · exact a1
  · exact Proc.reaches_refl Q I p

theorem checkNoRecovery_reaches {σ : Type} {Q : Event → Prop} {I : σ → Prop}
    (K : Kernel σ) (ouid euid : Nat) (p : Proc σ)
    (h254 : ouid ≠ euid → ∀ ok, Q ⟨254, .setreuid none (some ouid), ok⟩)
    (hreuid : ∀ s r e s1, K.setreuid s r e = some s1 → I s → I s1) :
    Proc.reaches Q I p (checkNoRecovery K ouid euid p).1 := by
  unfold checkNoRecovery
  split
  · rename_i hu
    have a1 : Proc.reaches Q I p
        (p.attempt 254 (.setreuid none (some ouid)) (K.setreuid p.state none (some ouid))) :=
      Proc.attempt_reaches p _ _ _ (h254 hu) (fun s hs => hreuid _ _ _ _ hs)
    simp only
    split
    · exact a1
    · exact a1
  · exact Proc.reaches_refl Q I p

theorem checkFsIdentity_reaches {σ : Type} (Q : Event → Prop) (I : σ → Prop) (K : Kernel σ)
    (aUser : User) (p : Proc σ) : Proc.reaches Q I p (checkFsIdentity K aUser p).1 := by
  unfold checkFsIdentity
  split
  · exact Proc.reaches_refl Q I p
  split
  · exact Proc.reaches_refl Q I p
  · exact Proc.reaches_refl Q I p

theorem assumeIdentity_reaches {σ : Type} {Q : Event → Prop} {I : σ → Prop} (K : Kernel σ)
    (aUser : User) (p : Proc σ)
    (h237 : ∀ ok, Q ⟨237, .setgid aUser.mGid, ok⟩)
    (h240 : ∀ ok, Q ⟨240, .setuid aUser.mUid, ok⟩)
    (h251 : aUser.mUid ≠ 0 → ∀ ok, Q ⟨251, .setreuid none (some 0), ok⟩)
    (h254 : K.geteuid p.state ≠ aUser.mUid →
      ∀ ok, Q ⟨254, .setreuid none (some (K.geteuid p.state)), ok⟩)
    (hgid : ∀ s g s1, K.setgid s g = some s1 → I s → I s1)
    (huid : ∀ s u s1, K.setuid s u = some s1 → I s → I s1)
    (hreuid : ∀ s r e s1, K.setreuid s r e = some s1 → I s → I s1) :
    Proc.reaches Q I p (assumeIdentity K aUser p).1 := by
  unfold assumeIdentity
  simp only
  refine Proc.andThen_reaches _ _ (setIdentity_reaches K aUser p h237 h240 hgid huid) ?_
  intro p2 _ _
  refine Proc.andThen_reaches _ _ (checkIdentity_reaches Q I K aUser p2) ?_
  intro p2b euid h2
  obtain ⟨-, b2, -, -⟩ := checkIdentity_returned h2
  refine Proc.andThen_reaches _ _ (checkNoEscalation_reaches K aUser p2b h251 hreuid) ?_
  intro p3 _ _
  refine Proc.andThen_reaches _ _
    (checkNoRecovery_reaches K (K.geteuid p.state) euid p3 (by rw [b2]; exact h254) hreuid) ?_
  intro p4 _ _
  exact checkFsIdentity_reaches Q I K aUser p4

theorem installGroups_log {σ : Type} (K : Kernel σ) (aUser : User) (userGroups : List Nat)
    (aGroups : List Nat) (p : Proc σ) (hg : aUser.mGroups = some userGroups) :
    (installGroups K aUser aGroups p).1.log = p.log ++
        (if userGroups ≠ aGroups then
          [⟨231, .setgroups userGroups, (K.setgroups p.state userGroups).isSome⟩] else []) ∧
      (userGroups = aGroups → (installGroups K aUser aGroups p).1 = p) := by
  unfold installGroups
  rw [hg]
  simp only
  by_cases hd : userGroups = aGroups
  · have : ¬ groupsDiffer userGroups aGroups = true := fun h =>
      (groupsDiffer_iff _ _).1 h hd
    rw [if_neg this, if_neg (not_not.2 hd), List.append_nil]
    exact ⟨rfl, fun _ => rfl⟩
  · rw [if_pos ((groupsDiffer_iff _ _).2 hd), if_pos hd]
    refine ⟨?_, fun h => absurd h hd⟩
    split
    · exact Proc.attempt_log _ _ _ _
    · exact Proc.attempt_log _ _ _ _

theorem impersonate_user_reaches {σ : Type} {Q : Event → Prop} {I : σ → Prop} (K : Kernel σ)
    (aUser : User) (aGroups : List Nat) (p : Proc σ)
    (h237 : ∀ ok, Q ⟨237, .setgid aUser.mGid, ok⟩)
    (h240 : ∀ ok, Q ⟨240, .setuid aUser.mUid, ok⟩)
    (h251 : aUser.mUid ≠ 0 → ∀ ok, Q ⟨251, .setreuid none (some 0), ok⟩)
    (h254 : K.geteuid (installGroups K aUser aGroups p).1.state ≠ aUser.mUid →
      ∀ ok, Q ⟨254, .setreuid none
        (some (K.geteuid (installGroups K aUser aGroups p).1.state)), ok⟩)
    (hgid : ∀ s g s1, K.setgid s g = some s1 → I s → I s1)
    (huid : ∀ s u s1, K.setuid s u = some s1 → I s → I s1)
    (hreuid : ∀ s r e s1, K.setreuid s r e = some s1 → I s → I s1) :
    Proc.reaches Q I (installGroups K aUser aGroups p).1
      (impersonate_user K aUser aGroups p).1 := by
  unfold impersonate_user
  refine Proc.andThen_reaches _ _ (Proc.reaches_refl Q I _) ?_
  intro p1 _ h1
  have e : (installGroups K aUser aGroups p).1 = p1 := by rw [h1]
  rw [e] at h254
  exact assumeIdentity_reaches K aUser p1 h237 h240 h251 h254 hgid huid hreuid

theorem impersonate_user_returned {σ : Type} {K : Kernel σ} {aUser : User}
    {aGroups : List Nat} {p q : Proc σ}
    (h : impersonate_user K aUser aGroups p = (q, .returned ())) :
    ∃ userGroups, aUser.mGroups = some userGroups ∧
      K.geteuid q.state = aUser.mUid ∧ K.getegid q.state = aUser.mGid ∧
      K.fsuid q.state = aUser.mUid ∧ K.fsgid q.state = aUser.mGid ∧
      q.since p =
        (if userGroups ≠ aGroups then [⟨231, .setgroups userGroups, true⟩] else []) ++
        ([⟨237, .setgid aUser.mGid, true⟩, ⟨240, .setuid aUser.mUid, true⟩] ++
          (if aUser.mUid ≠ 0 then [⟨251, .setreuid none (some 0), false⟩] else []) ++
          (if K.geteuid (installGroups K aUser aGroups p).1.state ≠ aUser.mUid then
            [⟨254, .setreuid none
              (some (K.geteuid (installGroups K aUser aGroups p).1.state)), false⟩]
            else [])) := by
  unfold impersonate_user at h
  obtain ⟨p1, _, h1, h2⟩ := Proc.andThen_returned.1 h
  cases hg : aUser.mGroups with
  | none =>
    unfold installGroups at h1
    rw [hg] at h1
    cases h1
  | some userGroups =>
    obtain ⟨a1, a2, a3, a4, a5⟩ := assumeIdentity_returned h2
    have e : (installGroups K aUser aGroups p).1 = p1 := by rw [h1]
    have b := (installGroups_log K aUser userGroups aGroups p hg).1
    have hok : userGroups ≠ aGroups → (K.setgroups p.state userGroups).isSome = true := by
      intro hd
      unfold installGroups die at h1
      rw [hg] at h1
      simp only at h1
      rw [if_pos ((groupsDiffer_iff _ _).2 hd)] at h1
      cases hs : K.setgroups p.state userGroups with
      | none =>
        rw [hs] at h1
        simp only [Option.isNone_none, if_true, Prod.mk.injEq] at h1
        cases h1.2
      | some s => rfl
    refine ⟨userGroups, rfl, a1, a2, a3, a4, ?_⟩
    apply Proc.since_append
    rw [e] at b ⊢
    rw [a5, b, List.append_assoc]
    congr 2
    by_cases hd : userGroups = aGroups
    · rw [if_neg (not_not.2 hd), if_neg (not_not.2 hd)]
    · rw [if_pos hd, if_pos hd, hok hd]

theorem returned_events_line {g237 g240 g251 : Call} {c1 c2 : Prop} [Decidable c1]
    [Decidable c2] {e e231 : Event} {tail : List Event} (h231 : e231.line = 231)
    (he : e ∈ (if c1 then [e231] else []) ++
      ([⟨237, g237, true⟩, ⟨240, g240, true⟩] ++ (if c2 then [⟨251, g251, false⟩] else []) ++
        tail))
    (hl : e.line = 254) : e ∈ tail := by
  rcases List.mem_append.1 he with h | h
  · split at h
    · rw [List.mem_singleton] at h
      rw [h, h231] at hl
      exact absurd hl (by decide)
    · exact absurd h (List.not_mem_nil _)
  rcases List.mem_append.1 h with h | h
  · rcases List.mem_append.1 h with h | h
    · simp only [List.mem_cons, List.mem_singleton, List.not_mem_nil, or_false] at h
      rcases h with h | h <;> rw [h] at hl <;> simp at hl
    · split at h
      · rw [List.mem_singleton] at h
        rw [h] at hl
        simp at hl
      · exact absurd h (List.not_mem_nil _)
  · exact h

/-! ## Exit statuses -/

theorem Run.bind_exited {α β : Type} {r : Run α} {f : α → Run β} {s : Nat}
    (h1 : r = .exited s → s = 127) (h2 : ∀ a, f a = .exited s → s = 127)
    (h : r.bind f = .exited s) : s = 127 := by
  cases r with
  | returned a => exact h2 a h
  | exited s1 => exact h1 (by simpa [Run.bind] using h)
  | running => cases h
  | undefined => cases h

theorem parseArgs_exited {optOk : Bool} {args : List (List Char)} {s : Nat}
    (h : parseArgs optOk args = .exited s) : s = 127 := by
  rcases parseArgs_cases optOk args with ⟨r, hr⟩ | hr
  · rw [hr] at h
    cases h
  · rw [hr] at h
    cases h
    rfl

theorem identify_exited {P : Platform} {aUid aGid : Nat} {cmd : List Char} {s : Nat}
    (h : identify P aUid aGid cmd = .exited s) : s = 127 := by
  unfold identify die at h
  repeat' split at h
  all_goals first | (cases h; rfl) | cases h

theorem checkLicenseeDir_exited {mPath : List Char} {s : Nat}
    (h : checkLicenseeDir mPath = .exited s) : s = 127 := by
  unfold checkLicenseeDir die at h
  repeat' split at h
  all_goals first | (cases h; rfl) | cases h

theorem checkParentDir_exited {P : Platform} {licensee : SymlinkFd} {licensor : User}
    {s : Nat} (h : checkParentDir P licensee licensor = .exited s) : s = 127 := by
  unfold checkParentDir die at h
  repeat' split at h
  all_goals first | (cases h; rfl) | cases h

theorem checkSymlinkOwner_exited {P : Platform} {licensee : SymlinkFd} {requestor : User}
    {s : Nat} (h : checkSymlinkOwner P licensee requestor = .exited s) : s = 127 := by
  unfold checkSymlinkOwner die at h
  repeat' split at h
  all_goals first | (cases h; rfl) | cases h

theorem followLoop_exited {P : Platform} {s : Nat} :
    ∀ (fuel : Nat) (l : SymlinkFd), followLoop P fuel l = .exited s → s = 127 := by
  intro fuel
  induction fuel with
  | zero => intro l h; cases h
  | succ fuel ih =>
    intro l h
    unfold followLoop die at h
    split at h
    · exact ih _ h
    · cases h
    · cases h
      rfl

theorem checkTarget_exited {P : Platform} {resolved : SymlinkFd} {licensor : User}
    {s : Nat} (h : checkTarget P resolved licensor = .exited s) : s = 127 := by
  unfold checkTarget die at h
  repeat' split at h
  all_goals first | (cases h; rfl) | cases h

theorem mergeEnv_exited {s : Nat} :
    ∀ (fuel : Nat) (argv : List (List Char)) (envp cmd : Nat) (names : EnvNames) (env : Env),
      mergeEnv fuel argv envp cmd names env = .exited s → s = 127 := by
  intro fuel
  induction fuel with
  | zero => intro argv envp cmd names env h; cases h
  | succ fuel ih =>
    intro argv envp cmd names env h
    unfold mergeEnv die at h
    split at h
    · cases h
    split at h
    · cases h
    split at h
    · cases h
      rfl
    simp only at h
    split at h
    · cases h
      rfl
    exact ih _ _ _ _ _ h

theorem defaultEnv_exited {names : EnvNames} {licensor : User} {env : Env} {s : Nat}
    (h : defaultEnv names licensor env = .exited s) : s = 127 := by
  unfold defaultEnv die at h
  simp only at h
  repeat' split at h
  all_goals first | (cases h; rfl) | cases h

theorem buildEnv_exited {fuel : Nat} {args : List (List Char)} {n : Nat} {licensor : User}
    {env : Env} {s : Nat} (h : buildEnv fuel args n licensor env = .exited s) : s = 127 := by
  unfold buildEnv at h
  exact Run.bind_exited (mergeEnv_exited _ _ _ _ _ _) (fun _ => defaultEnv_exited) h

theorem license_program_exited {fuel : Nat} {P : Platform} {optOk : Bool}
    {args : List (List Char)} {aUid aGid : Nat} {env : Env} {s : Nat}
    (h : license_program fuel P optOk args aUid aGid env = .exited s) : s = 127 := by
  unfold license_program at h
  refine Run.bind_exited parseArgs_exited (fun parsed h => ?_) h
  refine Run.bind_exited identify_exited (fun who h => ?_) h
  refine Run.bind_exited checkLicenseeDir_exited (fun _ h => ?_) h
  refine Run.bind_exited checkParentDir_exited (fun _ h => ?_) h
  refine Run.bind_exited checkSymlinkOwner_exited (fun _ h => ?_) h
  refine Run.bind_exited (followLoop_exited _ _) (fun resolved h => ?_) h
  refine Run.bind_exited checkTarget_exited (fun path h => ?_) h
  refine Run.bind_exited buildEnv_exited (fun env2 h => ?_) h
  cases h

/-! ## main -/

theorem swap_reuid_exited {σ : Type} {K : Kernel σ} {p : Proc σ} {s : Nat}
    (h : (swap_reuid K p).2 = .exited s) : s = 127 := by
  unfold swap_reuid die at h
  simp only at h
  repeat' split at h
  all_goals first | (cases h; rfl) | cases h

theorem installGroups_exited {σ : Type} {K : Kernel σ} {aUser : User} {aGroups : List Nat}
    {p : Proc σ} {s : Nat} (h : (installGroups K aUser aGroups p).2 = .exited s) :
    s = 127 := by
  unfold installGroups die at h
  split at h
  · cases h
  · split at h
    · simp only at h
      split at h
      · cases h
        rfl
      · cases h
    · cases h

theorem setIdentity_exited {σ : Type} {K : Kernel σ} {aUser : User} {p : Proc σ} {s : Nat}
    (h : (setIdentity K aUser p).2 = .exited s) : s = 127 := by
  unfold setIdentity die at h
  simp only at h
  repeat' split at h
  all_goals first | (cases h; rfl) | cases h

theorem checkIdentity_exited {σ : Type} {K : Kernel σ} {aUser : User} {p : Proc σ} {s : Nat}
    (h : (checkIdentity K aUser p).2 = .exited s) : s = 127 := by
  unfold checkIdentity die at h
  simp only at h
  repeat' split at h
  all_goals first | (cases h; rfl) | cases h

theorem checkNoEscalation_exited {σ : Type} {K : Kernel σ} {aUser : User} {p : Proc σ}
    {s : Nat} (h : (checkNoEscalation K aUser p).2 = .exited s) : s = 127 := by
  unfold checkNoEscalation die at h
  simp only at h
  repeat' split at h
  all_goals first | (cases h; rfl) | cases h

theorem checkNoRecovery_exited {σ : Type} {K : Kernel σ} {ouid euid : Nat} {p : Proc σ}
    {s : Nat} (h : (checkNoRecovery K ouid euid p).2 = .exited s) : s = 127 := by
  unfold checkNoRecovery die at h
  simp only at h
  repeat' split at h
  all_goals first | (cases h; rfl) | cases h

theorem checkFsIdentity_exited {σ : Type} {K : Kernel σ} {aUser : User} {p : Proc σ}
    {s : Nat} (h : (checkFsIdentity K aUser p).2 = .exited s) : s = 127 := by
  unfold checkFsIdentity die at h
  repeat' split at h
  all_goals first | (cases h; rfl) | cases h

theorem impersonate_user_exited {σ : Type} {K : Kernel σ} {aUser : User}
    {aGroups : List Nat} {p : Proc σ} {s : Nat}
    (h : (impersonate_user K aUser aGroups p).2 = .exited s) : s = 127 := by
  unfold impersonate_user at h
  refine Proc.andThen_exited installGroups_exited (fun p1 _ h => ?_) h
  unfold assumeIdentity at h
  simp only at h
  refine Proc.andThen_exited setIdentity_exited (fun p2 _ h => ?_) h
  refine Proc.andThen_exited checkIdentity_exited (fun p2b _ h => ?_) h
  refine Proc.andThen_exited checkNoEscalation_exited (fun p3 _ h => ?_) h
  refine Proc.andThen_exited checkNoRecovery_exited (fun p4 _ h => ?_) h
  exact checkFsIdentity_exited h

theorem Run.final_exit {α : Type} {r : Run α} {s : Nat} (h : r.final = .exit s) :
    r = .exited s := by
  cases r with
  | returned a => cases h
  | exited s1 =>
    simp only [Run.final, Final.exit.injEq] at h
    rw [h]
  | running => cases h
  | undefined => cases h

theorem Run.final_not_exec {α : Type} {r : Run α} {path : List Char}
    {argv : List (List Char)} {env : Env} : r.final ≠ .exec path argv env := by
  cases r <;> intro h <;> cases h

theorem chain_execv_cases {σ : Type} (K : Kernel σ) (p : Proc σ) (aPath : List Char)
    (env : Env) :
    (K.execv p.state aPath = true ∧ chain_execv K p aPath env = .exec aPath [aPath] env) ∨
      (K.execv p.state aPath = false ∧ chain_execv K p aPath env = .exit 255) := by
  unfold chain_execv
  cases h : K.execv p.state aPath
  · right
    exact ⟨rfl, by simp [exitStatus]⟩
  · left
    exact ⟨rfl, by simp⟩

/-- The ways `main` ends, by the part that does not return. -/
theorem main_cases {σ : Type} (fuel : Nat) (K : Kernel σ) (P : Platform) (optOk : Bool)
    (args : List (List Char)) (env0 : Env) (p : Proc σ) :
    (∃ r : Run Unit, (∀ s, r = .exited s → s = 127) ∧ (∀ a, r ≠ .returned a) ∧
        (main fuel K P optOk args env0 p).2 = r.final) ∨
      ∃ p1 p2 p3 app env,
        swap_reuid K p = (p1, .returned ()) ∧
        license_program fuel P optOk args (K.geteuid p1.state) (K.getegid p1.state) [] =
          .returned (app, env) ∧
        swap_reuid K p1 = (p2, .returned ()) ∧
        impersonate_user K app.mLicensor app.mGroups p2 = (p3, .returned ()) ∧
        main fuel K P optOk args env0 p = (p3, chain_execv K p3 app.mPath env) := by
  have hdie : ∀ s, (die : Run Unit) = .exited s → s = 127 := fun s h => by
    cases h
    rfl
  have hdie2 : ∀ a, (die : Run Unit) ≠ .returned a := fun a h => by cases h
  have hex : ∀ s1, s1 = 127 → ∀ s, (Run.exited s1 : Run Unit) = .exited s → s = 127 :=
    fun s1 h1 s h => by
      cases h
      exact h1
  have hex2 : ∀ s1 a, (Run.exited s1 : Run Unit) ≠ .returned a := fun s1 a h => by cases h
  have hrun : ∀ s, (Run.running : Run Unit) = .exited s → s = 127 := fun s h => by cases h
  have hrun2 : ∀ a, (Run.running : Run Unit) ≠ .returned a := fun a h => by cases h
  have hund : ∀ s, (Run.undefined : Run Unit) = .exited s → s = 127 := fun s h => by cases h
  have hund2 : ∀ a, (Run.undefined : Run Unit) ≠ .returned a := fun a h => by cases h
  unfold main
  simp only
  cases hc : K.clearenv p.state
  · left
    exact ⟨die, hdie, hdie2, by simp⟩
  simp only [Bool.not_true, Bool.false_eq_true, if_false]
  rcases hs1 : swap_reuid K p with ⟨p1, r1⟩
  have e1 : (swap_reuid K p).2 = r1 := by rw [hs1]
  cases r1 with
  | exited s1 =>
    left
    exact ⟨.exited s1, hex s1 (swap_reuid_exited e1), hex2 s1, rfl⟩
  | running => left; exact ⟨.running, hrun, hrun2, rfl⟩
  | undefined => left; exact ⟨.undefined, hund, hund2, rfl⟩
  | returned u =>
    simp only
    split
    · left
      exact ⟨die, hdie, hdie2, rfl⟩
    cases hl : license_program fuel P optOk args (K.geteuid p1.state) (K.getegid p1.state)
        (clearenv env0) with
    | exited s1 =>
      left
      exact ⟨.exited s1, hex s1 (license_program_exited hl), hex2 s1, rfl⟩
    | running => left; exact ⟨.running, hrun, hrun2, rfl⟩
    | undefined => left; exact ⟨.undefined, hund, hund2, rfl⟩
    | returned ae =>
      obtain ⟨app, env⟩ := ae
      simp only
      rcases hs2 : swap_reuid K p1 with ⟨p2, r2⟩
      have e2 : (swap_reuid K p1).2 = r2 := by rw [hs2]
      cases r2 with
      | exited s1 =>
        left
        exact ⟨.exited s1, hex s1 (swap_reuid_exited e2), hex2 s1, rfl⟩
      | running => left; exact ⟨.running, hrun, hrun2, rfl⟩
      | undefined =>
        left; exact ⟨.undefined, hund, hund2, rfl⟩
      | returned u2 =>
        simp only
        rcases hi : impersonate_user K app.mLicensor app.mGroups p2 with ⟨p3, r3⟩
        have e3 : (impersonate_user K app.mLicensor app.mGroups p2).2 = r3 := by rw [hi]
        cases r3 with
        | exited s1 =>
          left
          exact ⟨.exited s1, hex s1 (impersonate_user_exited e3), hex2 s1, rfl⟩
        | running =>
          left; exact ⟨.running, hrun, hrun2, rfl⟩
        | undefined =>
          left; exact ⟨.undefined, hund, hund2, rfl⟩
        | returned u3 =>
          right
          exact ⟨p1, p2, p3, app, env, rfl, hl, hs2, hi, rfl⟩

/-! ## The environment of the program -/

theorem create_user_strings {P : Platform} {aUid aGid : Nat} {user : User}
    (h : create_user P aUid aGid = some user) :
    cstr user.mName = user.mName ∧ cstr user.mHome = user.mHome := by
  unfold create_user at h
  split at h
  · cases h
  split at h
  · simp only [Option.some.injEq] at h
    subst h
    exact ⟨cstr_idem _, cstr_idem _⟩
  · simp only [Option.some.injEq] at h
    subst h
    exact ⟨cstr_idem _, cstr_idem _⟩

theorem fetch_user_groups_strings {P : Platform} {self user : User}
    (h : fetch_user_groups P self = some user) :
    user.mName = self.mName ∧ user.mHome = self.mHome := by
  unfold fetch_user_groups at h
  split at h
  · simp only [Option.some.injEq] at h
    subst h
    exact ⟨rfl, rfl⟩
  split at h
  · cases h
  · simp only [Option.some.injEq] at h
    subst h
    exact ⟨rfl, rfl⟩

theorem identify_licensor_strings {P : Platform} {aUid aGid : Nat} {cmd : List Char}
    {who : Parties} (h : identify P aUid aGid cmd = .returned who) :
    cstr who.licensor.mName = who.licensor.mName ∧
      cstr who.licensor.mHome = who.licensor.mHome := by
  unfold identify die at h
  split at h
  · cases h
  split at h
  · cases h
  split at h
  · cases h
  split at h
  · cases h
  split at h
  · cases h
  rename_i licensor0 h0
  split at h
  · cases h
  rename_i licensor1 h1
  simp only [Run.returned.injEq] at h
  subst h
  obtain ⟨a1, a2⟩ := create_user_strings h0
  obtain ⟨b1, b2⟩ := fetch_user_groups_strings h1
  simp only
  rw [b1, b2]
  exact ⟨a1, a2⟩

theorem defaultEnv_all (licensor : User) :
    defaultEnv ⟨some "LOGNAME".toList, some "PATH".toList, some "HOME".toList,
        some "SHELL".toList⟩ licensor [] =
      .returned [("LOGNAME".toList, cstr licensor.mName), ("HOME".toList, cstr licensor.mHome),
        ("SHELL".toList, "/bin/sh".toList), ("PATH".toList, "/usr/bin:/bin".toList)] := by
  have e1 : cstr "LOGNAME".toList = "LOGNAME".toList := by decide
  have e2 : cstr "HOME".toList = "HOME".toList := by decide
  have e3 : cstr "SHELL".toList = "SHELL".toList := by decide
  have e4 : cstr "PATH".toList = "PATH".toList := by decide
  have e5 : cstr "/bin/sh".toList = "/bin/sh".toList := by decide
  have e6 : cstr "/usr/bin:/bin".toList = "/usr/bin:/bin".toList := by decide
  have n1 : ¬ ("LOGNAME".toList = [] ∨ '=' ∈ "LOGNAME".toList) := by decide
  have n2 : ¬ ("HOME".toList = [] ∨ '=' ∈ "HOME".toList) := by decide
  have n3 : ¬ ("SHELL".toList = [] ∨ '=' ∈ "SHELL".toList) := by decide
  have n4 : ¬ ("PATH".toList = [] ∨ '=' ∈ "PATH".toList) := by decide
  have d1 : ("LOGNAME".toList ≠ "HOME".toList) := by decide
  have d2 : ("LOGNAME".toList ≠ "SHELL".toList) := by decide
  have d3 : ("HOME".toList ≠ "SHELL".toList) := by decide
  have d4 : ("LOGNAME".toList ≠ "PATH".toList) := by decide
  have d5 : ("HOME".toList ≠ "PATH".toList) := by decide
  have d6 : ("SHELL".toList ≠ "PATH".toList) := by decide
  simp only [defaultEnv, setenv, e1, e2, e3, e4, e5, e6, if_neg n1, if_neg n2, if_neg n3,
    if_neg n4, List.filter_nil, List.nil_append, List.filter_cons, List.filter_append,
    ne_eq, d1, d2, d3, d4, d5, d6, not_false_eq_true, decide_True, if_true, List.cons_append,
    List.singleton_append]

theorem license_program_env {fuel : Nat} {P : Platform} {optOk : Bool}
    {args : List (List Char)} {aUid aGid : Nat} {env : Env} {app : App}
    (h : license_program fuel P optOk args aUid aGid [] = .returned (app, env)) :
    env = [("LOGNAME".toList, app.mLicensor.mName), ("HOME".toList, app.mLicensor.mHome),
      ("SHELL".toList, "/bin/sh".toList), ("PATH".toList, "/usr/bin:/bin".toList)] := by
  unfold license_program at h
  obtain ⟨parsed, hparse, h⟩ := Run.bind_eq_returned.1 h
  obtain ⟨who, hwho, h⟩ := Run.bind_eq_returned.1 h
  obtain ⟨_, -, h⟩ := Run.bind_eq_returned.1 h
  obtain ⟨_, -, h⟩ := Run.bind_eq_returned.1 h
  obtain ⟨_, -, h⟩ := Run.bind_eq_returned.1 h
  obtain ⟨resolved, -, h⟩ := Run.bind_eq_returned.1 h
  obtain ⟨path, -, h⟩ := Run.bind_eq_returned.1 h
  obtain ⟨env2, henv, h⟩ := Run.bind_eq_returned.1 h
  simp only [Run.returned.injEq, Prod.mk.injEq] at h
  obtain ⟨happ, henv2⟩ := h
  subst happ henv2
  unfold buildEnv at henv
  obtain ⟨⟨names, env1⟩, hmerge, hdef⟩ := Run.bind_eq_returned.1 henv
  obtain ⟨-, hn, he⟩ := mergeEnv_returned hmerge
  subst hn he
  obtain ⟨a1, a2⟩ := identify_licensor_strings hwho
  simp only at hdef
  rw [defaultEnv_all, a1, a2] at hdef
  simp only [Run.returned.injEq] at hdef
  exact hdef.symm

/-- Claim C11, which the code does not meet.  In the scenario, where the invocation
without `NAME=VALUE` passes every check and returns, the same invocation with the
well-formed argument `A=1` ends in `exit(127)`: the loop of lines 1031-1051 never
advances `envp`, so its second pass finds no `=` in the name it has just cut off. -/
theorem license_program_assignment_exits :
    license_program 3 scenario true [['/', 'r', '/', 'l', '/', 'j']] 200 20 [] =
        .returned (scenarioApp, scenarioEnv) ∧
      license_program 3 scenario true assignmentArgs 200 20 [] = .exited 127 := by
  decide

/-- Claim C12.  Whatever the environment `env0` of the invoking process, when `main`
reaches `execv` (every check has passed; the caller then supplied no `NAME=VALUE`
argument), the environment handed to the program holds exactly four variables:
`LOGNAME` is the name of the licensor, `HOME` the home directory of the licensor,
`SHELL` is `/bin/sh` and `PATH` is `/usr/bin:/bin`; nothing of `env0` is in it. -/
theorem main_exec_environment {σ : Type} (fuel : Nat) (K : Kernel σ) (P : Platform)
    (optOk : Bool) (args : List (List Char)) (env0 : Env) (p : Proc σ) (path : List Char)
    (argv : List (List Char)) (env : Env)
    (h : (main fuel K P optOk args env0 p).2 = .exec path argv env) :
    ∃ aUid aGid app,
      license_program fuel P optOk args aUid aGid (clearenv env0) = .returned (app, env) ∧
      args = [app.mCmd] ∧ path = app.mPath ∧
      env = [("LOGNAME".toList, app.mLicensor.mName), ("HOME".toList, app.mLicensor.mHome),
        ("SHELL".toList, "/bin/sh".toList), ("PATH".toList, "/usr/bin:/bin".toList)] := by
  rcases main_cases fuel K P optOk args env0 p with ⟨r, -, -, hr⟩ | ⟨p1, p2, p3, app, env1,
    -, hl, -, -, hm⟩
  · rw [hr] at h
    exact absurd h Run.final_not_exec
  · rw [hm] at h
    rcases chain_execv_cases K p3 app.mPath env1 with ⟨-, hc⟩ | ⟨-, hc⟩
    · rw [hc] at h
      simp only [Final.exec.injEq] at h
      obtain ⟨h1, -, h3⟩ := h
      subst h3
      exact ⟨_, _, app, hl, (license_program_returned_no_assignment hl).1, h1.symm,
        license_program_env hl⟩
    · rw [hc] at h
      cases h

/-- Witness for C12: in the scenario, run by the requestor with `X=1` in the
environment, `main` reaches `execv` of `/b/x` with the four variables of the licensor
`lic`, whose home directory is `/h`. -/
theorem main_exec_environment_witness :
    (main 3 (linux true) scenario true [['/', 'r', '/', 'l', '/', 'j']] [(['X'], ['1'])]
        scenarioProc).2 = .exec ['/', 'b', '/', 'x'] [['/', 'b', '/', 'x']] scenarioEnv ∧
      ∃ aUid aGid app,
        license_program 3 scenario true [['/', 'r', '/', 'l', '/', 'j']] aUid aGid
          (clearenv [(['X'], ['1'])]) = .returned (app, scenarioEnv) ∧
        [['/', 'r', '/', 'l', '/', 'j']] = [app.mCmd] ∧ ['/', 'b', '/', 'x'] = app.mPath ∧
        scenarioEnv = [("LOGNAME".toList, app.mLicensor.mName),
          ("HOME".toList, app.mLicensor.mHome), ("SHELL".toList, "/bin/sh".toList),
          ("PATH".toList, "/usr/bin:/bin".toList)] :=
  ⟨by decide,
    main_exec_environment 3 (linux true) scenario true [['/', 'r', '/', 'l', '/', 'j']]
      [(['X'], ['1'])] scenarioProc ['/', 'b', '/', 'x'] [['/', 'b', '/', 'x']] scenarioEnv
      (by decide)⟩

/-- Counterexample to C13: in the scenario every check passes, and when `execv` then
fails `main` returns its result -1, so the process ends with exit status 255. -/
theorem main_failed_execv_exits_255 :
    (linux false).execv
        (main 3 (linux false) scenario true [['/', 'r', '/', 'l', '/', 'j']] []
          scenarioProc).1.state ['/', 'b', '/', 'x'] = false ∧
      (main 3 (linux false) scenario true [['/', 'r', '/', 'l', '/', 'j']] []
        scenarioProc).2 = .exit 255 := by
  decide

/-- Claim C13 as amended.  Every failure the program detects itself ends the process
with exit status 127: `license_program` (usage and parse violations, failed platform
calls, rejections by the trust policy), `swap_reuid` and `impersonate_user` (failed
identity calls and failed privilege assertions) exit with no other status.  The one
other failure exit of `main` is that of a failed `execv`, after every check has
passed: `main` returns -1 and the exit status is 255. -/
theorem main_exit_status {σ : Type} (fuel : Nat) (K : Kernel σ) (P : Platform)
    (optOk : Bool) (args : List (List Char)) (env0 : Env) (p : Proc σ) :
    (∀ aUid aGid env s,
        license_program fuel P optOk args aUid aGid env = .exited s → s = 127) ∧
      (∀ q s, (swap_reuid K q).2 = .exited s → s = 127) ∧
      (∀ aUser aGroups q s, (impersonate_user K aUser aGroups q).2 = .exited s → s = 127) ∧
      (∀ s, (main fuel K P optOk args env0 p).2 = .exit s →
        s = 127 ∨
          (s = 255 ∧ ∃ aUid aGid app env q,
            license_program fuel P optOk args aUid aGid (clearenv env0) =
              .returned (app, env) ∧
            (∃ q0, impersonate_user K app.mLicensor app.mGroups q0 = (q, .returned ())) ∧
            K.execv q.state app.mPath = false)) := by
  refine ⟨fun _ _ _ _ h => license_program_exited h, fun _ _ h => swap_reuid_exited h,
    fun _ _ _ _ h => impersonate_user_exited h, fun s h => ?_⟩
  rcases main_cases fuel K P optOk args env0 p with ⟨r, hr1, -, hr⟩ | ⟨p1, p2, p3, app, env1,
    -, hl, -, hi, hm⟩
  · rw [hr] at h
    exact Or.inl (hr1 s (Run.final_exit h))
  · rw [hm] at h
    rcases chain_execv_cases K p3 app.mPath env1 with ⟨-, hc⟩ | ⟨hx, hc⟩
    · rw [hc] at h
      cases h
    · rw [hc] at h
      simp only [Final.exit.injEq] at h
      exact Or.inr ⟨h.symm, _, _, app, env1, p3, hl, ⟨p2, hi⟩, hx⟩

/-- Witness for C13 as amended: in the scenario, `main` ends with exit status 127 when
the caller adds the argument `A=1`. -/
theorem main_exit_status_witness :
    (main 3 (linux true) scenario true assignmentArgs [] scenarioProc).2 = .exit 127 ∧
      (127 = 127 ∨
        (127 = 255 ∧ ∃ aUid aGid app env q,
          license_program 3 scenario true assignmentArgs aUid aGid (clearenv []) =
            .returned (app, env) ∧
          (∃ q0, impersonate_user (linux true) app.mLicensor app.mGroups q0 =
            (q, .returned ())) ∧
          (linux true).execv q.state app.mPath = false)) :=
  ⟨by decide,
    (main_exit_status 3 (linux true) scenario true assignmentArgs [] scenarioProc).2.2.2 127
      (by decide)⟩

/-- Claim C14.  After option parsing, the remaining arguments are accepted exactly when
they are zero or more tokens that each hold `=` after a non-empty name, followed by
one final token that is non-empty and holds no `=`; the accepted list yields the number
of `NAME=VALUE` tokens and the command, and every other list ends in the usage error,
exit status 127. -/
theorem parseArgs_accepts_iff (args : List (List Char)) :
    (∀ assigns cmd, args = assigns ++ [cmd] →
        (∀ a ∈ assigns, '=' ∈ cstr a ∧ (cstr a).head? ≠ some '=') → cstr cmd ≠ [] →
        '=' ∉ cstr cmd → parseArgs true args = .returned (assigns.length, cmd)) ∧
      ((¬ ∃ assigns cmd, args = assigns ++ [cmd] ∧
          (∀ a ∈ assigns, '=' ∈ cstr a ∧ (cstr a).head? ≠ some '=') ∧ cstr cmd ≠ [] ∧
          '=' ∉ cstr cmd) → parseArgs true args = .exited 127) := by
  refine ⟨fun assigns cmd he h hne hcmd => he ▸ parseArgs_accepts h hne hcmd, fun hno => ?_⟩
  rcases parseArgs_cases true args with ⟨⟨n, cmd⟩, hr⟩ | hx
  · obtain ⟨-, b1, -, -, b2, b3, b4⟩ := parseArgs_returned hr
    exact absurd ⟨args.take n, cmd, b1, b2, b3, b4⟩ hno
  · exact hx

/-- Witness for C14: `A=1 B=2 cmd` is accepted with two assignments, and the lists
`A=1`, `=1 cmd`, `cmd extra` and the empty list end in the usage error. -/
theorem parseArgs_accepts_iff_witness :
    parseArgs true [['A', '=', '1'], ['B', '=', '2'], ['c', 'm', 'd']] =
        .returned (2, ['c', 'm', 'd']) ∧
      parseArgs true [['A', '=', '1']] = .exited 127 ∧
      parseArgs true [['=', '1'], ['c', 'm', 'd']] = .exited 127 ∧
      parseArgs true [['c', 'm', 'd'], ['e']] = .exited 127 ∧
      parseArgs true [] = .exited 127 :=
  ⟨(parseArgs_accepts_iff _).1 [['A', '=', '1'], ['B', '=', '2']] ['c', 'm', 'd'] rfl
      (by decide) (by decide) (by decide),
    by decide, by decide, by decide,
    (parseArgs_accepts_iff []).2 (by
      rintro ⟨assigns, cmd, h, -⟩
      cases assigns <;> cases h)⟩

/-- Claim C15.  Among the calls `impersonate_user` makes, `setgroups` occurs if and
only if the group list of the user differs from the list `aGroups` of the process (in
length or in some element), and the only such call is the one of line 231 with the
group list of the user.  When the two lists are the same sequence, and the other
identity calls do not change the supplementary groups, these are the same after
`impersonate_user` as before, whatever its outcome. -/
theorem impersonate_user_setgroups_iff {σ : Type} (K : Kernel σ) (aUser : User)
    (userGroups aGroups : List Nat) (p : Proc σ) (hg : aUser.mGroups = some userGroups) :
    ((∃ e ∈ (impersonate_user K aUser aGroups p).1.since p, ∃ l, e.call = .setgroups l) ↔
        userGroups ≠ aGroups) ∧
      (∀ e ∈ (impersonate_user K aUser aGroups p).1.since p, ∀ l, e.call = .setgroups l →
        e.line = 231 ∧ l = userGroups) ∧
      (userGroups = aGroups →
        (∀ s g s1, K.setgid s g = some s1 → K.groups s1 = K.groups s) →
        (∀ s u s1, K.setuid s u = some s1 → K.groups s1 = K.groups s) →
        (∀ s r e s1, K.setreuid s r e = some s1 → K.groups s1 = K.groups s) →
        K.groups (impersonate_user K aUser aGroups p).1.state = K.groups p.state) := by
  have hlog := (installGroups_log K aUser userGroups aGroups p hg).1
  have hreach : ∀ I : σ → Prop,
      (∀ s g s1, K.setgid s g = some s1 → I s → I s1) →
      (∀ s u s1, K.setuid s u = some s1 → I s → I s1) →
      (∀ s r e s1, K.setreuid s r e = some s1 → I s → I s1) →
      Proc.reaches (fun e => ∀ l, e.call ≠ .setgroups l) I
        (installGroups K aUser aGroups p).1 (impersonate_user K aUser aGroups p).1 :=
    fun I h1 h2 h3 =>
      impersonate_user_reaches K aUser aGroups p (fun _ _ h => by cases h)
        (fun _ _ h => by cases h) (fun _ _ _ h => by cases h) (fun _ _ _ h => by cases h)
        h1 h2 h3
  obtain ⟨⟨evs, h1, h2⟩, -⟩ := hreach (fun _ => True) (fun _ _ _ _ _ => trivial)
    (fun _ _ _ _ _ => trivial) (fun _ _ _ _ _ _ => trivial)
  rw [hlog, List.append_assoc] at h1
  rw [Proc.since_append h1]
  refine ⟨⟨?_, ?_⟩, ?_, ?_⟩
  · rintro ⟨e, he, l, hl⟩ hd
    rw [if_neg (not_not.2 hd), List.nil_append] at he
    exact h2 e he l hl
  · intro hd
    rw [if_pos hd]
    exact ⟨_, List.mem_append_left _ (List.mem_singleton.2 rfl), userGroups, rfl⟩
  · intro e he l hl
    rcases List.mem_append.1 he with h | h
    · split at h
      · rw [List.mem_singleton] at h
        subst h
        simp only [Call.setgroups.injEq] at hl
        exact ⟨rfl, hl.symm⟩
      · exact absurd h (List.not_mem_nil _)
    · exact absurd hl (h2 e h l)
  · intro hd hgid huid hreuid
    have hsame := (installGroups_log K aUser userGroups aGroups p hg).2 hd
    have := (hreach (fun s => K.groups s = K.groups p.state)
      (fun s g s1 h hs => (hgid s g s1 h).trans hs)
      (fun s u s1 h hs => (huid s u s1 h).trans hs)
      (fun s r e s1 h hs => (hreuid s r e s1 h).trans hs)).2
    rw [hsame] at this
    exact this rfl

/-- Witness for C15: in the simplified Linux kernel, root (groups `[5, 10]`) makes no
`setgroups` call on becoming the licensor of the scenario, whose groups are `[5, 10]`,
and makes one when the process is said to have the groups `[7, 20]`. -/
theorem impersonate_user_setgroups_iff_witness :
    (¬ ∃ e ∈ (impersonate_user (linux true) scenarioApp.mLicensor [5, 10] rootProc).1.since
        rootProc, ∃ l, e.call = .setgroups l) ∧
      (∃ e ∈ (impersonate_user (linux true) scenarioApp.mLicensor [7, 20] rootProc).1.since
        rootProc, ∃ l, e.call = .setgroups l) :=
  ⟨fun h => (impersonate_user_setgroups_iff (linux true) scenarioApp.mLicensor [5, 10] [5, 10]
      rootProc rfl).1.1 h rfl,
    (impersonate_user_setgroups_iff (linux true) scenarioApp.mLicensor [5, 10] [7, 20]
      rootProc rfl).1.2 (by decide)⟩

/-- Claim C16.  Whenever `impersonate_user` returns, the effective uid and gid of the
process are those of the user, its filesystem uid and gid are those of the user, and,
if the uid of the user is not 0, the call `setreuid(-1, 0)` of line 251 was made and
failed. -/
theorem impersonate_user_returns_as_user {σ : Type} (K : Kernel σ) (aUser : User)
    (aGroups : List Nat) (p q : Proc σ)
    (h : impersonate_user K aUser aGroups p = (q, .returned ())) :
    K.geteuid q.state = aUser.mUid ∧ K.getegid q.state = aUser.mGid ∧
      K.fsuid q.state = aUser.mUid ∧ K.fsgid q.state = aUser.mGid ∧
      (aUser.mUid ≠ 0 → ⟨251, .setreuid none (some 0), false⟩ ∈ q.since p) := by
  obtain ⟨userGroups, -, a1, a2, a3, a4, a5⟩ := impersonate_user_returned h
  refine ⟨a1, a2, a3, a4, fun hu => ?_⟩
  rw [a5, if_pos hu]
  simp

/-- Witness for C16: in the simplified Linux kernel, root becomes the licensor of the
scenario (uid 100, gid 10) and `impersonate_user` returns. -/
theorem impersonate_user_returns_as_user_witness :
    impersonate_user (linux true) scenarioApp.mLicensor [7, 20] rootProc =
        (⟨⟨100, 100, 100, 100, 10, 10, 10, 10, [5, 10]⟩,
          [⟨231, .setgroups [5, 10], true⟩, ⟨237, .setgid 10, true⟩, ⟨240, .setuid 100, true⟩,
            ⟨251, .setreuid none (some 0), false⟩, ⟨254, .setreuid none (some 0), false⟩]⟩,
          .returned ()) ∧
      (⟨251, .setreuid none (some 0), false⟩ : Event) ∈
        (⟨⟨100, 100, 100, 100, 10, 10, 10, 10, [5, 10]⟩,
          [⟨231, .setgroups [5, 10], true⟩, ⟨237, .setgid 10, true⟩, ⟨240, .setuid 100, true⟩,
            ⟨251, .setreuid none (some 0), false⟩,
            ⟨254, .setreuid none (some 0), false⟩]⟩ : Proc Cred).since rootProc :=
  ⟨by decide,
    (impersonate_user_returns_as_user (linux true) scenarioApp.mLicensor [7, 20] rootProc _
      (by decide)).2.2.2.2 (by decide)⟩

/-- Claim C17, which the code does not meet.  Opened with the name `.` and no parent,
a handle stores the path `.` although the working directory is `/w`; opened with the
name `.` under a parent whose path is `/a//b`, it stores `/a/b`, the result of
`splice_path`.  The branch for `.` (line 595) tests `!aPath`, which is false once the
argument check of line 576 has passed. -/
theorem create_dirfd_dot_is_spliced :
    create_dirfd dotPlatform none (some ['.']) = some ⟨3, ['.']⟩ ∧
      dotPlatform.get_current_dir_name = some ['/', 'w'] ∧
      create_dirfd dotPlatform (some ⟨3, ['/', 'a', '/', '/', 'b']⟩) (some ['.']) =
        some ⟨4, ['/', 'a', '/', 'b']⟩ := by
  decide

/-- Claim C18, which the code does not meet.  On the platform where the registration
`/r/l/a` points to `b` and `b` points back to `a`, every check before the loop of
lines 976-984 passes and the loop is still running whatever the number of passes
allowed: each hop is opened with `O_PATH | O_NOFOLLOW`, so the platform never
resolves the chain and never reports the cycle. -/
theorem license_program_cycle_runs_forever (fuel : Nat) :
    license_program fuel cyclePlatform true [['/', 'r', '/', 'l', '/', 'a']] 200 20 [] =
      .running := by
  have h1 : parseArgs true [['/', 'r', '/', 'l', '/', 'a']] =
      .returned (0, ['/', 'r', '/', 'l', '/', 'a']) := by decide
  have h2 : identify cyclePlatform 200 20 ['/', 'r', '/', 'l', '/', 'a'] =
      .returned ⟨[7, 20], ⟨200, 20, ['r', 'e', 'q'], ['/', 'q'], none⟩,
        ⟨4, ['a'], ⟨3, ['/', 'r', '/', 'l']⟩⟩,
        ⟨100, 10, ['l', 'i', 'c'], ['/', 'h'], some [5, 10]⟩⟩ := by decide
  have h3 : checkLicenseeDir ['/', 'r', '/', 'l'] = .returned () := by decide
  have h4 : checkParentDir cyclePlatform ⟨4, ['a'], ⟨3, ['/', 'r', '/', 'l']⟩⟩
      ⟨100, 10, ['l', 'i', 'c'], ['/', 'h'], some [5, 10]⟩ = .returned () := by decide
  have h5 : checkSymlinkOwner cyclePlatform ⟨4, ['a'], ⟨3, ['/', 'r', '/', 'l']⟩⟩
      ⟨200, 20, ['r', 'e', 'q'], ['/', 'q'], none⟩ = .returned () := by decide
  simp only [license_program, h1, h2, h3, h4, h5, Run.bind, followLoop_cycle_entry fuel]

/-- Counterexample to C19: when the platform reports the group 5 twice for a user and
the group 7 twice for the process, both group lists keep the duplicate. -/
theorem grouplist_keeps_duplicates :
    create_grouplist_user repeatedGroups ['l', 'i', 'c'] 10 = some [5, 5] ∧
      create_grouplist repeatedGroups = some [7, 7, 20] ∧
      ¬ [5, 5].Nodup ∧ ¬ [7, 7, 20].Nodup := by
  decide

/-- Claim C19 as amended.  Every group list built by `create_grouplist` or by
`create_grouplist_user` is in ascending order, equal gids side by side, and holds
exactly the gids the platform returned (for the process, with the real gid added when
it is missing), each as often as the platform returned it; so it has no duplicate
when the platform's sequence has none. -/
theorem grouplist_sorted_same_gids (P : Platform) (gl : List Nat) :
    (create_grouplist P = some gl →
        gl.Sorted (fun a b => a ≤ b) ∧
          ∃ groupBuf, P.getgroups = some groupBuf ∧
            gl.Perm (if P.getgid ∈ groupBuf then groupBuf else groupBuf ++ [P.getgid]) ∧
            (groupBuf.Nodup → gl.Nodup)) ∧
      (∀ aName aGid, create_grouplist_user P aName aGid = some gl →
        gl.Sorted (fun a b => a ≤ b) ∧
          ∃ groupBuf, P.getgrouplist aName aGid = some groupBuf ∧ gl.Perm groupBuf ∧
            (groupBuf.Nodup → gl.Nodup)) := by
  refine ⟨fun h => ?_, fun aName aGid h => ?_⟩
  · obtain ⟨h1, groupBuf, h2, h3⟩ := create_grouplist_spec h
    refine ⟨h1, groupBuf, h2, h3, fun hnd => h3.nodup_iff.2 ?_⟩
    split_ifs with hm
    · exact hnd
    · exact List.Nodup.append hnd (List.nodup_singleton _) (by simpa using hm)
  · obtain ⟨h1, groupBuf, h2, h3⟩ := create_grouplist_user_spec h
    exact ⟨h1, groupBuf, h2, h3, fun hnd => h3.nodup_iff.2 hnd⟩

/-- Witness for C19 as amended, on the scenario platform: the groups of the process
are `[7, 20]` and those of the licensor `[5, 10]`. -/
theorem grouplist_sorted_same_gids_witness :
    create_grouplist scenario = some [7, 20] ∧
      create_grouplist_user scenario ['l', 'i', 'c'] 10 = some [5, 10] ∧
      [7, 20].Sorted (fun a b => a ≤ b) ∧ [5, 10].Sorted (fun a b => a ≤ b) :=
  ⟨by decide, by decide,
    ((grouplist_sorted_same_gids scenario [7, 20]).1 (by decide)).1,
    ((grouplist_sorted_same_gids scenario [5, 10]).2 ['l', 'i', 'c'] 10 (by decide)).1⟩

/-- Counterexample to C20, in the simplified Linux kernel.  Run by root, whose real
and effective uid are both 0, `impersonate_user` makes the check of line 254 on
becoming the licensor (uid 100).  Run by a process whose real uid is 200 and whose
effective uid is already 100, it returns without making it. -/
theorem recovery_check_ignores_real_uid :
    (linux true).getuid rootProc.state = (linux true).geteuid rootProc.state ∧
      (impersonate_user (linux true) scenarioApp.mLicensor [5, 10] rootProc).2 =
        .returned () ∧
      (⟨254, .setreuid none (some 0), false⟩ : Event) ∈
        (impersonate_user (linux true) scenarioApp.mLicensor [5, 10] rootProc).1.since
          rootProc ∧
      (linux true).getuid licensedProc.state ≠ (linux true).geteuid licensedProc.state ∧
      (impersonate_user (linux true) scenarioApp.mLicensor [5, 10] licensedProc).2 =
        .returned () ∧
      ∀ e ∈ (impersonate_user (linux true) scenarioApp.mLicensor [5, 10] licensedProc).1.since
          licensedProc, e.line ≠ 254 := by
  decide

/-- Claim C20 as amended.  In `impersonate_user`, the check that the prior effective
uid can no longer be recovered, the call `setreuid(-1, ouid)` of line 254, is made
only when `ouid`, the effective uid the process has at line 235, after the groups
are installed, differs from the uid of the user; when `impersonate_user` returns,
the check was made, and failed, exactly in that case.  The real uid plays no part. -/
theorem impersonate_user_recovery_check {σ : Type} (K : Kernel σ) (aUser : User)
    (aGroups : List Nat) (p : Proc σ) :
    (∀ e ∈ (impersonate_user K aUser aGroups p).1.since (installGroups K aUser aGroups p).1,
        e.line = 254 →
          e.call = .setreuid none (some (K.geteuid (installGroups K aUser aGroups p).1.state)) ∧
            K.geteuid (installGroups K aUser aGroups p).1.state ≠ aUser.mUid) ∧
      (∀ q, impersonate_user K aUser aGroups p = (q, .returned ()) →
        ((∃ e ∈ q.since p, e.line = 254) ↔
            K.geteuid (installGroups K aUser aGroups p).1.state ≠ aUser.mUid) ∧
          ∀ e ∈ q.since p, e.line = 254 →
            e = ⟨254, .setreuid none
              (some (K.geteuid (installGroups K aUser aGroups p).1.state)), false⟩) := by
  constructor
  · obtain ⟨⟨evs, h1, h2⟩, -⟩ := impersonate_user_reaches
      (Q := fun e => e.line = 254 →
        e.call = .setreuid none (some (K.geteuid (installGroups K aUser aGroups p).1.state)) ∧
          K.geteuid (installGroups K aUser aGroups p).1.state ≠ aUser.mUid)
      (I := fun _ => True) K aUser aGroups p
      (fun _ h => by cases h) (fun _ h => by cases h) (fun _ _ h => by cases h)
      (fun hne _ _ => ⟨rfl, hne⟩) (fun _ _ _ _ _ => trivial) (fun _ _ _ _ _ => trivial)
      (fun _ _ _ _ _ _ => trivial)
    rw [Proc.since_append h1]
    exact h2
  · intro q h
    obtain ⟨userGroups, -, -, -, -, -, a5⟩ := impersonate_user_returned h
    rw [a5]
    by_cases hne : K.geteuid (installGroups K aUser aGroups p).1.state = aUser.mUid
    · rw [if_neg (not_not.2 hne)]
      refine ⟨⟨?_, fun h => absurd hne h⟩, ?_⟩
      · rintro ⟨e, he, hl⟩
        exact absurd (returned_events_line rfl he hl) (List.not_mem_nil _)
      · intro e he hl
        exact absurd (returned_events_line rfl he hl) (List.not_mem_nil _)
    · rw [if_pos hne]
      refine ⟨⟨fun _ => hne, fun _ => ⟨⟨254, .setreuid none
        (some (K.geteuid (installGroups K aUser aGroups p).1.state)), false⟩, ?_, rfl⟩⟩, ?_⟩
      · exact List.mem_append_right _ (List.mem_append_right _ (List.mem_singleton.2 rfl))
      · intro e he hl
        exact List.mem_singleton.1 (returned_events_line rfl he hl)

/-- Witness for C20 as amended, in the simplified Linux kernel: root, whose effective
uid 0 differs from the uid 100 of the licensor, makes the check of line 254; the
process whose effective uid is already 100 does not. -/
theorem impersonate_user_recovery_check_witness :
    (∃ e ∈ (impersonate_user (linux true) scenarioApp.mLicensor [5, 10] rootProc).1.since
        rootProc, e.line = 254) ∧
      ¬ ∃ e ∈ (impersonate_user (linux true) scenarioApp.mLicensor [5, 10]
        licensedProc).1.since licensedProc, e.line = 254 :=
  ⟨(((impersonate_user_recovery_check (linux true) scenarioApp.mLicensor [5, 10] rootProc).2
      (impersonate_user (linux true) scenarioApp.mLicensor [5, 10] rootProc).1
      (by decide)).1).2 (by decide),
    fun h => (((impersonate_user_recovery_check (linux true) scenarioApp.mLicensor [5, 10]
      licensedProc).2
      (impersonate_user (linux true) scenarioApp.mLicensor [5, 10] licensedProc).1
      (by decide)).1).1 h (by decide)⟩

/-! ## A name after a bare dot, and the string the scan starts from -/

theorem splice_dot_name {n : List Char} (hne : n ≠ []) (hs : '/' ∉ n) (hz : NUL ∉ n)
    (h1 : n ≠ ['.']) (h2 : n ≠ ['.', '.']) :
    splice_path (some ['.']) (some n) =
      .ok (if n.head? = some '.' then '.' :: '/' :: n else n) := by
  have e1 : cstr ['.'] = ['.'] := by decide
  have hj : joined ['.'] n = ['.'] ++ '/' :: n := by
    unfold joined
    rw [e1, cstr_self hz, if_neg (by decide), if_neg hne]
  have hsf : splitFirst (['.'] ++ '/' :: n) = (['.'], [n]) := by
    rw [splitFirst_append _ (by decide), splitFirst_noslash hs]
  rw [splice_path_eq, hj]
  unfold normalPath laterNames
  rw [hsf]
  simp only [List.filter_cons, List.filter_nil, ne_eq, hne, not_false_eq_true, decide_True,
    if_true, List.foldl_cons, List.foldl_nil]
  by_cases hd : n.head? = some '.'
  · simp [stepName, finishOut, h1, h2, hd]
  · simp [stepName, finishOut, h1, h2, hd, hne]

theorem splitFirst_concat_slash (s : List Char) :
    splitFirst (s ++ ['/']) = ((splitFirst s).1, (splitFirst s).2 ++ [[]]) := by
  induction s with
  | nil => rfl
  | cons c cs ih =>
    by_cases hc : c = '/'
    · simp [splitFirst, hc, ih]
    · simp [splitFirst, hc, ih]

theorem normalPath_concat_slash (s : List Char) : normalPath (s ++ ['/']) = normalPath s := by
  unfold normalPath laterNames
  rw [splitFirst_concat_slash]
  simp [List.filter_append]

theorem joined_concat (d b : List Char) :
    joined (cstr d ++ '/' :: cstr b) [] = cstr d ++ '/' :: cstr b := by
  apply joined_nil_right
  simp only [List.mem_append, List.mem_cons, not_or]
  exact ⟨cstr_nul_free d, by decide, cstr_nul_free b⟩

/-! ## The components equal to `..` -/

theorem dotDotsLead_iff (cs : List (List Char)) :
    dotDotsLead cs = true ↔
      ∃ k rest, cs = List.replicate k ['.', '.'] ++ rest ∧ ['.', '.'] ∉ rest := by
  unfold dotDotsLead
  constructor
  · intro h
    refine ⟨(cs.takeWhile (fun c => c == ['.', '.'])).length,
      cs.dropWhile (fun c => c == ['.', '.']), ?_, by simpa using h⟩
    have e : cs.takeWhile (fun c => c == ['.', '.']) =
        List.replicate (cs.takeWhile (fun c => c == ['.', '.'])).length ['.', '.'] := by
      rw [List.eq_replicate_iff]
      exact ⟨rfl, fun c hc => by simpa using List.mem_takeWhile_imp hc⟩
    rw [← e, List.takeWhile_append_dropWhile]
  · rintro ⟨k, rest, rfl, hr⟩
    induction k with
    | zero =>
      cases rest with
      | nil => rfl
      | cons c t =>
        have hc : ¬ (c = ['.', '.']) := fun h => hr (by rw [h]; exact List.mem_cons_self _ _)
        simpa [List.dropWhile_cons, hc] using hr
    | succ k ih =>
      simpa [List.replicate_succ, List.dropWhile_cons] using ih

theorem lead_snoc {cs : List (List Char)} {n : List Char}
    (h : ∃ k rest, cs = List.replicate k ['.', '.'] ++ rest ∧ ['.', '.'] ∉ rest)
    (hn : n ≠ ['.', '.']) :
    ∃ k rest, cs ++ [n] = List.replicate k ['.', '.'] ++ rest ∧ ['.', '.'] ∉ rest := by
  obtain ⟨k, rest, rfl, hr⟩ := h
  refine ⟨k, rest ++ [n], by rw [List.append_assoc], ?_⟩
  simp only [List.mem_append, List.mem_singleton, not_or]
  exact ⟨hr, fun h => hn h.symm⟩

theorem lead_snoc_dotdot {cs : List (List Char)}
    (h : ∃ k rest, cs = List.replicate k ['.', '.'] ++ rest ∧ ['.', '.'] ∉ rest)
    (hl : cs.getLast? = some ['.', '.']) :
    ∃ k rest, cs ++ [['.', '.']] = List.replicate k ['.', '.'] ++ rest ∧
      ['.', '.'] ∉ rest := by
  obtain ⟨k, rest, rfl, hr⟩ := h
  have hrest : rest = [] := by
    by_contra hne
    rw [List.getLast?_append_of_ne_nil _ hne] at hl
    exact hr (List.mem_of_getLast?_eq_some hl)
  subst hrest
  refine ⟨k + 1, [], ?_, List.not_mem_nil _⟩
  rw [List.append_nil, List.append_nil, List.replicate_succ', ]

theorem lead_init {cs : List (List Char)} {n : List Char}
    (h : ∃ k rest, cs ++ [n] = List.replicate k ['.', '.'] ++ rest ∧ ['.', '.'] ∉ rest) :
    ∃ k rest, cs = List.replicate k ['.', '.'] ++ rest ∧ ['.', '.'] ∉ rest := by
  obtain ⟨k, rest, e, hr⟩ := h
  rcases List.eq_nil_or_concat rest with rfl | ⟨rest', x, rfl⟩
  · rw [List.append_nil] at e
    cases k with
    | zero => simp at e
    | succ k =>
      rw [List.replicate_succ'] at e
      have := List.append_inj_left' e rfl
      exact ⟨k, [], by rw [this, List.append_nil], List.not_mem_nil _⟩
  · rw [List.concat_eq_append, ← List.append_assoc] at e
    rw [List.concat_eq_append] at hr
    have := List.append_inj_left' e rfl
    refine ⟨k, rest', this, fun h => hr ?_⟩
    exact List.mem_append_left _ h

theorem getLast_components_dotdot {out : List Char} (h : endsWithDotDot out = true) :
    (components out).getLast? = some ['.', '.'] := by
  rcases endsWithDotDot_cases h with rfl | ⟨pre, rfl⟩
  · decide
  · have e : pre ++ ['/', '.', '.'] = pre ++ '/' :: ['.', '.'] := rfl
    rw [e, components_snoc_name pre (by decide)]
    simp

theorem stepName_lead {out name : List Char} (hs : '/' ∉ name)
    (h : ∃ k rest, components out = List.replicate k ['.', '.'] ++ rest ∧ ['.', '.'] ∉ rest) :
    ∃ k rest, components (stepName out name) = List.replicate k ['.', '.'] ++ rest ∧
      ['.', '.'] ∉ rest := by
  have hdot : ∃ k rest, components ['.'] = List.replicate k ['.', '.'] ++ rest ∧
      ['.', '.'] ∉ rest := ⟨0, [['.']], rfl, by decide⟩
  have hroot : ∃ k rest, components ['/'] = List.replicate k ['.', '.'] ++ rest ∧
      ['.', '.'] ∉ rest := ⟨0, [[], []], rfl, by decide⟩
  unfold stepName
  split_ifs with h1 h2 h3 h4 h5 h6 h7 h8 h9
  · exact h
  · exact ⟨0, [[]], rfl, by decide⟩
  · exact ⟨1, [], rfl, List.not_mem_nil _⟩
  · rw [h2, components_snoc_name out (by decide)]
    exact lead_snoc_dotdot h (getLast_components_dotdot h5)
  · exact h
  · by_cases hsl : '/' ∈ out
    · obtain ⟨pre, nm, e, hnm⟩ := exists_last_slash out hsl
      rw [e, retractOut_append pre hnm]
      split_ifs with hp
      · exact hroot
      · rw [e, components_snoc_name pre hnm] at h
        exact lead_init h
    · rw [retractOut_noslash h3 hsl]
      exact hdot
  · have e : components ('/' :: name) = [[], name] := by
      have := components_snoc_name [] hs
      simpa [components, splitFirst] using this
    rw [e]
    exact ⟨0, [[], name], rfl, by simp [Ne.symm h2]⟩
  · rw [components_noslash hs]
    exact ⟨0, [name], rfl, by simp [Ne.symm h2]⟩
  · rw [components_snoc_name out hs]
    exact lead_snoc h h2
  · rw [components_snoc_name out hs]
    exact lead_snoc h h2

theorem normalPath_lead (s : List Char) : dotDotsLead (components (normalPath s)) = true := by
  rw [dotDotsLead_iff]
  have hfold : ∀ (ns : List (List Char)) (out : List Char), (∀ c ∈ ns, '/' ∉ c) →
      (∃ k rest, components out = List.replicate k ['.', '.'] ++ rest ∧ ['.', '.'] ∉ rest) →
      ∃ k rest, components (ns.foldl stepName out) = List.replicate k ['.', '.'] ++ rest ∧
        ['.', '.'] ∉ rest := by
    intro ns
    induction ns with
    | nil => intro out _ h; exact h
    | cons n ns ih =>
      intro out hns h
      exact ih _ (fun c hc => hns c (List.mem_cons_of_mem _ hc))
        (stepName_lead (hns n (List.mem_cons_self _ _)) h)
  have h0 : ∃ k rest, components (splitFirst s).1 = List.replicate k ['.', '.'] ++ rest ∧
      ['.', '.'] ∉ rest := by
    rw [components_noslash (splitFirst_fst_noslash s)]
    by_cases hd : (splitFirst s).1 = ['.', '.']
    · exact ⟨1, [], by rw [hd]; rfl, List.not_mem_nil _⟩
    · exact ⟨0, [(splitFirst s).1], rfl, by simpa using Ne.symm hd⟩
  have := hfold (laterNames s) _ (laterNames_noslash s) h0
  unfold normalPath finishOut
  split_ifs with he
  · exact ⟨0, [[], []], rfl, by decide⟩
  · exact this

theorem joined_length (d b : List Char) :
    (joined d b).length ≤ strlen d + 1 + strlen b := by
  unfold joined strlen
  split_ifs
  · omega
  · omega
  · simp only [List.length_append, List.length_cons]
    omega

theorem fillPathBuf_none_right {d : List Char} (hd : cstr d ≠ []) :
    fillPathBuf (some d) none = fillPathBuf (some d) (some []) := by
  have h1 : (cstr d).length ≠ 0 := fun h => hd (List.length_eq_zero.1 h)
  have h2 : cstr [] = [] := rfl
  simp [fillPathBuf, strlen, h1, h2]

theorem fillPathBuf_none_left (b : List Char) :
    fillPathBuf none (some b) = fillPathBuf (some []) (some b) := by
  have h2 : cstr [] = [] := rfl
  simp [fillPathBuf, strlen, h2]

theorem splice_path_ok (aDirName aBaseName : Option (List Char))
    (h : aBaseName ≠ none ∨ ∃ d, aDirName = some d ∧ cstr d ≠ []) :
    ∃ s, NUL ∉ s ∧ fillPathBuf aDirName aBaseName = .ok (s ++ ['/', NUL]) ∧
      s.length ≤ argLen aDirName + 1 + argLen aBaseName ∧
      splice_path aDirName aBaseName = .ok (normalPath s) := by
  have e0 : strlen [] = 0 := rfl
  cases aDirName with
  | none =>
    cases aBaseName with
    | none =>
      rcases h with h | ⟨d, h, -⟩
      · exact absurd rfl h
      · cases h
    | some b =>
      refine ⟨joined [] b, joined_nul_free _ _, ?_, ?_, ?_⟩
      · rw [fillPathBuf_none_left, fillPathBuf_eq]
      · have := joined_length [] b
        rw [e0] at this
        exact this
      · rw [splice_path_none_left, splice_path_eq]
  | some d =>
    cases aBaseName with
    | none =>
      rcases h with h | ⟨d', h, hd⟩
      · exact absurd rfl h
      · simp only [Option.some.injEq] at h
        subst h
        refine ⟨joined d [], joined_nul_free _ _, ?_, ?_, ?_⟩
        · rw [fillPathBuf_none_right hd, fillPathBuf_eq]
        · have := joined_length d []
          rw [e0] at this
          exact this
        · rw [splice_path_none_right hd, splice_path_eq]
    | some b =>
      exact ⟨joined d b, joined_nul_free _ _, fillPathBuf_eq d b, joined_length d b,
        splice_path_eq d b⟩

/-! ## The passes of the main loop -/

theorem scanLoop_trace :
    ∀ (fuel : Nat) (s s' : Scan), scanLoop fuel s = some s' →
      ∃ last, (scanTrace fuel s).getLast? = some last ∧ scanStep last = some (.stop s') := by
  intro fuel
  induction fuel with
  | zero => intro s s' h; cases h
  | succ fuel ih =>
    intro s s' h
    unfold scanLoop at h
    unfold scanTrace
    split at h
    · cases h
    · rename_i s1 hs
      simp only [Option.some.injEq] at h
      subst h
      rw [hs]
      exact ⟨s, rfl, hs⟩
    · rename_i s1 hs
      obtain ⟨last, h1, h2⟩ := ih s1 s' h
      rw [hs]
      refine ⟨last, ?_, h2⟩
      simp only
      cases ht : scanTrace fuel s1 with
      | nil => rw [ht] at h1; cases h1
      | cons a t =>
        rw [ht] at h1
        rw [List.getLast?_cons_cons]
        exact h1

theorem drop_of_drop {buf buf' A X : List Char} {r r' : Nat} (hlen : buf'.length = buf.length)
    (hD : buf.drop r = A ++ X) (hD' : buf'.drop r' = X) (hX : X ≠ []) :
    r' = r + A.length ∧ buf.drop r' = X := by
  have h1 := length_of_drop hD (by simp [hX])
  have h2 := length_of_drop hD' hX
  rw [List.length_append] at h1
  have e : r' = r + A.length := by omega
  refine ⟨e, ?_⟩
  rw [e, ← List.drop_drop, hD]
  exact List.drop_left' rfl

theorem sentinel_head (k : Nat) (cs : List (List Char)) :
    ∃ t, List.replicate k '/' ++ (slashed cs ++ ['/', NUL]) = '/' :: t := by
  obtain ⟨t, ht⟩ := slashed_sentinel cs
  cases k with
  | zero => exact ⟨t, by rw [ht]; rfl⟩
  | succ k => exact ⟨List.replicate k '/' ++ (slashed cs ++ ['/', NUL]), rfl⟩

theorem scanTrace_spec :
    ∀ (cs : List (List Char)) (k fuel : Nat) (buf out : List Char) (l r : Nat), l ≤ r →
      buf.take l = out → buf.drop r = List.replicate k '/' ++ (slashed cs ++ ['/', NUL]) →
      (∀ c ∈ cs, '/' ∉ c ∧ NUL ∉ c) →
      ∀ s ∈ scanTrace fuel ⟨buf, l, r⟩,
        s.lhsp ≤ s.rhsp ∧ rd s.buf s.rhsp = some '/' ∧ s.buf.length = buf.length ∧
          s.buf.drop s.rhsp = buf.drop s.rhsp ∧ r ≤ s.rhsp := by
  have first : ∀ (cs : List (List Char)) (k : Nat) (buf : List Char) (l r : Nat), l ≤ r →
      buf.drop r = List.replicate k '/' ++ (slashed cs ++ ['/', NUL]) →
      (⟨buf, l, r⟩ : Scan).lhsp ≤ (⟨buf, l, r⟩ : Scan).rhsp ∧
        rd (⟨buf, l, r⟩ : Scan).buf (⟨buf, l, r⟩ : Scan).rhsp = some '/' ∧
        (⟨buf, l, r⟩ : Scan).buf.length = buf.length ∧
        (⟨buf, l, r⟩ : Scan).buf.drop (⟨buf, l, r⟩ : Scan).rhsp =
          buf.drop (⟨buf, l, r⟩ : Scan).rhsp ∧ r ≤ (⟨buf, l, r⟩ : Scan).rhsp := by
    intro cs k buf l r hl hD
    obtain ⟨t, ht⟩ := sentinel_head k cs
    rw [ht] at hD
    exact ⟨hl, by simpa using rd_of_drop_zero hD, rfl, rfl, le_refl _⟩
  intro cs
  induction cs with
  | nil =>
    intro k fuel buf out l r hl hT hD _ s hs
    cases fuel with
    | zero => cases hs
    | succ fuel =>
      obtain ⟨s', a1, -, -⟩ := scanStep_end hl hT (by simpa [slashed] using hD)
      unfold scanTrace at hs
      rw [a1] at hs
      simp only [List.mem_singleton] at hs
      subst hs
      exact first [] k buf l r hl hD
  | cons c cs ih =>
    intro k fuel buf out l r hl hT hD hcs s hs
    have hcs' : ∀ c ∈ cs, '/' ∉ c ∧ NUL ∉ c := fun x hx => hcs x (List.mem_cons_of_mem _ hx)
    by_cases hc : c = []
    · subst hc
      have hD' : buf.drop r = List.replicate (k + 1) '/' ++ (slashed cs ++ ['/', NUL]) := by
        rw [hD, ← replicate_append_slash]
        simp [slashed]
      exact ih (k + 1) fuel buf out l r hl hT hD' hcs' s hs
    · cases fuel with
      | zero => cases hs
      | succ fuel =>
        obtain ⟨t, ht⟩ := slashed_sentinel cs
        have hD' : buf.drop r = List.replicate k '/' ++ '/' :: (c ++ '/' :: t) := by
          rw [hD, ← ht]
          simp [slashed]
        obtain ⟨buf', l', r', a1, a2, a3, a4, a5⟩ :=
          scanStep_name hl hT hD' hc (hcs c (List.mem_cons_self _ _)).1
            (hcs c (List.mem_cons_self _ _)).2
        have hD2 : buf'.drop r' = List.replicate 0 '/' ++ (slashed cs ++ ['/', NUL]) := by
          rw [a3, ht]
          rfl
        have hDA : buf.drop r = (List.replicate k '/' ++ '/' :: c) ++ '/' :: t := by
          rw [hD']
          simp
        obtain ⟨b1, b2⟩ := drop_of_drop a5 hDA a3 (by simp)
        unfold scanTrace at hs
        rw [a1] at hs
        rcases List.mem_cons.1 hs with hs | hs
        · subst hs
          exact first (c :: cs) k buf l r hl hD
        · obtain ⟨c1, c2, c3, c4, c5⟩ := ih 0 fuel buf' (stepName out c) l' r' a4 a2 hD2 hcs' s hs
          refine ⟨c1, c2, c3.trans a5, ?_, by omega⟩
          rw [c4]
          obtain ⟨j, hj⟩ : ∃ j, s.rhsp = r' + j := ⟨s.rhsp - r', by omega⟩
          rw [hj, ← List.drop_drop, ← List.drop_drop, a3, b2]

theorem scanPath_run {s : List Char} (hs : NUL ∉ s) :
    ∃ rhsp final,
      skipName (s ++ ['/', NUL]).length (s ++ ['/', NUL]) 0 = some rhsp ∧
      scanLoop (s ++ ['/', NUL]).length ⟨s ++ ['/', NUL], rhsp, rhsp⟩ = some final ∧
      ∀ x ∈ scanTrace (s ++ ['/', NUL]).length ⟨s ++ ['/', NUL], rhsp, rhsp⟩,
        x.lhsp ≤ x.rhsp ∧ rd x.buf x.rhsp = some '/' ∧
          x.buf.length = (s ++ ['/', NUL]).length ∧
          x.buf.drop x.rhsp = (s ++ ['/', NUL]).drop x.rhsp := by
  have hf : '/' ∉ (splitFirst s).1 := splitFirst_fst_noslash s
  have hcs : ∀ c ∈ (splitFirst s).2, '/' ∉ c ∧ NUL ∉ c :=
    fun c hc => ⟨splitFirst_snd_noslash s c hc, fun hx => hs (splitFirst_snd_sub s hc hx)⟩
  have hj := splitFirst_join s
  generalize (splitFirst s).1 = f at hf hj
  generalize (splitFirst s).2 = cs at hcs hj
  subst hj
  have hlen : (f ++ slashed cs ++ ['/', NUL]).length = f.length + (slashed cs).length + 2 := by
    simp only [List.length_append, List.length_cons, List.length_nil]
  have hcl := length_le_slashed cs
  obtain ⟨t, ht⟩ := slashed_sentinel cs
  have hD0 : (f ++ slashed cs ++ ['/', NUL]).drop 0 = f ++ '/' :: t := by
    rw [List.drop_zero, List.append_assoc, ht]
  have hsk := skipName_spec _ _ _ 0 (f ++ slashed cs ++ ['/', NUL]).length hD0 hf
    (by rw [hlen]; omega)
  rw [zero_add] at hsk
  have hT : (f ++ slashed cs ++ ['/', NUL]).take f.length = f := by
    rw [List.append_assoc]
    exact List.take_left' rfl
  have hD : (f ++ slashed cs ++ ['/', NUL]).drop f.length =
      List.replicate 0 '/' ++ (slashed cs ++ ['/', NUL]) := by
    rw [List.append_assoc]
    exact List.drop_left' rfl
  obtain ⟨s', a1, -, -⟩ := scanLoop_spec cs 0 (f ++ slashed cs ++ ['/', NUL]).length
    (f ++ slashed cs ++ ['/', NUL]) f _ _ (le_refl _) hT hD hcs (by rw [hlen]; omega)
  refine ⟨f.length, s', hsk, a1, fun x hx => ?_⟩
  obtain ⟨c1, c2, c3, c4, -⟩ := scanTrace_spec cs 0 (f ++ slashed cs ++ ['/', NUL]).length
    (f ++ slashed cs ++ ['/', NUL]) f _ _ (le_refl _) hT hD hcs x hx
  exact ⟨c1, c2, c3, c4⟩

/-! ## The name of the licensee directory -/

theorem rdropWhile_root {t : List Char} (ht : '/' ∉ t) :
    ('/' :: t).rdropWhile (fun x => x != '/') = ['/'] := by
  induction t using List.reverseRecOn with
  | nil => simp [List.rdropWhile]
  | append_singleton t a ih =>
    simp only [List.mem_append, List.mem_singleton, not_or] at ht
    have e : '/' :: (t ++ [a]) = ('/' :: t) ++ [a] := rfl
    rw [e, List.rdropWhile_concat_pos _ _ _ (by simpa using Ne.symm ht.2)]
    exact ih ht.1

theorem checkLicenseeDir_rejects {mPath : List Char}
    (h : '/' ∉ cstr mPath ∨ ((cstr mPath).head? = some '/' ∧ '/' ∉ (cstr mPath).tail)) :
    checkLicenseeDir mPath = .exited 127 := by
  unfold checkLicenseeDir strrchr die
  rcases h with h | ⟨h1, h2⟩
  · rw [if_neg h]
  · obtain ⟨t, ht⟩ : ∃ t, cstr mPath = '/' :: t := by
      cases hc : cstr mPath with
      | nil => rw [hc] at h1; cases h1
      | cons c t =>
        rw [hc] at h1
        simp only [List.head?_cons, Option.some.injEq] at h1
        exact ⟨t, by rw [h1]⟩
    rw [ht] at h2
    simp only [List.tail_cons] at h2
    rw [ht, if_pos (List.mem_cons_self _ _), rdropWhile_root h2]
    rfl

theorem identify_cases (P : Platform) (aUid aGid : Nat) (cmd : List Char) :
    (∃ who, identify P aUid aGid cmd = .returned who) ∨
      identify P aUid aGid cmd = .exited 127 := by
  unfold identify die
  repeat' split
  all_goals first | exact Or.inr rfl | exact Or.inl ⟨_, rfl⟩

/-- Claim C21, which the code does not meet.  The names `...` and `.x` hold no slash
and are neither `.` nor `..`, yet `splice_path(".", "...")` returns `./...`, and in
`splice_path("a", "../.x")`, where the emitted path is exactly `.` when `.x` follows,
the result is `./.x`: the overwrite of a bare `.` (lines 133-140) is skipped when the
name starts with a dot.  For the name `x` the dot is dropped. -/
theorem splice_dot_before_dotted_name :
    splice_path (some ['.']) (some ['.', '.', '.']) = .ok ['.', '/', '.', '.', '.'] ∧
      splice_path (some ['a']) (some ['.', '.', '/', '.', 'x']) = .ok ['.', '/', '.', 'x'] ∧
      splice_path (some ['.']) (some ['x']) = .ok ['x'] := by
  decide

/-- Counterexample to C22: with an empty dirName the scan starts from `x/`, not from
`/x/`, so `splice_path("", "x")` is `x` while `splice_path("" ++ "/" ++ "x", "")` is
`/x`. -/
theorem splice_empty_dir_stays_relative :
    splice_path (some []) (some ['x']) = .ok ['x'] ∧
      splice_path (some ([] ++ '/' :: ['x'])) (some []) = .ok ['/', 'x'] := by
  decide

/-- Claim C22 as amended.  For every non-empty dirName and every baseName (an absent
one read as the empty string), `splice_path(dirName, baseName)` is
`splice_path(dirName ++ "/" ++ baseName, "")`.  When dirName is empty or absent the
scan starts from `baseName ++ "/"` alone, and `splice_path(dirName, baseName)` is
`splice_path(baseName, "")`. -/
theorem splice_path_of_concatenation (d b : List Char) :
    (cstr d ≠ [] →
        splice_path (some d) (some b) =
          splice_path (some (cstr d ++ '/' :: cstr b)) (some []) ∧
        splice_path (some d) none = splice_path (some (cstr d ++ '/' :: [])) (some [])) ∧
      (cstr d = [] →
        splice_path (some d) (some b) = splice_path (some b) (some []) ∧
        splice_path none (some b) = splice_path (some b) (some [])) := by
  have e0 : cstr [] = [] := rfl
  have key : cstr d ≠ [] → ∀ b : List Char, splice_path (some d) (some b) =
      splice_path (some (cstr d ++ '/' :: cstr b)) (some []) := by
    intro hd b
    rw [splice_path_eq, splice_path_eq, joined_concat d b]
    unfold joined
    rw [if_neg hd]
    by_cases hb : cstr b = []
    · rw [if_pos hb, hb, normalPath_concat_slash]
    · rw [if_neg hb]
  have key2 : ∀ d : List Char, cstr d = [] → ∀ b : List Char,
      splice_path (some d) (some b) = splice_path (some b) (some []) := by
    intro d hd b
    rw [splice_path_eq, splice_path_eq]
    unfold joined
    rw [if_pos hd, e0]
    by_cases hb : cstr b = []
    · rw [if_pos hb, hb]
    · rw [if_neg hb, if_pos rfl]
  refine ⟨fun hd => ⟨key hd b, ?_⟩, fun hd => ⟨key2 d hd b, ?_⟩⟩
  · rw [splice_path_none_right hd, key hd [], e0]
  · rw [splice_path_none_left, key2 [] e0 b]

/-- Witness for C22 as amended: `splice_path("a/..", "b")` and
`splice_path("a/../b", "")` are both `b`, and `splice_path("", "x")` and
`splice_path("x", "")` are both `x`. -/
theorem splice_path_of_concatenation_witness :
    splice_path (some ['a', '/', '.', '.']) (some ['b']) = .ok ['b'] ∧
      splice_path (some ['a', '/', '.', '.']) (some ['b']) =
        splice_path (some (cstr ['a', '/', '.', '.'] ++ '/' :: cstr ['b'])) (some []) ∧
      splice_path (some []) (some ['x']) = splice_path (some ['x']) (some []) :=
  ⟨by decide,
    ((splice_path_of_concatenation ['a', '/', '.', '.'] ['b']).1 (by decide)).1,
    ((splice_path_of_concatenation [] ['x']).2 (by decide)).1⟩

/-- Claim C23.  When the registration named on the command line opens and the path
of its licensee directory holds no slash, or holds a slash only as its first
character, `license_program` ends in `exit(127)`.  Nothing is assumed of the answers
to `fstat`, `fstatat`, `stat` and `readlinkat`, nor of the password and group
databases, and no pass of a loop is needed: the rejection of lines 914-918 comes
before every ownership and permission check. -/
theorem license_program_rejects_shallow_dir (fuel : Nat) (P : Platform) (optOk : Bool)
    (args : List (List Char)) (aUid aGid : Nat) (env : Env) (n : Nat) (cmd : List Char)
    (licensee : SymlinkFd) (hparse : parseArgs optOk args = .returned (n, cmd))
    (hopen : create_symlinkfd P none cmd = some licensee)
    (hdir : '/' ∉ cstr licensee.mDir.mPath ∨
      ((cstr licensee.mDir.mPath).head? = some '/' ∧
        '/' ∉ (cstr licensee.mDir.mPath).tail)) :
    license_program fuel P optOk args aUid aGid env = .exited 127 := by
  unfold license_program
  rw [hparse]
  simp only [Run.bind]
  rcases identify_cases P aUid aGid cmd with ⟨who, hwho⟩ | hex
  · have hl := identify_licensee hwho
    rw [hopen] at hl
    simp only [Option.some.injEq] at hl
    rw [hwho]
    simp only
    rw [← hl, checkLicenseeDir_rejects hdir]
  · rw [hex]

/-- Witness for C23: on a platform where the parent directory and the symlink would
pass their checks, the registrations `job` (licensee directory `.`) and `/reg/job`
(licensee directory `/reg`) end in `exit(127)`. -/
theorem license_program_rejects_shallow_dir_witness :
    checkParentDir shallowPlatform ⟨6, ['j', 'o', 'b'], ⟨5, ['.']⟩⟩
        ⟨100, 10, ['l', 'i', 'c'], ['/', 'h'], some [5, 10]⟩ = .returned () ∧
      checkSymlinkOwner shallowPlatform ⟨6, ['j', 'o', 'b'], ⟨5, ['.']⟩⟩
        ⟨200, 20, ['r', 'e', 'q'], ['/', 'q'], none⟩ = .returned () ∧
      license_program 3 shallowPlatform true [['j', 'o', 'b']] 200 20 [] = .exited 127 ∧
      license_program 3 shallowPlatform true [['/', 'r', 'e', 'g', '/', 'j', 'o', 'b']] 200 20
        [] = .exited 127 :=
  ⟨by decide, by decide,
    license_program_rejects_shallow_dir 3 shallowPlatform true [['j', 'o', 'b']] 200 20 [] 0
      ['j', 'o', 'b'] ⟨6, ['j', 'o', 'b'], ⟨5, ['.']⟩⟩ (by decide) (by decide)
      (Or.inl (by decide)),
    license_program_rejects_shallow_dir 3 shallowPlatform true
      [['/', 'r', 'e', 'g', '/', 'j', 'o', 'b']] 200 20 [] 0
      ['/', 'r', 'e', 'g', '/', 'j', 'o', 'b'] ⟨4, ['j', 'o', 'b'], ⟨3, ['/', 'r', 'e', 'g']⟩⟩
      (by decide) (by decide) (Or.inr (by decide))⟩

/-- Claim C24.  `splice_path` returns a string whenever baseName is present or dirName
is non-empty, and in every string it returns the components equal to `..` form a
leading run: no component equal to `..` comes after a component that is not `..`. -/
theorem splice_dotdots_lead (aDirName aBaseName : Option (List Char)) :
    ((aBaseName ≠ none ∨ ∃ d, aDirName = some d ∧ cstr d ≠ []) →
        ∃ r, splice_path aDirName aBaseName = .ok r) ∧
      ∀ r, splice_path aDirName aBaseName = .ok r → dotDotsLead (components r) = true := by
  constructor
  · intro h
    obtain ⟨s, -, -, -, hs⟩ := splice_path_ok aDirName aBaseName h
    exact ⟨_, hs⟩
  · intro r hr
    by_cases h : aBaseName ≠ none ∨ ∃ d, aDirName = some d ∧ cstr d ≠ []
    · obtain ⟨s, -, -, -, hs⟩ := splice_path_ok aDirName aBaseName h
      rw [hs] at hr
      simp only [Result.ok.injEq] at hr
      rw [← hr]
      exact normalPath_lead s
    · exfalso
      simp only [not_or, not_not, not_exists, not_and] at h
      obtain ⟨hb, hd⟩ := h
      subst hb
      cases aDirName with
      | none => cases hr
      | some d =>
        have e : (cstr d).length = 0 := by rw [hd d rfl]; rfl
        simp [splice_path, fillPathBuf, strlen, e] at hr

/-- Witness for C24: `splice_path("../a", "../../../b/..")` is `../..`, and
`splice_path("..", "../x")` is `../../x`. -/
theorem splice_dotdots_lead_witness :
    splice_path (some ['.', '.', '/', 'a'])
        (some ['.', '.', '/', '.', '.', '/', '.', '.', '/', 'b', '/', '.', '.']) =
        .ok ['.', '.', '/', '.', '.', '/', '.', '.'] ∧
      dotDotsLead (components ['.', '.', '/', '.', '.', '/', '.', '.']) = true ∧
      dotDotsLead (components ['.', '.', '/', '.', '.', '/', 'x']) = true :=
  ⟨by decide,
    (splice_dotdots_lead (some ['.', '.', '/', 'a'])
      (some ['.', '.', '/', '.', '.', '/', '.', '.', '/', 'b', '/', '.', '.'])).2 _ (by decide),
    (splice_dotdots_lead (some ['.', '.']) (some ['.', '.', '/', 'x'])).2 _ (by decide)⟩

/-- Counterexample to C25: with an empty dirName and an absent baseName, which are
not both absent, line 69 copies from the null pointer `aBaseName`; the call has no
defined behaviour and the scan is never reached. -/
theorem splice_empty_dir_absent_base :
    fillPathBuf (some []) none = .undefined ∧ splice_path (some []) none = .undefined := by
  decide

/-- Claim C25 as amended.  For every dirName and baseName such that baseName is
present or dirName is non-empty, the buffer is filled with at most
`strlen(dirName) + strlen(baseName) + 4` bytes and the in-place scan terminates: the
loop ends in `break` at the last of its passes and `splice_path` returns the scanned
path, every read and write having stayed inside the buffer (a read or write outside
it yields no result here).  At the start of every pass the write cursor is at or
before the read cursor, the read cursor points at a slash, and the buffer from the
read cursor on is as it was filled: no unread input has been overwritten. -/
theorem splice_scan_safe (aDirName aBaseName : Option (List Char))
    (h : aBaseName ≠ none ∨ ∃ d, aDirName = some d ∧ cstr d ≠ []) :
    ∃ pathBuf rhsp last final path,
      fillPathBuf aDirName aBaseName = .ok pathBuf ∧
      pathBuf.length ≤ pathBufLen (argLen aDirName) (argLen aBaseName) ∧
      pathBufLen (argLen aDirName) (argLen aBaseName) =
        argLen aDirName + argLen aBaseName + 4 ∧
      skipName pathBuf.length pathBuf 0 = some rhsp ∧
      scanLoop pathBuf.length ⟨pathBuf, rhsp, rhsp⟩ = some final ∧
      (scanTrace pathBuf.length ⟨pathBuf, rhsp, rhsp⟩).getLast? = some last ∧
      scanStep last = some (.stop final) ∧
      scanPath pathBuf = some path ∧
      splice_path aDirName aBaseName = .ok path ∧
      ∀ s ∈ scanTrace pathBuf.length ⟨pathBuf, rhsp, rhsp⟩,
        s.lhsp ≤ s.rhsp ∧ rd s.buf s.rhsp = some '/' ∧ s.buf.length = pathBuf.length ∧
          s.buf.drop s.rhsp = pathBuf.drop s.rhsp := by
  obtain ⟨s, hz, hfill, hlen, hres⟩ := splice_path_ok aDirName aBaseName h
  obtain ⟨rhsp, final, hsk, hloop, hinv⟩ := scanPath_run hz
  obtain ⟨last, hlast, hstop⟩ := scanLoop_trace _ _ _ hloop
  refine ⟨s ++ ['/', NUL], rhsp, last, final, normalPath s, hfill, ?_, ?_, hsk, hloop, hlast,
    hstop, scanPath_eq hz, hres, hinv⟩
  · unfold pathBufLen
    simp only [List.length_append, List.length_cons, List.length_nil]
    omega
  · unfold pathBufLen
    omega

/-- Witness for C25 as amended: the passes of the scan of `a/../b`, filled from
`splice_path("a", "../b")`, start at the cursors (1, 1), (1, 4) and (1, 6). -/
theorem splice_scan_safe_witness :
    fillPathBuf (some ['a']) (some ['.', '.', '/', 'b']) =
        .ok ['a', '/', '.', '.', '/', 'b', '/', NUL] ∧
      (scanTrace 8 ⟨['a', '/', '.', '.', '/', 'b', '/', NUL], 1, 1⟩).map
        (fun s => (s.lhsp, s.rhsp)) = [(1, 1), (1, 4), (1, 6)] ∧
      splice_path (some ['a']) (some ['.', '.', '/', 'b']) = .ok ['b'] ∧
      ∃ pathBuf rhsp last final path,
        fillPathBuf (some ['a']) (some ['.', '.', '/', 'b']) = .ok pathBuf ∧
        pathBuf.length ≤ pathBufLen (argLen (some ['a'])) (argLen (some ['.', '.', '/', 'b'])) ∧
        pathBufLen (argLen (some ['a'])) (argLen (some ['.', '.', '/', 'b'])) =
          argLen (some ['a']) + argLen (some ['.', '.', '/', 'b']) + 4 ∧
        skipName pathBuf.length pathBuf 0 = some rhsp ∧
        scanLoop pathBuf.length ⟨pathBuf, rhsp, rhsp⟩ = some final ∧
        (scanTrace pathBuf.length ⟨pathBuf, rhsp, rhsp⟩).getLast? = some last ∧
        scanStep last = some (.stop final) ∧
        scanPath pathBuf = some path ∧
        splice_path (some ['a']) (some ['.', '.', '/', 'b']) = .ok path ∧
        ∀ s ∈ scanTrace pathBuf.length ⟨pathBuf, rhsp, rhsp⟩,
          s.lhsp ≤ s.rhsp ∧ rd s.buf s.rhsp = some '/' ∧ s.buf.length = pathBuf.length ∧
            s.buf.drop s.rhsp = pathBuf.drop s.rhsp :=
  ⟨by decide, by decide, by decide,
    splice_scan_safe (some ['a']) (some ['.', '.', '/', 'b']) (Or.inl (by decide))⟩

end Suxec
